import Mathlib

/-!
DAFMPB: node serializers and the GMRES reduction actions.

A shallow embedding of `include/dafmpb_serializer.h` and `src/dafmpb_action.cc`.

Conventions of the embedding.

* `double` is a type parameter `δ`.  The serializers only copy doubles, so they
  ask for nothing but a zero (the value `std::vector::resize` fills with).  The
  inner-product action asks for the operations it uses (zero, sum, difference,
  product, quotient, power) and no law about them; the theorems in exact
  arithmetic are stated over a field, those that need a square root over `ℝ`.
  `Dbl` is a type of doubles in which a quotient by zero is not a number.
* A wire buffer is a map from byte offsets to the object whose representation
  starts there.  `memcpy` out of a field stores the object at `dest`, `memcpy`
  into a field loads the object at `src`; both pointers advance by the `sizeof`
  of what was copied, exactly as in the source.
* `int` values are unbounded integers: the counts that travel as `int` are
  vector lengths, and indices are checked against the vector they address.
* An access outside a vector, a load of something that was never stored and a
  failed `assert` have no defined result: the operation returns `none`.
-/

namespace dafmpb

/-! ## Data model -/

/-- Modelled from the spec: `dashmm::Point`, a position in three dimensions
(the class lives in the DASHMM library, outside this repository). -/
structure Point (δ : Type) where
  x : δ
  y : δ
  z : δ
deriving DecidableEq, Repr

/-- Modelled from the spec: `dafmpb::Patch`, the quadrature patch of a node.
Its header `dafmpb.h` is missing; the fields are those of `struct Patch` in
`include/afmpb.h`. -/
structure Patch (δ : Type) where
  position : Point δ
  normal : Point δ
  weight : δ
deriving DecidableEq, Repr

/-- Modelled from the spec: `dafmpb::Node`, whose declaration (`dafmpb.h`) is
missing.  The fields are those the serializers and the actions touch: `rhs` and
`x0` are `double[2]`, `gmres` is the `std::vector<double>` Krylov buffer with
slot `k` at entries `2k`, `2k+1`, and `cached` is the evaluator's cache. -/
structure Node (δ : Type) where
  index : Int
  position : Point δ
  normal_i : Point δ
  normal_o : Point δ
  patch : List (Patch δ)
  area : δ
  projected : δ
  rhs : δ × δ
  x0 : δ × δ
  gmres : List δ
  cached : List (Int × List δ)
deriving DecidableEq, Repr

/-! ## Vectors -/

/-- Read `v[i]` of a `std::vector<double>`; defined for `0 ≤ i < v.size()`. -/
def vecGet {δ : Type} (v : List δ) (i : Int) : Option δ :=
  if 0 ≤ i then v[i.toNat]? else none

/-- Write `v[i] = a`; defined for `0 ≤ i < v.size()`. -/
def vecSet {δ : Type} (v : List δ) (i : Int) (a : δ) : Option (List δ) :=
  if 0 ≤ i ∧ i.toNat < v.length then some (v.set i.toNat a) else none

/-- The call `v.resize(k)`: keeps the first `k` entries, appends zeros when the
vector was shorter. -/
def resize {δ : Type} [Zero δ] (v : List δ) (k : Nat) : List δ :=
  v.take k ++ List.replicate (k - v.length) 0

/-- The call `v.resize(n)` with an `int` argument: a negative count converts to
a size no vector can have. -/
def resizeInt {δ : Type} [Zero δ] (v : List δ) (n : Int) : Option (List δ) :=
  if 0 ≤ n then some (resize v n.toNat) else none

/-! ## Wire buffers -/

/-- The value of `sizeof(int)` on the LP64 platforms the solver runs on. -/
def sizeofInt : Nat := 4

/-- The value of `sizeof(double)` on the LP64 platforms the solver runs on. -/
def sizeofDouble : Nat := 8

/-- The value of `sizeof(Point)`: three doubles. -/
def sizeofPoint : Nat := 3 * sizeofDouble

/-- The value of `sizeof(Patch)`: two points and a double. -/
def sizeofPatch : Nat := 2 * sizeofPoint + sizeofDouble

/-- An object whose representation sits in a buffer. -/
inductive Obj (δ : Type) where
  | int (v : Int)
  | point (p : Point δ)
  | patch (p : Patch δ)
  | dbl (v : δ)
deriving DecidableEq, Repr

/-- A buffer: the object stored at each byte offset, if any. -/
abbrev Buffer (δ : Type) := Nat → Option (Obj δ)

/-- A buffer nothing has been written to. -/
def Buffer.empty {δ : Type} : Buffer δ := fun _ => none

/-- Copy an object to offset `a` (`memcpy(dest, &obj, sizeof obj)`). -/
def Buffer.store {δ : Type} (b : Buffer δ) (a : Nat) (o : Obj δ) : Buffer δ :=
  fun a' => if a' = a then some o else b a'

/-- Copy an `int` out of offset `a`. -/
def Buffer.loadInt {δ : Type} (b : Buffer δ) (a : Nat) : Option Int :=
  match b a with
  | some (Obj.int v) => some v
  | _ => none

/-- Copy a `Point` out of offset `a`. -/
def Buffer.loadPoint {δ : Type} (b : Buffer δ) (a : Nat) : Option (Point δ) :=
  match b a with
  | some (Obj.point p) => some p
  | _ => none

/-- Copy a `Patch` out of offset `a`. -/
def Buffer.loadPatch {δ : Type} (b : Buffer δ) (a : Nat) : Option (Patch δ) :=
  match b a with
  | some (Obj.patch p) => some p
  | _ => none

/-- Copy a `double` out of offset `a`. -/
def Buffer.loadDouble {δ : Type} (b : Buffer δ) (a : Nat) : Option δ :=
  match b a with
  | some (Obj.dbl v) => some v
  | _ => none

/-- Copy an array of patches to offset `a`, one `sizeof(Patch)` apart
(`memcpy(dest, patch.data(), sizeof(Patch) * n_patches)`). -/
def Buffer.storePatches {δ : Type} (b : Buffer δ) (a : Nat) : List (Patch δ) → Buffer δ
  | [] => b
  | p :: ps => Buffer.storePatches (b.store a (Obj.patch p)) (a + sizeofPatch) ps

/-- Read `k` patches starting at offset `a` (the range `[p, p + k)` handed to
`patch.assign`). -/
def Buffer.loadPatches {δ : Type} (b : Buffer δ) (a : Nat) : Nat → Option (List (Patch δ))
  | 0 => some []
  | k + 1 =>
    match b.loadPatch a, Buffer.loadPatches b (a + sizeofPatch) k with
    | some p, some ps => some (p :: ps)
    | _, _ => none

/-! ## `NodeFullSerializer` -/

namespace NodeFullSerializer

/-- The method `NodeFullSerializer::size`. -/
def size {δ : Type} (n : Node δ) : Nat :=
  sizeofInt * 3 + sizeofPoint * 3 + sizeofPatch * n.patch.length + sizeofDouble * 8

/-- The method `NodeFullSerializer::serialize`: writes the node at offset
`buffer` and returns the buffer together with the final `dest`. -/
def serialize {δ : Type} (n : Node δ) (mem : Buffer δ) (buffer : Nat) :
    Option (Buffer δ × Nat) :=
  let dest := buffer
  let n_patches : Nat := n.patch.length
  let n_gmres : Nat := n.gmres.length
  let bytes := sizeofInt
  let mem := mem.store dest (Obj.int n.index)
  let dest := dest + bytes
  let mem := mem.store dest (Obj.int n_patches)
  let dest := dest + bytes
  let mem := mem.store dest (Obj.int n_gmres)
  let dest := dest + bytes
  let bytes := sizeofPoint
  let mem := mem.store dest (Obj.point n.position)
  let dest := dest + bytes
  let mem := mem.store dest (Obj.point n.normal_i)
  let dest := dest + bytes
  let mem := mem.store dest (Obj.point n.normal_o)
  let dest := dest + bytes
  let bytes := sizeofPatch * n_patches
  let mem := mem.storePatches dest (n.patch.take n_patches)
  let dest := dest + bytes
  let bytes := sizeofDouble
  let mem := mem.store dest (Obj.dbl n.area)
  let dest := dest + bytes
  let mem := mem.store dest (Obj.dbl n.projected)
  let dest := dest + bytes
  let mem := (mem.store dest (Obj.dbl n.rhs.1)).store (dest + bytes) (Obj.dbl n.rhs.2)
  let dest := dest + bytes * 2
  let mem := (mem.store dest (Obj.dbl n.x0.1)).store (dest + bytes) (Obj.dbl n.x0.2)
  let dest := dest + bytes * 2
  match vecGet n.gmres 0, vecGet n.gmres 1 with
  | some g0, some g1 =>
    let mem := (mem.store dest (Obj.dbl g0)).store (dest + bytes) (Obj.dbl g1)
    let dest := dest + bytes * 2
    some (mem, dest)
  | _, _ => none

/-- The method `NodeFullSerializer::deserialize`: fills the node from offset
`buffer` and returns it together with the final `src`. -/
def deserialize {δ : Type} [Zero δ] (mem : Buffer δ) (buffer : Nat) (n : Node δ) :
    Option (Node δ × Nat) :=
  let src := buffer
  let bytes := sizeofInt
  match mem.loadInt src with
  | none => none
  | some index =>
  let src := src + bytes
  match mem.loadInt src with
  | none => none
  | some n_patches =>
  let src := src + bytes
  match mem.loadInt src with
  | none => none
  | some n_gmres =>
  let src := src + bytes
  match resizeInt n.gmres n_gmres with
  | none => none
  | some gmres =>
  let bytes := sizeofPoint
  match mem.loadPoint src with
  | none => none
  | some position =>
  let src := src + bytes
  match mem.loadPoint src with
  | none => none
  | some normal_i =>
  let src := src + bytes
  match mem.loadPoint src with
  | none => none
  | some normal_o =>
  let src := src + bytes
  match (if 0 ≤ n_patches then mem.loadPatches src n_patches.toNat else none) with
  | none => none
  | some patch =>
  let src := src + sizeofPatch * n_patches.toNat
  let bytes := sizeofDouble
  match mem.loadDouble src with
  | none => none
  | some area =>
  let src := src + bytes
  match mem.loadDouble src with
  | none => none
  | some projected =>
  let src := src + bytes
  match mem.loadDouble src with
  | none => none
  | some rhs0 =>
  match mem.loadDouble (src + bytes) with
  | none => none
  | some rhs1 =>
  let src := src + bytes * 2
  match mem.loadDouble src with
  | none => none
  | some x00 =>
  match mem.loadDouble (src + bytes) with
  | none => none
  | some x01 =>
  let src := src + bytes * 2
  match mem.loadDouble src with
  | none => none
  | some v0 =>
  match mem.loadDouble (src + bytes) with
  | none => none
  | some v1 =>
  match vecSet gmres 0 v0 with
  | none => none
  | some gmres =>
  match vecSet gmres 1 v1 with
  | none => none
  | some gmres =>
  let src := src + bytes * 2
  some ({ n with index := index, position := position, normal_i := normal_i,
                 normal_o := normal_o, patch := patch, area := area, projected := projected,
                 rhs := (rhs0, rhs1), x0 := (x00, x01), gmres := gmres }, src)

end NodeFullSerializer

/-! ## `NodePartialSerializer` -/

namespace NodePartialSerializer

/-- The method `NodePartialSerializer::size`. -/
def size {δ : Type} (_n : Node δ) : Nat :=
  sizeofInt * 2 + sizeofPoint * 2 + sizeofDouble * 3

/-- The method `NodePartialSerializer::serialize`.  The argument `iter` is the
value `builtin_dafmpb_table_->s_iter()` returns when the call is made. -/
def serialize {δ : Type} (iter : Int) (n : Node δ) (mem : Buffer δ) (buffer : Nat) :
    Option (Buffer δ × Nat) :=
  let dest := buffer
  let n_gmres : Nat := n.gmres.length
  let bytes := sizeofInt
  let mem := mem.store dest (Obj.int n.index)
  let dest := dest + bytes
  let mem := mem.store dest (Obj.int n_gmres)
  let dest := dest + bytes
  let bytes := sizeofPoint
  let mem := mem.store dest (Obj.point n.position)
  let dest := dest + bytes
  let mem := mem.store dest (Obj.point n.normal_i)
  let dest := dest + bytes
  let bytes := sizeofDouble
  let mem := mem.store dest (Obj.dbl n.area)
  let dest := dest + bytes
  let bytes := sizeofDouble * 2
  match vecGet n.gmres (2 * iter) with
  | none => none
  | some v0 =>
  match vecGet n.gmres (2 * iter + 1) with
  | none => none
  | some v1 =>
  let mem := (mem.store dest (Obj.dbl v0)).store (dest + sizeofDouble) (Obj.dbl v1)
  let dest := dest + bytes
  some (mem, dest)

/-- The method `NodePartialSerializer::deserialize`, with `iter` the value
`builtin_dafmpb_table_->s_iter()` returns when the call is made. -/
def deserialize {δ : Type} [Zero δ] (iter : Int) (mem : Buffer δ) (buffer : Nat)
    (n : Node δ) : Option (Node δ × Nat) :=
  let src := buffer
  let bytes := sizeofInt
  match mem.loadInt src with
  | none => none
  | some index =>
  let src := src + bytes
  match mem.loadInt src with
  | none => none
  | some n_gmres =>
  let src := src + bytes
  match resizeInt n.gmres n_gmres with
  | none => none
  | some gmres =>
  let bytes := sizeofPoint
  match mem.loadPoint src with
  | none => none
  | some position =>
  let src := src + bytes
  match mem.loadPoint src with
  | none => none
  | some normal_i =>
  let src := src + bytes
  let bytes := sizeofDouble
  match mem.loadDouble src with
  | none => none
  | some area =>
  let src := src + bytes
  let bytes := sizeofDouble * 2
  match mem.loadDouble src with
  | none => none
  | some v0 =>
  match mem.loadDouble (src + sizeofDouble) with
  | none => none
  | some v1 =>
  match vecSet gmres (2 * iter) v0 with
  | none => none
  | some gmres =>
  match vecSet gmres (2 * iter + 1) v1 with
  | none => none
  | some gmres =>
  let src := src + bytes
  some ({ n with index := index, position := position, normal_i := normal_i,
                 area := area, gmres := gmres }, src)

end NodePartialSerializer

/-! ## `NodeMinimumSerializer` -/

namespace NodeMinimumSerializer

/-- The method `NodeMinimumSerializer::size`. -/
def size {δ : Type} (_n : Node δ) : Nat :=
  sizeofInt + sizeofPoint * 2 + sizeofDouble * 5

/-- The method `NodeMinimumSerializer::serialize`. -/
def serialize {δ : Type} (n : Node δ) (mem : Buffer δ) (buffer : Nat) :
    Option (Buffer δ × Nat) :=
  let dest := buffer
  let bytes := sizeofInt
  let mem := mem.store dest (Obj.int n.index)
  let dest := dest + bytes
  let bytes := sizeofPoint
  let mem := mem.store dest (Obj.point n.position)
  let dest := dest + bytes
  let mem := mem.store dest (Obj.point n.normal_o)
  let dest := dest + bytes
  let bytes := sizeofDouble * 2
  match vecGet n.gmres 0 with
  | none => none
  | some g0 =>
  match vecGet n.gmres 1 with
  | none => none
  | some g1 =>
  let mem := (mem.store dest (Obj.dbl g0)).store (dest + sizeofDouble) (Obj.dbl g1)
  let dest := dest + bytes
  let mem := (mem.store dest (Obj.dbl n.rhs.1)).store (dest + sizeofDouble) (Obj.dbl n.rhs.2)
  let dest := dest + bytes
  let mem := mem.store dest (Obj.dbl n.area)
  let dest := dest + sizeofDouble
  some (mem, dest)

/-- The method `NodeMinimumSerializer::deserialize`; `v[k]` is the double at
`src + k * sizeof(double)`. -/
def deserialize {δ : Type} [Zero δ] (mem : Buffer δ) (buffer : Nat) (n : Node δ) :
    Option (Node δ × Nat) :=
  let src := buffer
  let bytes := sizeofInt
  match mem.loadInt src with
  | none => none
  | some index =>
  let src := src + bytes
  let bytes := sizeofPoint
  match mem.loadPoint src with
  | none => none
  | some position =>
  let src := src + bytes
  match mem.loadPoint src with
  | none => none
  | some normal_o =>
  let src := src + bytes
  let gmres := resize n.gmres 2
  let v := fun (k : Nat) => mem.loadDouble (src + sizeofDouble * k)
  match v 0 with
  | none => none
  | some v0 =>
  match vecSet gmres 0 v0 with
  | none => none
  | some gmres =>
  match v 1 with
  | none => none
  | some v1 =>
  match vecSet gmres 1 v1 with
  | none => none
  | some gmres =>
  match v 2 with
  | none => none
  | some v2 =>
  match v 3 with
  | none => none
  | some v3 =>
  match v 4 with
  | none => none
  | some v4 =>
  let src := src + sizeofDouble * 5
  some ({ n with index := index, position := position, normal_o := normal_o,
                 gmres := gmres, rhs := (v2, v3), area := v4 }, src)

end NodeMinimumSerializer

/-! ## The sum reduction -/

/-- The function `sum_ident_handler`: zero the first `bytes / sizeof(double)`
doubles of `input`. -/
def sum_ident_handler {δ : Type} [Zero δ] (input : List δ) (bytes : Nat) : Option (List δ) :=
  let count := bytes / sizeofDouble
  (List.range count).foldlM (fun (input : List δ) (i : Nat) => vecSet input (i : Int) 0) input

/-- The function `sum_op_handler`: `lhs[i] += rhs[i]` for the first
`bytes / sizeof(double)` doubles. -/
def sum_op_handler {δ : Type} [Add δ] (lhs rhs : List δ) (bytes : Nat) : Option (List δ) :=
  let count := bytes / sizeofDouble
  (List.range count).foldlM (fun (lhs : List δ) (i : Nat) =>
    match vecGet lhs (i : Int), vecGet rhs (i : Int) with
    | some a, some b => vecSet lhs (i : Int) (a + b)
    | _, _ => none) lhs

/-- Modelled from the spec: the reduction channel that `allocate_reducer_handler`
creates with `hpx_lco_reduce_new(num_ranks, sizeof(double), sum_ident_op_, sum_op_)`
(the LCO itself is part of HPX).  Its one-double buffer is put in the identity
state, every rank's `hpx_lco_set` is combined into it with the operator, and
`hpx_lco_get` hands the combined value to every rank. -/
def lco_reduce {δ : Type} [Zero δ] [Add δ] (contributions : List δ) : Option δ :=
  match sum_ident_handler [(0 : δ)] sizeofDouble with
  | none => none
  | some ident =>
  match contributions.foldlM (fun acc c => sum_op_handler acc [c] sizeofDouble) ident with
  | none => none
  | some acc => vecGet acc 0

/-! ## The generalized inner product -/

/-- First half of `inner_product_handler` (up to `hpx_lco_set`): the value
`temp` a rank computes over its own segment `nodes`. -/
def inner_product_local {δ : Type} [Zero δ] [Add δ] [Mul δ] [Pow δ ℕ] (nodes : List (Node δ))
    (x y : Int) : Option δ :=
  let temp : δ := 0
  if x = y ∨ x = -y then
    if x = -1 then
      -- Compute ||rhs||_2
      some (nodes.foldl (fun temp n => temp + (n.rhs.1 ^ 2 + n.rhs.2 ^ 2)) temp)
    else
      -- Compute ||q_x||_2
      nodes.foldlM (fun temp n =>
        match vecGet n.gmres (2 * x), vecGet n.gmres (2 * x + 1) with
        | some a, some b => some (temp + (a ^ 2 + b ^ 2))
        | _, _ => none) temp
  else
    -- assert(x != -1 && y != -1)
    if x ≠ -1 ∧ y ≠ -1 then
      -- Compute <q_x, q_y>
      nodes.foldlM (fun temp n =>
        match vecGet n.gmres (2 * x), vecGet n.gmres (2 * y),
              vecGet n.gmres (2 * x + 1), vecGet n.gmres (2 * y + 1) with
        | some a, some b, some c, some d => some (temp + (a * b + c * d))
        | _, _, _, _ => none) temp
    else none

/-- The statement `gmres[2 * x] /= temp; gmres[2 * x + 1] /= temp` on one node. -/
def normalize_slot {δ : Type} [Div δ] (x : Int) (temp : δ) (n : Node δ) : Option (Node δ) :=
  match vecGet n.gmres (2 * x) with
  | none => none
  | some a =>
  match vecSet n.gmres (2 * x) (a / temp) with
  | none => none
  | some gmres =>
  match vecGet gmres (2 * x + 1) with
  | none => none
  | some b =>
  match vecSet gmres (2 * x + 1) (b / temp) with
  | none => none
  | some gmres => some { n with gmres := gmres }

/-- The statement `gmres[2 * x] -= temp * gmres[2 * y];
gmres[2 * x + 1] -= temp * gmres[2 * y + 1]` on one node. -/
def project_slot {δ : Type} [Sub δ] [Mul δ] (x y : Int) (temp : δ) (n : Node δ) :
    Option (Node δ) :=
  match vecGet n.gmres (2 * x), vecGet n.gmres (2 * y) with
  | some a, some b =>
    match vecSet n.gmres (2 * x) (a - temp * b) with
    | none => none
    | some gmres =>
    match vecGet gmres (2 * x + 1), vecGet gmres (2 * y + 1) with
    | some c, some d =>
      match vecSet gmres (2 * x + 1) (c - temp * d) with
      | none => none
      | some gmres => some { n with gmres := gmres }
    | _, _ => none
  | _, _ => none

/-- Second half of `inner_product_handler` (after `hpx_lco_get`): the action on
the rank's segment and the value passed to `hpx_exit`; `temp` is the reduced
value and `sqrt` the library square root. -/
def inner_product_update {δ : Type} [Sub δ] [Mul δ] [Div δ] (sqrt : δ → δ)
    (nodes : List (Node δ)) (x y : Int) (temp : δ) : Option (List (Node δ) × δ) :=
  if x = y then
    let temp := sqrt temp
    if x ≠ -1 then
      -- Normalize q_x
      match nodes.mapM (normalize_slot x temp) with
      | none => none
      | some nodes => some (nodes, temp)
    else some (nodes, temp)
  else if x ≠ -y then
    -- Overwrite q_x with q_x - temp * q_y
    match nodes.mapM (project_slot x y temp) with
    | none => none
    | some nodes => some (nodes, temp)
  else some (nodes, temp)

/-- The action `inner_product_handler` on one rank: `nodes` is the rank's
segment and `reduce` is what `hpx_lco_set` followed by `hpx_lco_get` on the
reducer returns for the rank's contribution. -/
def inner_product_handler {δ : Type} [Zero δ] [Add δ] [Sub δ] [Mul δ] [Div δ] [Pow δ ℕ]
    (sqrt : δ → δ) (reduce : δ → Option δ) (nodes : List (Node δ)) (x y : Int) :
    Option (List (Node δ) × δ) :=
  match inner_product_local nodes x y with
  | none => none
  | some temp =>
  match reduce temp with
  | none => none
  | some temp => inner_product_update sqrt nodes x y temp

/-- The call `hpx_run_spmd(&inner_product_, ...)`: every rank runs
`inner_product_handler` on its segment of `nodes_`, the reducer combines the
contributions of all ranks; the result lists, per rank, the segment afterwards
and the value the rank exits with. -/
def inner_product_spmd {δ : Type} [Zero δ] [Add δ] [Sub δ] [Mul δ] [Div δ] [Pow δ ℕ]
    (sqrt : δ → δ) (nodes_ : List (List (Node δ))) (x y : Int) :
    Option (List (List (Node δ) × δ)) :=
  match nodes_.mapM (fun nodes => inner_product_local nodes x y) with
  | none => none
  | some contributions =>
  nodes_.mapM (fun nodes =>
    inner_product_handler sqrt (fun _ => lco_reduce contributions) nodes x y)

/-- The method `DAFMPB::generalizedInnerProduct`: the node store afterwards
and `retval`, the value rank 0 exits with.  The reducer is reset after the run,
so every call starts from the identity. -/
def generalizedInnerProduct {δ : Type} [Zero δ] [Add δ] [Sub δ] [Mul δ] [Div δ] [Pow δ ℕ]
    (sqrt : δ → δ) (nodes_ : List (List (Node δ))) (x y : Int) :
    Option (List (List (Node δ)) × δ) :=
  let retval : δ := 0
  match inner_product_spmd sqrt nodes_ x y with
  | none => none
  | some results =>
    let retval := match results.head? with
      | some r => r.2
      | none => retval
    some (results.map Prod.fst, retval)

/-! ## The restart update and the right-hand-side set-up -/

/-- One pass of the inner loop of `linear_combination_handler` on one node:
`x0 += c[j] * gmres[2j .. 2j+1]`, then the slot is zeroed.  The state is the
pair `(x0, gmres)`. -/
def linear_combination_step {δ : Type} [Field δ] (c : List δ) (s : (δ × δ) × List δ)
    (j : Nat) : Option ((δ × δ) × List δ) :=
  match vecGet c (j : Int), vecGet s.2 (2 * (j : Int)), vecGet s.2 (2 * (j : Int) + 1) with
  | some cj, some a, some b =>
    let x0 := (s.1.1 + cj * a, s.1.2 + cj * b)
    match vecSet s.2 (2 * (j : Int)) 0 with
    | none => none
    | some gmres =>
    match vecSet gmres (2 * (j : Int) + 1) 0 with
    | none => none
    | some gmres => some (x0, gmres)
  | _, _, _ => none

/-- The body of the outer loop of `linear_combination_handler` on one node:
the passes `j = 0 .. k`, then slot `k + 1` is zeroed and the new guess `x0` is
copied to slot 0. -/
def linear_combination_node {δ : Type} [Field δ] (c : List δ) (k : Int) (n : Node δ) :
    Option (Node δ) :=
  match (List.range (k + 1).toNat).foldlM (linear_combination_step c) (n.x0, n.gmres) with
  | none => none
  | some (x0, gmres) =>
  match vecSet gmres (2 * k + 2) 0 with
  | none => none
  | some gmres =>
  match vecSet gmres (2 * k + 3) 0 with
  | none => none
  | some gmres =>
  -- Copy the new guess to q0 slot
  match vecSet gmres 0 x0.1 with
  | none => none
  | some gmres =>
  match vecSet gmres 1 x0.2 with
  | none => none
  | some gmres => some { n with x0 := x0, gmres := gmres }

/-- The action `linear_combination_handler` on one rank's segment `nodes`, with
coefficient array `c` and last index `k`. -/
def linear_combination_handler {δ : Type} [Field δ] (nodes : List (Node δ)) (c : List δ)
    (k : Int) : Option (List (Node δ)) :=
  nodes.mapM (linear_combination_node c k)

/-- The method `DAFMPB::linearCombination`: every rank runs
`linear_combination_handler` on its segment with the coefficients `c`. -/
def linearCombination {δ : Type} [Field δ] (nodes_ : List (List (Node δ))) (c : List δ)
    (k : Int) : Option (List (List (Node δ))) :=
  nodes_.mapM (fun nodes => linear_combination_handler nodes c k)

/-- The function `set_rhs` on a segment `n` of `count = n.length` nodes. -/
def set_rhs {δ : Type} [Field δ] (n : List (Node δ)) (dielectric : δ) :
    Option (List (Node δ)) :=
  n.mapM (fun (nd : Node δ) =>
    let rhs := (nd.rhs.1 / dielectric, nd.rhs.2 / dielectric)
    let x0 := (rhs.1, rhs.2)
    match vecSet nd.gmres 0 rhs.1 with
    | none => none
    | some gmres =>
    match vecSet gmres 1 rhs.2 with
    | none => none
    | some gmres => some { nd with rhs := rhs, x0 := x0, gmres := gmres })

/-- The node `NodeFullSerializer::deserialize` leaves behind when it reads what
was written for `n` into `m`; `g0`, `g1` are the first two Krylov entries of `n`. -/
def fullImage {δ : Type} [Zero δ] (n m : Node δ) (g0 g1 : δ) : Node δ :=
  { m with index := n.index, position := n.position, normal_i := n.normal_i,
           normal_o := n.normal_o, patch := n.patch, area := n.area,
           projected := n.projected, rhs := n.rhs, x0 := n.x0,
           gmres := ((resize m.gmres n.gmres.length).set 0 g0).set 1 g1 }

/-- The buffer `NodeFullSerializer::serialize` leaves behind. -/
def fullWire {δ : Type} (n : Node δ) (mem : Buffer δ) (base : Nat) (g0 g1 : δ) : Buffer δ :=
  ((((((((Buffer.storePatches ((((((mem.store base (Obj.int n.index)).store (base + 4)
    (Obj.int n.patch.length)).store (base + 8) (Obj.int n.gmres.length)).store (base + 12)
    (Obj.point n.position)).store (base + 36) (Obj.point n.normal_i)).store (base + 60)
    (Obj.point n.normal_o)) (base + 84) n.patch).store (base + 84 + 56 * n.patch.length)
    (Obj.dbl n.area)).store (base + 84 + 56 * n.patch.length + 8)
    (Obj.dbl n.projected)).store (base + 84 + 56 * n.patch.length + 16)
    (Obj.dbl n.rhs.1)).store (base + 84 + 56 * n.patch.length + 24)
    (Obj.dbl n.rhs.2)).store (base + 84 + 56 * n.patch.length + 32)
    (Obj.dbl n.x0.1)).store (base + 84 + 56 * n.patch.length + 40)
    (Obj.dbl n.x0.2)).store (base + 84 + 56 * n.patch.length + 48)
    (Obj.dbl g0)).store (base + 84 + 56 * n.patch.length + 56) (Obj.dbl g1)

/-- The buffer `NodePartialSerializer::serialize` leaves behind; `v0`, `v1` are
the two entries of the selected slot. -/
def partialWire {δ : Type} (n : Node δ) (mem : Buffer δ) (base : Nat) (v0 v1 : δ) : Buffer δ :=
  ((((((mem.store base (Obj.int n.index)).store (base + 4) (Obj.int n.gmres.length)).store
    (base + 8) (Obj.point n.position)).store (base + 32) (Obj.point n.normal_i)).store
    (base + 56) (Obj.dbl n.area)).store (base + 64) (Obj.dbl v0)).store (base + 72) (Obj.dbl v1)

/-- The node `NodePartialSerializer::deserialize` leaves behind when it runs at
iteration `j` on what was written for `n` with slot values `v0`, `v1`. -/
def partialImage {δ : Type} [Zero δ] (n m : Node δ) (j : Nat) (v0 v1 : δ) : Node δ :=
  { m with index := n.index, position := n.position, normal_i := n.normal_i, area := n.area,
           gmres := ((resize m.gmres n.gmres.length).set (2 * j) v0).set (2 * j + 1) v1 }

/-- The buffer `NodeMinimumSerializer::serialize` leaves behind. -/
def minimumWire {δ : Type} (n : Node δ) (mem : Buffer δ) (base : Nat) (g0 g1 : δ) : Buffer δ :=
  (((((((mem.store base (Obj.int n.index)).store (base + 4) (Obj.point n.position)).store
    (base + 28) (Obj.point n.normal_o)).store (base + 52) (Obj.dbl g0)).store (base + 60)
    (Obj.dbl g1)).store (base + 68) (Obj.dbl n.rhs.1)).store (base + 76)
    (Obj.dbl n.rhs.2)).store (base + 84) (Obj.dbl n.area)

/-- The node `NodeMinimumSerializer::deserialize` leaves behind when it reads
what was written for `n` into `m`. -/
def minimumImage {δ : Type} [Zero δ] (n m : Node δ) (g0 g1 : δ) : Node δ :=
  { m with index := n.index, position := n.position, normal_o := n.normal_o,
           gmres := ((resize m.gmres 2).set 0 g0).set 1 g1, rhs := n.rhs, area := n.area }

/-! ## Quantities the inner-product claims speak of -/

/-- Squared norm of the right-hand side of one node: `rhs[0]^2 + rhs[1]^2`. -/
def rhsSq {δ : Type} [Field δ] (n : Node δ) : δ :=
  n.rhs.1 ^ 2 + n.rhs.2 ^ 2

/-- Squared norm of Krylov slot `x` of one node: `gmres[2x]^2 + gmres[2x+1]^2`. -/
def slotSq {δ : Type} [Field δ] (x : Nat) (n : Node δ) : δ :=
  n.gmres.getD (2 * x) 0 ^ 2 + n.gmres.getD (2 * x + 1) 0 ^ 2

/-- Inner product of the Krylov slots `x` and `y` of one node:
`gmres[2x] * gmres[2y] + gmres[2x+1] * gmres[2y+1]`. -/
def slotDot {δ : Type} [Field δ] (x y : Nat) (n : Node δ) : δ :=
  n.gmres.getD (2 * x) 0 * n.gmres.getD (2 * y) 0
    + n.gmres.getD (2 * x + 1) 0 * n.gmres.getD (2 * y + 1) 0

/-- The node with the two entries of slot `x` divided by `r`, nothing else changed. -/
def scaleSlot {δ : Type} [Zero δ] [Div δ] (x : Nat) (r : δ) (n : Node δ) : Node δ :=
  { n with
    gmres := (n.gmres.set (2 * x) (n.gmres.getD (2 * x) 0 / r)).set (2 * x + 1)
               (n.gmres.getD (2 * x + 1) 0 / r) }

/-- The node with `h` times slot `y` subtracted from slot `x`, nothing else changed. -/
def subSlot {δ : Type} [Field δ] (x y : Nat) (h : δ) (n : Node δ) : Node δ :=
  { n with
    gmres := (n.gmres.set (2 * x) (n.gmres.getD (2 * x) 0 - h * n.gmres.getD (2 * y) 0)).set
               (2 * x + 1) (n.gmres.getD (2 * x + 1) 0 - h * n.gmres.getD (2 * y + 1) 0) }

/-- Every node of the store holds slot `x`: entries `2x` and `2x+1` exist. -/
def slotInRange {δ : Type} (x : Nat) (nodes_ : List (List (Node δ))) : Prop :=
  ∀ nodes ∈ nodes_, ∀ n ∈ nodes, 2 * x + 1 < n.gmres.length

/-! ## Example nodes -/

/-- A node with two patches and a four-entry Krylov buffer. -/
def exNode : Node Int :=
  { index := 7, position := ⟨1, 2, 3⟩, normal_i := ⟨4, 5, 6⟩, normal_o := ⟨7, 8, 9⟩,
    patch := [⟨⟨1, 1, 1⟩, ⟨2, 2, 2⟩, 3⟩, ⟨⟨4, 4, 4⟩, ⟨5, 5, 5⟩, 6⟩], area := 10, projected := 11,
    rhs := (12, 13), x0 := (14, 15), gmres := [16, 17, 18, 19], cached := [(1, [2])] }

/-- A receiving node with a six-entry Krylov buffer. -/
def exBlank : Node Int :=
  { index := 0, position := ⟨0, 0, 0⟩, normal_i := ⟨1, 1, 1⟩, normal_o := ⟨2, 2, 2⟩,
    patch := [⟨⟨9, 9, 9⟩, ⟨8, 8, 8⟩, 7⟩], area := 0, projected := 5,
    rhs := (6, 7), x0 := (8, 9), gmres := [1, 2, 3, 4, 5, 6], cached := [(3, [4])] }

/-- A node over the rationals with the given right-hand side and Krylov buffer. -/
def qNode (r0 r1 : ℚ) (g : List ℚ) : Node ℚ :=
  { index := 0, position := ⟨0, 0, 0⟩, normal_i := ⟨0, 0, 0⟩, normal_o := ⟨0, 0, 0⟩,
    patch := [], area := 0, projected := 0,
    rhs := (r0, r1), x0 := (0, 0), gmres := g, cached := [] }

/-- A node over the reals with the given right-hand side and Krylov buffer. -/
def rNode (r0 r1 : ℝ) (g : List ℝ) : Node ℝ :=
  { index := 0, position := ⟨0, 0, 0⟩, normal_i := ⟨0, 0, 0⟩, normal_o := ⟨0, 0, 0⟩,
    patch := [], area := 0, projected := 0,
    rhs := (r0, r1), x0 := (0, 0), gmres := g, cached := [] }

/-- Four rational nodes on two ranks, `rhs = [1, 0]`, two Krylov slots each. -/
def qStore : List (List (Node ℚ)) :=
  [[qNode 1 0 [3, 4, 1, 2], qNode 1 0 [0, 0, 2, 1]],
   [qNode 1 0 [0, 0, 1, 1], qNode 1 0 [0, 0, 0, 3]]]

/-- The sum over `j < t` of `c[j] * gmres[2j + off]`: the amount the restart
update adds to component `off` of `x0` after `t` passes. -/
def coefSum {δ : Type} [Field δ] (c g : List δ) (off t : Nat) : δ :=
  ((List.range t).map (fun j => c.getD j 0 * g.getD (2 * j + off) 0)).sum

/-- The node after the restart update with coefficients `c[0..k]`: `x0` has
gained the sum of `c[j]` times slot `j`, Krylov entries 0 and 1 hold the new
`x0`, entries `2 .. 2k+3` are zero, everything else is as before. -/
def restartImage {δ : Type} [Field δ] (c : List δ) (k : Nat) (n : Node δ) : Node δ :=
  { n with
    x0 := (n.x0.1 + coefSum c n.gmres 0 (k + 1), n.x0.2 + coefSum c n.gmres 1 (k + 1)),
    gmres := n.gmres.mapIdx (fun i v =>
      if i = 0 then n.x0.1 + coefSum c n.gmres 0 (k + 1)
      else if i = 1 then n.x0.2 + coefSum c n.gmres 1 (k + 1)
      else if i < 2 * k + 4 then 0 else v) }

/-- Four rational nodes on two ranks with `x0 = [1, 2]` and three Krylov slots. -/
def qStore6 : List (List (Node ℚ)) :=
  [[{ qNode 1 0 [3, 4, 1, 2, 5, 6] with x0 := (1, 2) },
    { qNode 1 0 [0, 0, 2, 1, 7, 8] with x0 := (1, 2) }],
   [{ qNode 1 0 [0, 0, 1, 1, 0, 1] with x0 := (1, 2) },
    { qNode 1 0 [0, 0, 0, 3, 1, 0] with x0 := (1, 2) }]]

/-- Every node of the store has at least `len` Krylov entries. -/
def krylovAtLeast {δ : Type} (len : Nat) (nodes_ : List (List (Node δ))) : Prop :=
  ∀ nodes ∈ nodes_, ∀ n ∈ nodes, len ≤ n.gmres.length

/-- A node whose Krylov slots 0 and 1 hold the same two values. -/
def exTwin : Node Int :=
  { exNode with gmres := [16, 17, 16, 17] }

/-- The node `set_rhs` makes of `n`: `rhs` divided by the dielectric constant,
`x0` and Krylov entries 0, 1 set to the new `rhs`. -/
def rhsImage {δ : Type} [Field δ] (dielectric : δ) (n : Node δ) : Node δ :=
  { n with
    rhs := (n.rhs.1 / dielectric, n.rhs.2 / dielectric),
    x0 := (n.rhs.1 / dielectric, n.rhs.2 / dielectric),
    gmres := (n.gmres.set 0 (n.rhs.1 / dielectric)).set 1 (n.rhs.2 / dielectric) }

/-- Global inner product of the Krylov slots `x` and `y`: the sum over all nodes
of the store of `gmres[2x] * gmres[2y] + gmres[2x+1] * gmres[2y+1]`. -/
def globalDot {δ : Type} [Field δ] (x y : Nat) (nodes_ : List (List (Node δ))) : δ :=
  (nodes_.flatten.map (slotDot x y)).sum

/-- The Krylov slots `0 .. m` of the store are pairwise orthogonal and each has
global norm 1. -/
def Orthonormal {δ : Type} [Field δ] (m : Nat) (nodes_ : List (List (Node δ))) : Prop :=
  ∀ i j, i ≤ m → j ≤ m → globalDot i j nodes_ = if i = j then 1 else 0

/-- Modelled from the spec: the orthogonalisation of `ARNOLDI_STEP(k)`, whose
driver is not among the sources.  The generalized inner product is called with
the selectors `(k+1, j)` for `j = 0 .. k` in increasing order, each call on the
store the previous one left; the result is the store and the list of returned
coefficients. -/
def orthogonalize {δ : Type} [Field δ] (sqrt : δ → δ) (k : Nat)
    (nodes_ : List (List (Node δ))) : Option (List (List (Node δ)) × List δ) :=
  (List.range (k + 1)).foldlM (fun (s : List (List (Node δ)) × List δ) (j : Nat) =>
    match generalizedInnerProduct sqrt s.1 ((k + 1 : Nat) : Int) (j : Int) with
    | none => none
    | some r => some (r.1, s.2 ++ [r.2])) (nodes_, [])

/-- Modelled from the spec: the transition `ARNOLDI_STEP(k)`, whose driver is
not among the sources.  The operator evaluator `op k` writes slot `k+1` from
slot `k`; slot `k+1` is orthogonalised against the slots `0 .. k`; slot `k+1`
is normalised with the NORM mode.  The result is the store, the coefficients
and the norm the last call returned. -/
def arnoldi_step {δ : Type} [Field δ] (sqrt : δ → δ)
    (op : Nat → List (List (Node δ)) → Option (List (List (Node δ)))) (k : Nat)
    (nodes_ : List (List (Node δ))) : Option (List (List (Node δ)) × List δ × δ) :=
  match op k nodes_ with
  | none => none
  | some nodes_ =>
  match orthogonalize sqrt k nodes_ with
  | none => none
  | some s =>
  match generalizedInnerProduct sqrt s.1 ((k + 1 : Nat) : Int) ((k + 1 : Nat) : Int) with
  | none => none
  | some r => some (r.1, s.2, r.2)

/-- Modelled from the spec: slot 0 is normalised with the NORM mode `(0, 0)` and
the transitions `ARNOLDI_STEP(k)` for `k = 0 .. m-1` follow.  The result is the
store and the norms the NORM calls returned, in order. -/
def arnoldi {δ : Type} [Field δ] (sqrt : δ → δ)
    (op : Nat → List (List (Node δ)) → Option (List (List (Node δ)))) :
    Nat → List (List (Node δ)) → Option (List (List (Node δ)) × List δ)
  | 0, nodes_ =>
    match generalizedInnerProduct sqrt nodes_ ((0 : Nat) : Int) ((0 : Nat) : Int) with
    | none => none
    | some r => some (r.1, [r.2])
  | m + 1, nodes_ =>
    match arnoldi sqrt op m nodes_ with
    | none => none
    | some s =>
    match arnoldi_step sqrt op m s.1 with
    | none => none
    | some r => some (r.1, s.2 ++ [r.2.2])

/-- The operator evaluator `op` is total on stores that hold the slots `0 .. m`,
keeps these slots in range and, at step `k < m`, leaves the inner products of
the slots `0 .. k` as they were (it writes slot `k+1` only). -/
def WritesNextSlot {δ : Type} [Field δ]
    (op : Nat → List (List (Node δ)) → Option (List (List (Node δ)))) (m : Nat) : Prop :=
  ∀ k nodes_, k < m → (∀ i, i ≤ m → slotInRange i nodes_) →
    ∃ out, op k nodes_ = some out ∧ (∀ i, i ≤ m → slotInRange i out) ∧
      ∀ i j, i ≤ k → j ≤ k → globalDot i j out = globalDot i j nodes_

/-- The node with a copy of slot `src` written into slot `dst`. -/
def copySlot {δ : Type} [Field δ] (src dst : Nat) (n : Node δ) : Node δ :=
  { n with
    gmres := (n.gmres.set (2 * dst) (n.gmres.getD (2 * src) 0)).set (2 * dst + 1)
               (n.gmres.getD (2 * src + 1) 0) }

/-- Modelled from the spec: the identity operator evaluator, which returns its
input unchanged: at step `k` slot `k+1` receives a copy of slot `k`. -/
def identity_operator {δ : Type} [Field δ] (k : Nat) (nodes_ : List (List (Node δ))) :
    Option (List (List (Node δ))) :=
  some (nodes_.map (List.map (copySlot k (k + 1))))

/-- The node with slot `src` turned by a quarter turn written into slot `dst`:
`[a, b]` becomes `[-b, a]`. -/
def turnSlot {δ : Type} [Field δ] (src dst : Nat) (n : Node δ) : Node δ :=
  { n with
    gmres := (n.gmres.set (2 * dst) (-(n.gmres.getD (2 * src + 1) 0))).set (2 * dst + 1)
               (n.gmres.getD (2 * src) 0) }

/-- An example operator evaluator: at step `k` slot `k+1` receives slot `k`
turned by a quarter turn on every node. -/
def quarter_turn_operator {δ : Type} [Field δ] (k : Nat) (nodes_ : List (List (Node δ))) :
    Option (List (List (Node δ))) :=
  some (nodes_.map (List.map (turnSlot k (k + 1))))

/-- A one-node real store whose slot 0 is the unit vector `[1, 0]`. -/
def rStoreUnit : List (List (Node ℝ)) :=
  [[rNode 0 0 [1, 0, 0, 0]]]

/-- A `double` that can fail to be a number.  `fin q` is the finite value `q`,
kept exact (no rounding); `nan` is the not-a-number of IEEE 754, which
`0.0 / 0.0` gives and which every operation passes on.  A nonzero value over
zero, an infinity in IEEE 754, is not told apart from it. -/
inductive Dbl where
  | fin (q : ℚ)
  | nan
deriving DecidableEq

/-- The sum of two doubles. -/
def Dbl.add : Dbl → Dbl → Dbl
  | .fin a, .fin b => .fin (a + b)
  | _, _ => .nan

/-- The difference of two doubles. -/
def Dbl.sub : Dbl → Dbl → Dbl
  | .fin a, .fin b => .fin (a - b)
  | _, _ => .nan

/-- The product of two doubles. -/
def Dbl.mul : Dbl → Dbl → Dbl
  | .fin a, .fin b => .fin (a * b)
  | _, _ => .nan

/-- The quotient of two doubles; a quotient by zero is not a number. -/
def Dbl.div : Dbl → Dbl → Dbl
  | .fin a, .fin b => if b = 0 then .nan else .fin (a / b)
  | _, _ => .nan

/-- The library call `pow(a, k)` for a natural exponent. -/
def Dbl.pow : Dbl → ℕ → Dbl
  | .fin a, k => .fin (a ^ k)
  | .nan, 0 => .fin 1
  | .nan, _ => .nan

/-- The library call `sqrt(a)`, with the rational square root on finite values. -/
def Dbl.sqrt : Dbl → Dbl
  | .fin a => if a < 0 then .nan else .fin (Rat.sqrt a)
  | .nan => .nan

instance : Zero Dbl := ⟨Dbl.fin 0⟩

instance : Add Dbl := ⟨Dbl.add⟩

instance : Sub Dbl := ⟨Dbl.sub⟩

instance : Mul Dbl := ⟨Dbl.mul⟩

instance : Div Dbl := ⟨Dbl.div⟩

instance : Pow Dbl ℕ := ⟨Dbl.pow⟩

/-- The value `temp` a rank accumulates over its segment in NORM mode, added in
the order of the loop: `temp += gmres[2x]^2 + gmres[2x+1]^2`, from 0. -/
def localSq {δ : Type} [Zero δ] [Add δ] [Pow δ ℕ] (x : Nat) (nodes : List (Node δ)) : δ :=
  nodes.foldl (fun temp n => temp + (n.gmres.getD (2 * x) 0 ^ 2 + n.gmres.getD (2 * x + 1) 0 ^ 2))
    0

/-- The reduced sum of squares of slot `x`: the contributions of the ranks added
to the identity of the reducer in rank order. -/
def reducedSq {δ : Type} [Zero δ] [Add δ] [Pow δ ℕ] (x : Nat) (nodes_ : List (List (Node δ))) :
    δ :=
  (nodes_.map (localSq x)).foldl (fun acc c => acc + c) 0

/-- A node over `Dbl` with finite `rhs` and the Krylov buffer `g`. -/
def dNode (g : List Dbl) : Node Dbl :=
  { index := 0, position := ⟨0, 0, 0⟩, normal_i := ⟨0, 0, 0⟩, normal_o := ⟨0, 0, 0⟩,
    patch := [], area := 0, projected := 0,
    rhs := (Dbl.fin 1, Dbl.fin 0), x0 := (0, 0), gmres := g, cached := [] }

/-- One node on each of two ranks whose Krylov slot 0 is zero. -/
def dStoreZ : List (List (Node Dbl)) :=
  [[dNode [Dbl.fin 0, Dbl.fin 0, Dbl.fin 1, Dbl.fin 0]],
   [dNode [Dbl.fin 0, Dbl.fin 0, Dbl.fin 0, Dbl.fin 1]]]

/-! ## Buffer lemmas -/

theorem Buffer.store_same {δ : Type} (b : Buffer δ) (a : Nat) (o : Obj δ) :
    b.store a o a = some o := by
  simp [Buffer.store]

theorem Buffer.store_ne {δ : Type} (b : Buffer δ) (a a' : Nat) (o : Obj δ) (h : a' ≠ a) :
    b.store a o a' = b a' := by
  simp [Buffer.store, h]

theorem Buffer.storePatches_lt {δ : Type} (ps : List (Patch δ)) (b : Buffer δ) (a a' : Nat)
    (h : a' < a) : b.storePatches a ps a' = b a' := by
  induction ps generalizing b a with
  | nil => rfl
  | cons p ps ih =>
    rw [Buffer.storePatches, ih _ _ (by omega), Buffer.store_ne _ _ _ _ (by omega)]

theorem Buffer.loadPatches_congr {δ : Type} (k : Nat) (b₁ b₂ : Buffer δ) (a : Nat)
    (h : ∀ a', a ≤ a' → a' < a + sizeofPatch * k → b₁ a' = b₂ a') :
    b₁.loadPatches a k = b₂.loadPatches a k := by
  induction k generalizing a with
  | zero => rfl
  | succ k ih =>
    have h0 : b₁ a = b₂ a := h a (Nat.le_refl a) (by simp [sizeofPatch, sizeofPoint, sizeofDouble])
    have h1 : b₁.loadPatches (a + sizeofPatch) k = b₂.loadPatches (a + sizeofPatch) k :=
      ih (a + sizeofPatch) (fun a' h₁ h₂ => h a' (by omega) (by rw [Nat.mul_succ]; omega))
    simp only [Buffer.loadPatches, Buffer.loadPatch, h0, h1]

theorem Buffer.loadPatches_storePatches {δ : Type} (ps : List (Patch δ)) (b : Buffer δ)
    (a : Nat) : (b.storePatches a ps).loadPatches a ps.length = some ps := by
  induction ps generalizing b a with
  | nil => rfl
  | cons p ps ih =>
    have hlt : a < a + sizeofPatch := by simp [sizeofPatch, sizeofPoint, sizeofDouble]
    simp only [Buffer.storePatches, List.length_cons, Buffer.loadPatches, Buffer.loadPatch,
      Buffer.storePatches_lt _ _ _ _ hlt, Buffer.store_same, ih]

theorem length_resize {δ : Type} [Zero δ] (v : List δ) (k : Nat) : (resize v k).length = k := by
  simp only [resize, List.length_append, List.length_take, List.length_replicate]
  omega

theorem full_serialize_eq {δ : Type} (n : Node δ) (mem : Buffer δ) (base : Nat)
    (g0 g1 : δ) (rest : List δ) (hn : n.gmres = g0 :: g1 :: rest) :
    NodeFullSerializer.serialize n mem base
      = some (fullWire n mem base g0 g1, base + NodeFullSerializer.size n) := by
  simp only [NodeFullSerializer.serialize, hn, vecGet, List.take_length, le_refl, if_true,
    Int.toNat_zero, List.getElem?_cons_zero, zero_le_one, Int.toNat_one, List.getElem?_cons_succ,
    Option.some.injEq, Prod.mk.injEq, fullWire, NodeFullSerializer.size, sizeofInt, sizeofPoint,
    sizeofPatch, sizeofDouble, Nat.add_assoc, Nat.reduceAdd, Nat.reduceMul]

theorem full_loadPatches {δ : Type} (n : Node δ) (mem : Buffer δ) (base : Nat) (g0 g1 : δ) :
    (fullWire n mem base g0 g1).loadPatches (base + 84) n.patch.length = some n.patch := by
  rw [Buffer.loadPatches_congr _ (fullWire n mem base g0 g1)
    (Buffer.storePatches ((((((mem.store base (Obj.int n.index)).store (base + 4)
    (Obj.int n.patch.length)).store (base + 8) (Obj.int n.gmres.length)).store (base + 12)
    (Obj.point n.position)).store (base + 36) (Obj.point n.normal_i)).store (base + 60)
    (Obj.point n.normal_o)) (base + 84) n.patch)]
  · exact Buffer.loadPatches_storePatches _ _ _
  · intro a' _ h₂
    simp only [sizeofPatch, sizeofPoint, sizeofDouble] at h₂
    simp only [fullWire]
    repeat rw [Buffer.store_ne _ _ _ _ (by omega)]

theorem fullWire_at {δ : Type} (n : Node δ) (mem : Buffer δ) (base : Nat) (g0 g1 : δ) :
    (∀ a, a = base → fullWire n mem base g0 g1 a = some (Obj.int n.index)) ∧
    (∀ a, a = base + 4 → fullWire n mem base g0 g1 a = some (Obj.int n.patch.length)) ∧
    (∀ a, a = base + 8 → fullWire n mem base g0 g1 a = some (Obj.int n.gmres.length)) ∧
    (∀ a, a = base + 12 → fullWire n mem base g0 g1 a = some (Obj.point n.position)) ∧
    (∀ a, a = base + 36 → fullWire n mem base g0 g1 a = some (Obj.point n.normal_i)) ∧
    (∀ a, a = base + 60 → fullWire n mem base g0 g1 a = some (Obj.point n.normal_o)) ∧
    (∀ a, a = base + 84 + 56 * n.patch.length → fullWire n mem base g0 g1 a = some (Obj.dbl n.area)) ∧
    (∀ a, a = base + 84 + 56 * n.patch.length + 8 → fullWire n mem base g0 g1 a = some (Obj.dbl n.projected)) ∧
    (∀ a, a = base + 84 + 56 * n.patch.length + 16 → fullWire n mem base g0 g1 a = some (Obj.dbl n.rhs.1)) ∧
    (∀ a, a = base + 84 + 56 * n.patch.length + 24 → fullWire n mem base g0 g1 a = some (Obj.dbl n.rhs.2)) ∧
    (∀ a, a = base + 84 + 56 * n.patch.length + 32 → fullWire n mem base g0 g1 a = some (Obj.dbl n.x0.1)) ∧
    (∀ a, a = base + 84 + 56 * n.patch.length + 40 → fullWire n mem base g0 g1 a = some (Obj.dbl n.x0.2)) ∧
    (∀ a, a = base + 84 + 56 * n.patch.length + 48 → fullWire n mem base g0 g1 a = some (Obj.dbl g0)) ∧
    (∀ a, a = base + 84 + 56 * n.patch.length + 56 → fullWire n mem base g0 g1 a = some (Obj.dbl g1)) := by
  refine ⟨?_, ?_, ?_, ?_, ?_, ?_, ?_, ?_, ?_, ?_, ?_, ?_, ?_, ?_⟩ <;> intro a ha <;> subst ha <;>
    simp (disch := omega) only [fullWire, Buffer.store_same, Buffer.store_ne,
      Buffer.storePatches_lt]

theorem full_deserialize_eq {δ : Type} [Zero δ] (n m : Node δ) (mem : Buffer δ) (base : Nat)
    (g0 g1 : δ) (rest : List δ) (hn : n.gmres = g0 :: g1 :: rest) :
    NodeFullSerializer.deserialize (fullWire n mem base g0 g1) base m
      = some (fullImage n m g0 g1, base + NodeFullSerializer.size n) := by
  have hp := full_loadPatches n mem base g0 g1
  obtain ⟨h0, h1, h2, h3, h4, h5, h6, h7, h8, h9, h10, h11, h12, h13⟩ :=
    fullWire_at n mem base g0 g1
  have hp' : ∀ a, a = base + 84 →
      (fullWire n mem base g0 g1).loadPatches a n.patch.length = some n.patch :=
    fun a ha => ha ▸ hp
  have hlen : 2 ≤ n.gmres.length := by simp [hn]
  simp (disch := omega) only [NodeFullSerializer.deserialize, Buffer.loadInt, Buffer.loadPoint,
    Buffer.loadDouble, sizeofInt, sizeofPoint, sizeofPatch, sizeofDouble, Int.toNat_ofNat,
    h0, h1, h2, h3, h4, h5, h6, h7, h8, h9, h10, h11, h12, h13, hp', resizeInt, vecSet,
    Int.ofNat_nonneg, if_true, Int.toNat_zero, Int.toNat_one, length_resize, List.length_set,
    le_refl, zero_le_one, true_and, if_pos, fullImage, NodeFullSerializer.size,
    Prod.mk.eta, Option.some.injEq, Prod.mk.injEq]
  omega

theorem vecGet_natCast {δ : Type} (v : List δ) (k : Nat) : vecGet v (k : Int) = v[k]? := by
  simp [vecGet]

theorem vecSet_natCast {δ : Type} (v : List δ) (k : Nat) (a : δ) (h : k < v.length) :
    vecSet v (k : Int) a = some (v.set k a) := by
  simp [vecSet, h]

theorem two_mul_natCast (i : Nat) : (2 * (i : Int)) = ((2 * i : Nat) : Int) := by
  push_cast
  rfl

theorem natCast_add_one (k : Nat) : ((k : Int) + 1) = ((k + 1 : Nat) : Int) := by
  push_cast
  rfl

theorem partial_serialize_eq {δ : Type} (n : Node δ) (mem : Buffer δ) (base : Nat) (i : Nat)
    (v0 v1 : δ) (h0 : n.gmres[2 * i]? = some v0) (h1 : n.gmres[2 * i + 1]? = some v1) :
    NodePartialSerializer.serialize (i : Int) n mem base
      = some (partialWire n mem base v0 v1, base + NodePartialSerializer.size n) := by
  simp only [NodePartialSerializer.serialize, two_mul_natCast, natCast_add_one,
    vecGet_natCast, h0, h1, partialWire, NodePartialSerializer.size, sizeofInt, sizeofPoint,
    sizeofDouble, Nat.add_assoc, Nat.reduceAdd, Nat.reduceMul]

theorem partialWire_at {δ : Type} (n : Node δ) (mem : Buffer δ) (base : Nat) (v0 v1 : δ) :
    (∀ a, a = base → partialWire n mem base v0 v1 a = some (Obj.int n.index)) ∧
    (∀ a, a = base + 4 → partialWire n mem base v0 v1 a = some (Obj.int n.gmres.length)) ∧
    (∀ a, a = base + 8 → partialWire n mem base v0 v1 a = some (Obj.point n.position)) ∧
    (∀ a, a = base + 32 → partialWire n mem base v0 v1 a = some (Obj.point n.normal_i)) ∧
    (∀ a, a = base + 56 → partialWire n mem base v0 v1 a = some (Obj.dbl n.area)) ∧
    (∀ a, a = base + 64 → partialWire n mem base v0 v1 a = some (Obj.dbl v0)) ∧
    (∀ a, a = base + 72 → partialWire n mem base v0 v1 a = some (Obj.dbl v1)) := by
  refine ⟨?_, ?_, ?_, ?_, ?_, ?_, ?_⟩ <;> intro a ha <;> subst ha <;>
    simp (disch := omega) only [partialWire, Buffer.store_same, Buffer.store_ne]

theorem partial_deserialize_eq {δ : Type} [Zero δ] (n m : Node δ) (mem : Buffer δ)
    (base : Nat) (j : Nat) (v0 v1 : δ) (hj : 2 * j + 1 < n.gmres.length) :
    NodePartialSerializer.deserialize (j : Int) (partialWire n mem base v0 v1) base m
      = some (partialImage n m j v0 v1, base + NodePartialSerializer.size n) := by
  obtain ⟨h0, h1, h2, h3, h4, h5, h6⟩ := partialWire_at n mem base v0 v1
  have e0 : vecSet (resize m.gmres n.gmres.length) ((2 * j : Nat) : Int) v0
      = some ((resize m.gmres n.gmres.length).set (2 * j) v0) :=
    vecSet_natCast _ _ _ (by rw [length_resize]; omega)
  have e1 : vecSet ((resize m.gmres n.gmres.length).set (2 * j) v0) ((2 * j + 1 : Nat) : Int) v1
      = some (((resize m.gmres n.gmres.length).set (2 * j) v0).set (2 * j + 1) v1) :=
    vecSet_natCast _ _ _ (by rw [List.length_set, length_resize]; omega)
  simp (disch := omega) only [NodePartialSerializer.deserialize, Buffer.loadInt,
    Buffer.loadPoint, Buffer.loadDouble, sizeofInt, sizeofPoint, sizeofDouble, Int.toNat_ofNat,
    h0, h1, h2, h3, h4, h5, h6, resizeInt, Int.ofNat_nonneg, if_true, two_mul_natCast,
    natCast_add_one, e0, e1, partialImage,
    NodePartialSerializer.size, Option.some.injEq, Prod.mk.injEq, true_and]

theorem minimum_serialize_eq {δ : Type} (n : Node δ) (mem : Buffer δ) (base : Nat)
    (g0 g1 : δ) (rest : List δ) (hn : n.gmres = g0 :: g1 :: rest) :
    NodeMinimumSerializer.serialize n mem base
      = some (minimumWire n mem base g0 g1, base + NodeMinimumSerializer.size n) := by
  simp only [NodeMinimumSerializer.serialize, hn, vecGet, le_refl, if_true,
    Int.toNat_zero, List.getElem?_cons_zero, zero_le_one, Int.toNat_one, List.getElem?_cons_succ,
    minimumWire, NodeMinimumSerializer.size, sizeofInt, sizeofPoint,
    sizeofDouble, Nat.add_assoc, Nat.reduceAdd, Nat.reduceMul]

theorem minimumWire_at {δ : Type} (n : Node δ) (mem : Buffer δ) (base : Nat) (g0 g1 : δ) :
    (∀ a, a = base → minimumWire n mem base g0 g1 a = some (Obj.int n.index)) ∧
    (∀ a, a = base + 4 → minimumWire n mem base g0 g1 a = some (Obj.point n.position)) ∧
    (∀ a, a = base + 28 → minimumWire n mem base g0 g1 a = some (Obj.point n.normal_o)) ∧
    (∀ a, a = base + 52 → minimumWire n mem base g0 g1 a = some (Obj.dbl g0)) ∧
    (∀ a, a = base + 60 → minimumWire n mem base g0 g1 a = some (Obj.dbl g1)) ∧
    (∀ a, a = base + 68 → minimumWire n mem base g0 g1 a = some (Obj.dbl n.rhs.1)) ∧
    (∀ a, a = base + 76 → minimumWire n mem base g0 g1 a = some (Obj.dbl n.rhs.2)) ∧
    (∀ a, a = base + 84 → minimumWire n mem base g0 g1 a = some (Obj.dbl n.area)) := by
  refine ⟨?_, ?_, ?_, ?_, ?_, ?_, ?_, ?_⟩ <;> intro a ha <;> subst ha <;>
    simp (disch := omega) only [minimumWire, Buffer.store_same, Buffer.store_ne]

theorem minimum_deserialize_eq {δ : Type} [Zero δ] (n m : Node δ) (mem : Buffer δ)
    (base : Nat) (g0 g1 : δ) :
    NodeMinimumSerializer.deserialize (minimumWire n mem base g0 g1) base m
      = some (minimumImage n m g0 g1, base + NodeMinimumSerializer.size n) := by
  obtain ⟨h0, h1, h2, h3, h4, h5, h6, h7⟩ := minimumWire_at n mem base g0 g1
  simp (disch := omega) only [NodeMinimumSerializer.deserialize, Buffer.loadInt,
    Buffer.loadPoint, Buffer.loadDouble, sizeofInt, sizeofPoint, sizeofDouble,
    h0, h1, h2, h3, h4, h5, h6, h7, vecSet, le_refl, zero_le_one, Int.toNat_zero, Int.toNat_one,
    true_and, length_resize, List.length_set, if_pos, minimumImage,
    NodeMinimumSerializer.size, Prod.mk.eta, Option.some.injEq, Prod.mk.injEq]

/-! ## Lemmas on the reduction -/

theorem sum_ident_handler_one {δ : Type} [Zero δ] (a : δ) :
    sum_ident_handler [a] sizeofDouble = some [0] := by
  simp [sum_ident_handler, sizeofDouble, vecSet, List.range_succ]

theorem sum_op_handler_one {δ : Type} [Add δ] (a c : δ) :
    sum_op_handler [a] [c] sizeofDouble = some [a + c] := by
  simp [sum_op_handler, sizeofDouble, vecSet, vecGet, List.range_succ]

theorem foldlM_sum_op {δ : Type} [AddMonoid δ] (cs : List δ) (a : δ) :
    cs.foldlM (fun acc c => sum_op_handler acc [c] sizeofDouble) [a] = some [a + cs.sum] := by
  induction cs generalizing a with
  | nil => simp
  | cons c cs ih => simp [sum_op_handler_one, ih, add_assoc]

theorem lco_reduce_eq {δ : Type} [AddMonoid δ] (cs : List δ) : lco_reduce cs = some cs.sum := by
  simp [lco_reduce, sum_ident_handler_one, foldlM_sum_op, vecGet]

theorem mapM_eq_some_map {α β : Type} (f : α → Option β) (g : α → β) (l : List α)
    (h : ∀ a ∈ l, f a = some (g a)) : l.mapM f = some (l.map g) := by
  induction l with
  | nil => rfl
  | cons a l ih =>
    have ha := h a (List.mem_cons_self a l)
    have hl := ih (fun b hb => h b (List.mem_cons_of_mem a hb))
    rw [List.mapM_cons, ha, hl]
    rfl

theorem foldl_add_eq_sum {δ α : Type} [AddMonoid δ] (f : α → δ) (l : List α) (init : δ) :
    l.foldl (fun t a => t + f a) init = init + (l.map f).sum := by
  induction l generalizing init with
  | nil => simp
  | cons a l ih => simp [ih, add_assoc]

theorem foldlM_add_eq_sum {δ α : Type} [AddMonoid δ] (F : δ → α → Option δ) (f : α → δ)
    (l : List α) (init : δ) (h : ∀ a ∈ l, ∀ t, F t a = some (t + f a)) :
    l.foldlM F init = some (init + (l.map f).sum) := by
  induction l generalizing init with
  | nil => simp
  | cons a l ih =>
    have ha := h a (List.mem_cons_self a l) init
    have hl := ih (init + f a) (fun b hb => h b (List.mem_cons_of_mem a hb))
    simp [ha, hl, add_assoc]

theorem sum_map_flatten {δ α : Type} [AddMonoid δ] (f : α → δ) (L : List (List α)) :
    (L.flatten.map f).sum = (L.map (fun l => (l.map f).sum)).sum := by
  induction L with
  | nil => rfl
  | cons l L ih =>
    simp only [List.flatten_cons, List.map_append, List.sum_append, List.map_cons,
      List.sum_cons, ih]

theorem getElem?_eq_some_getD {δ : Type} (v : List δ) (k : Nat) (d : δ) (h : k < v.length) :
    v[k]? = some (v.getD k d) := by
  simp [List.getD, List.getElem?_eq_getElem h]

/-! ## Lemmas on `inner_product_handler` -/

theorem natCast_ne_neg_one (x : Nat) : (x : Int) ≠ -1 := by omega

theorem local_rhs {δ : Type} [Field δ] (nodes : List (Node δ)) (y : Int)
    (hy : (-1 : Int) = y ∨ (-1 : Int) = -y) :
    inner_product_local nodes (-1) y = some ((nodes.map rhsSq).sum) := by
  have h := foldl_add_eq_sum (rhsSq (δ := δ)) nodes 0
  simp only [zero_add] at h
  simp only [inner_product_local, hy, if_true, rhsSq] at h ⊢
  rw [h]

theorem local_norm {δ : Type} [Field δ] (nodes : List (Node δ)) (x : Nat) (y : Int)
    (hy : (x : Int) = y ∨ (x : Int) = -y) (hx : ∀ n ∈ nodes, 2 * x + 1 < n.gmres.length) :
    inner_product_local nodes x y = some ((nodes.map (slotSq x)).sum) := by
  have h := foldlM_add_eq_sum (fun (temp : δ) (n : Node δ) =>
      match vecGet n.gmres (2 * (x : Int)), vecGet n.gmres (2 * (x : Int) + 1) with
      | some a, some b => some (temp + (a ^ 2 + b ^ 2))
      | _, _ => none) (slotSq x) nodes 0 (by
    intro n hn t
    have h1 := hx n hn
    simp only [two_mul_natCast, natCast_add_one, vecGet_natCast,
      getElem?_eq_some_getD n.gmres (2 * x) 0 (by omega),
      getElem?_eq_some_getD n.gmres (2 * x + 1) 0 h1, slotSq])
  simp only [zero_add] at h
  simp only [inner_product_local, hy, if_true, natCast_ne_neg_one, if_false]
  exact h

theorem local_dot {δ : Type} [Field δ] (nodes : List (Node δ)) (x y : Nat) (hxy : x ≠ y)
    (hx : ∀ n ∈ nodes, 2 * x + 1 < n.gmres.length)
    (hy : ∀ n ∈ nodes, 2 * y + 1 < n.gmres.length) :
    inner_product_local nodes x y = some ((nodes.map (slotDot x y)).sum) := by
  have h := foldlM_add_eq_sum (fun (temp : δ) (n : Node δ) =>
      match vecGet n.gmres (2 * (x : Int)), vecGet n.gmres (2 * (y : Int)),
            vecGet n.gmres (2 * (x : Int) + 1), vecGet n.gmres (2 * (y : Int) + 1) with
      | some a, some b, some c, some d => some (temp + (a * b + c * d))
      | _, _, _, _ => none) (slotDot x y) nodes 0 (by
    intro n hn t
    have h1 := hx n hn
    have h2 := hy n hn
    simp only [two_mul_natCast, natCast_add_one, vecGet_natCast,
      getElem?_eq_some_getD n.gmres (2 * x) 0 (by omega),
      getElem?_eq_some_getD n.gmres (2 * x + 1) 0 h1,
      getElem?_eq_some_getD n.gmres (2 * y) 0 (by omega),
      getElem?_eq_some_getD n.gmres (2 * y + 1) 0 h2, slotDot])
  simp only [zero_add] at h
  have e1 : ¬ ((x : Int) = y ∨ (x : Int) = -y) := by omega
  simp only [inner_product_local, e1, if_false, natCast_ne_neg_one, ne_eq, not_false_eq_true,
    and_self, if_true]
  exact h

theorem normalize_slot_eq {δ : Type} [Zero δ] [Div δ] (x : Nat) (r : δ) (n : Node δ)
    (hx : 2 * x + 1 < n.gmres.length) :
    normalize_slot (x : Int) r n = some (scaleSlot x r n) := by
  have h0 : 2 * x < n.gmres.length := by omega
  simp only [normalize_slot, two_mul_natCast, natCast_add_one, vecGet_natCast,
    getElem?_eq_some_getD n.gmres (2 * x) 0 h0, vecSet_natCast _ _ _ h0]
  have e : ((n.gmres.set (2 * x) (n.gmres.getD (2 * x) 0 / r))[2 * x + 1]?)
      = some (n.gmres.getD (2 * x + 1) 0) := by
    rw [List.getElem?_set_ne (by omega)]
    exact getElem?_eq_some_getD _ _ _ hx
  simp only [e]
  rw [vecSet_natCast _ _ _ (by rw [List.length_set]; exact hx)]
  simp only [scaleSlot]

theorem project_slot_eq {δ : Type} [Field δ] (x y : Nat) (h : δ) (n : Node δ)
    (hx : 2 * x + 1 < n.gmres.length) (hy : 2 * y + 1 < n.gmres.length) :
    project_slot (x : Int) (y : Int) h n = some (subSlot x y h n) := by
  have h0 : 2 * x < n.gmres.length := by omega
  have h1 : 2 * y < n.gmres.length := by omega
  simp only [project_slot, two_mul_natCast, natCast_add_one, vecGet_natCast,
    getElem?_eq_some_getD n.gmres (2 * x) 0 h0, getElem?_eq_some_getD n.gmres (2 * y) 0 h1,
    vecSet_natCast _ _ _ h0]
  have e : ((n.gmres.set (2 * x) (n.gmres.getD (2 * x) 0 - h * n.gmres.getD (2 * y) 0))[2 * x
      + 1]?) = some (n.gmres.getD (2 * x + 1) 0) := by
    rw [List.getElem?_set_ne (by omega)]
    exact getElem?_eq_some_getD _ _ _ hx
  have e' : ((n.gmres.set (2 * x) (n.gmres.getD (2 * x) 0 - h * n.gmres.getD (2 * y) 0))[2 * y
      + 1]?) = some (n.gmres.getD (2 * y + 1) 0) := by
    rw [List.getElem?_set_ne (by omega)]
    exact getElem?_eq_some_getD _ _ _ hy
  simp only [e, e']
  rw [vecSet_natCast _ _ _ (by rw [List.length_set]; exact hx)]
  simp only [subSlot]

theorem spmd_eq {δ : Type} [Field δ] (sqrt : δ → δ) (nodes_ : List (List (Node δ)))
    (x y : Int) (c : List (Node δ) → δ) (u : List (Node δ) → List (Node δ) × δ)
    (hc : ∀ nodes ∈ nodes_, inner_product_local nodes x y = some (c nodes))
    (hu : ∀ nodes ∈ nodes_,
      inner_product_update sqrt nodes x y ((nodes_.map c).sum) = some (u nodes)) :
    inner_product_spmd sqrt nodes_ x y = some (nodes_.map u) := by
  simp only [inner_product_spmd, mapM_eq_some_map _ c nodes_ hc]
  apply mapM_eq_some_map
  intro nodes hn
  simp only [inner_product_handler, hc nodes hn, lco_reduce_eq, hu nodes hn]

theorem generalizedInnerProduct_eq {δ : Type} [Zero δ] [Add δ] [Sub δ] [Mul δ] [Div δ]
    [Pow δ ℕ] (sqrt : δ → δ)
    (nodes_ : List (List (Node δ))) (x y : Int) (v : List (Node δ) → List (Node δ)) (r : δ)
    (hP : nodes_ = [] → r = 0)
    (h : inner_product_spmd sqrt nodes_ x y = some (nodes_.map (fun nodes => (v nodes, r)))) :
    generalizedInnerProduct sqrt nodes_ x y = some (nodes_.map v, r) := by
  cases nodes_ with
  | nil =>
    simp only [generalizedInnerProduct, h, List.map_nil, List.head?_nil, hP rfl]
  | cons a l =>
    simp only [generalizedInnerProduct, h, List.map_cons, List.head?_cons, List.map_map,
      Option.some.injEq, Prod.mk.injEq, List.cons.injEq, true_and, and_true]
    apply List.map_congr_left
    intro b _
    rfl

theorem update_rhs {δ : Type} [Field δ] (sqrt : δ → δ) (nodes : List (Node δ)) (t : δ) :
    inner_product_update sqrt nodes (-1) (-1) t = some (nodes, sqrt t) := by
  simp [inner_product_update]

theorem update_raw {δ : Type} [Field δ] (sqrt : δ → δ) (nodes : List (Node δ)) (x y : Int)
    (t : δ) (hne : x ≠ y) (hneg : x = -y) :
    inner_product_update sqrt nodes x y t = some (nodes, t) := by
  subst hneg
  simp only [inner_product_update, hne, if_false, ne_eq, not_true_eq_false]

theorem update_norm {δ : Type} [Zero δ] [Sub δ] [Mul δ] [Div δ] (sqrt : δ → δ)
    (nodes : List (Node δ)) (x : Nat)
    (t : δ) (hx : ∀ n ∈ nodes, 2 * x + 1 < n.gmres.length) :
    inner_product_update sqrt nodes x x t
      = some (nodes.map (scaleSlot x (sqrt t)), sqrt t) := by
  have hm := mapM_eq_some_map (normalize_slot (x : Int) (sqrt t)) (scaleSlot x (sqrt t)) nodes
    (fun n hn => normalize_slot_eq x (sqrt t) n (hx n hn))
  simp only [inner_product_update, if_true, natCast_ne_neg_one, ne_eq, not_false_eq_true, hm]

theorem update_dot {δ : Type} [Field δ] (sqrt : δ → δ) (nodes : List (Node δ)) (x y : Nat)
    (t : δ) (hxy : x ≠ y) (hx : ∀ n ∈ nodes, 2 * x + 1 < n.gmres.length)
    (hy : ∀ n ∈ nodes, 2 * y + 1 < n.gmres.length) :
    inner_product_update sqrt nodes x y t = some (nodes.map (subSlot x y t), t) := by
  have hm := mapM_eq_some_map (project_slot (x : Int) (y : Int) t) (subSlot x y t) nodes
    (fun n hn => project_slot_eq x y t n (hx n hn) (hy n hn))
  have e1 : ¬ ((x : Int) = y) := by omega
  have e2 : ¬ ((x : Int) = -y) := by omega
  simp only [inner_product_update, e1, e2, if_false, ne_eq, not_false_eq_true, if_true, hm]

theorem sum_map_div {δ α : Type} [Field δ] (f : α → δ) (c : δ) (l : List α) :
    (l.map (fun a => f a / c)).sum = (l.map f).sum / c := by
  induction l with
  | nil => simp
  | cons a l ih => simp [ih, add_div]

theorem two_le_length_cases {δ : Type} (v : List δ) (h : 2 ≤ v.length) :
    ∃ g0 g1 rest, v = g0 :: g1 :: rest := by
  match v, h with
  | g0 :: g1 :: rest, _ => exact ⟨g0, g1, rest, rfl⟩

theorem getElem?_set_set_zero {δ : Type} (v : List δ) (a b : δ) (h : 2 ≤ v.length) :
    ((v.set 0 a).set 1 b)[0]? = some a ∧ ((v.set 0 a).set 1 b)[1]? = some b := by
  obtain ⟨g0, g1, rest, rfl⟩ := two_le_length_cases v h
  simp

/-- C1: Full-profile round trip.  For every node `n` whose Krylov buffer has at
least two entries (any patch list), every receiving node `m` and every buffer,
`NodeFullSerializer::serialize` succeeds and `NodeFullSerializer::deserialize`
of what it wrote leaves `m` with the index, position, both normals, the whole
patch list, area, projected area, `rhs`, `x0`, `gmres[0]` and `gmres[1]` of `n`. -/
theorem full_round_trip {δ : Type} [Zero δ] (n m : Node δ) (mem : Buffer δ) (buffer : Nat)
    (h : 2 ≤ n.gmres.length) :
    ∃ wire dest m' src,
      NodeFullSerializer.serialize n mem buffer = some (wire, dest) ∧
      NodeFullSerializer.deserialize wire buffer m = some (m', src) ∧
      m'.index = n.index ∧ m'.position = n.position ∧ m'.normal_i = n.normal_i ∧
      m'.normal_o = n.normal_o ∧ m'.patch = n.patch ∧ m'.area = n.area ∧
      m'.projected = n.projected ∧ m'.rhs = n.rhs ∧ m'.x0 = n.x0 ∧
      (∃ g0 g1, n.gmres[0]? = some g0 ∧ n.gmres[1]? = some g1 ∧
        m'.gmres[0]? = some g0 ∧ m'.gmres[1]? = some g1) := by
  obtain ⟨g0, g1, rest, hn⟩ := two_le_length_cases n.gmres h
  have hr : 2 ≤ (resize m.gmres n.gmres.length).length := by rw [length_resize]; exact h
  obtain ⟨e0, e1⟩ := getElem?_set_set_zero (resize m.gmres n.gmres.length) g0 g1 hr
  refine ⟨_, _, _, _, full_serialize_eq n mem buffer g0 g1 rest hn,
    full_deserialize_eq n m mem buffer g0 g1 rest hn, rfl, rfl, rfl, rfl, rfl, rfl, rfl, rfl,
    rfl, g0, g1, ?_, ?_, e0, e1⟩
  · simp [hn]
  · simp [hn]

/-- Witness of C1 on `exNode` sent into `exBlank`. -/
theorem full_round_trip_witness :
    2 ≤ exNode.gmres.length ∧
    ∃ wire dest m' src,
      NodeFullSerializer.serialize exNode Buffer.empty 0 = some (wire, dest) ∧
      NodeFullSerializer.deserialize wire 0 exBlank = some (m', src) ∧
      m'.index = exNode.index ∧ m'.position = exNode.position ∧
      m'.normal_i = exNode.normal_i ∧ m'.normal_o = exNode.normal_o ∧
      m'.patch = exNode.patch ∧ m'.area = exNode.area ∧
      m'.projected = exNode.projected ∧ m'.rhs = exNode.rhs ∧ m'.x0 = exNode.x0 ∧
      (∃ g0 g1, exNode.gmres[0]? = some g0 ∧ exNode.gmres[1]? = some g1 ∧
        m'.gmres[0]? = some g0 ∧ m'.gmres[1]? = some g1) :=
  ⟨by decide, full_round_trip exNode exBlank Buffer.empty 0 (by decide)⟩

/-- C2: Minimum-profile round trip.  For every node `n` whose Krylov buffer has
at least two entries, every receiving node `m` and every buffer,
`NodeMinimumSerializer::serialize` succeeds and
`NodeMinimumSerializer::deserialize` of what it wrote leaves `m` with the index,
position, outer normal, `gmres[0]`, `gmres[1]`, `rhs` and area of `n`. -/
theorem minimum_round_trip {δ : Type} [Zero δ] (n m : Node δ) (mem : Buffer δ) (buffer : Nat)
    (h : 2 ≤ n.gmres.length) :
    ∃ wire dest m' src,
      NodeMinimumSerializer.serialize n mem buffer = some (wire, dest) ∧
      NodeMinimumSerializer.deserialize wire buffer m = some (m', src) ∧
      m'.index = n.index ∧ m'.position = n.position ∧ m'.normal_o = n.normal_o ∧
      m'.rhs = n.rhs ∧ m'.area = n.area ∧
      (∃ g0 g1, n.gmres[0]? = some g0 ∧ n.gmres[1]? = some g1 ∧
        m'.gmres[0]? = some g0 ∧ m'.gmres[1]? = some g1) := by
  obtain ⟨g0, g1, rest, hn⟩ := two_le_length_cases n.gmres h
  have hr : 2 ≤ (resize m.gmres 2).length := by rw [length_resize]
  obtain ⟨e0, e1⟩ := getElem?_set_set_zero (resize m.gmres 2) g0 g1 hr
  refine ⟨_, _, _, _, minimum_serialize_eq n mem buffer g0 g1 rest hn,
    minimum_deserialize_eq n m mem buffer g0 g1, rfl, rfl, rfl, rfl, rfl, g0, g1, ?_, ?_, e0, e1⟩
  · simp [hn]
  · simp [hn]

/-- Witness of C2 on `exNode` sent into `exBlank`. -/
theorem minimum_round_trip_witness :
    2 ≤ exNode.gmres.length ∧
    ∃ wire dest m' src,
      NodeMinimumSerializer.serialize exNode Buffer.empty 0 = some (wire, dest) ∧
      NodeMinimumSerializer.deserialize wire 0 exBlank = some (m', src) ∧
      m'.index = exNode.index ∧ m'.position = exNode.position ∧
      m'.normal_o = exNode.normal_o ∧ m'.rhs = exNode.rhs ∧ m'.area = exNode.area ∧
      (∃ g0 g1, exNode.gmres[0]? = some g0 ∧ exNode.gmres[1]? = some g1 ∧
        m'.gmres[0]? = some g0 ∧ m'.gmres[1]? = some g1) :=
  ⟨by decide, minimum_round_trip exNode exBlank Buffer.empty 0 (by decide)⟩

/-- C3: Partial-profile slot transfer.  For iteration indices `i, j ≥ 0` whose
slots lie inside the Krylov buffer of `n`, `NodePartialSerializer::serialize`
run with the counter at `i` followed by `NodePartialSerializer::deserialize`
run with the counter at `j` leaves `m` with the index, position, inner normal
and area of `n`, and entries `2j`, `2j+1` of `m` hold entries `2i`, `2i+1` of
`n`. -/
theorem partial_slot_transfer {δ : Type} [Zero δ] (n m : Node δ) (mem : Buffer δ)
    (buffer : Nat) (i j : Int) (hi : 0 ≤ i) (hj : 0 ≤ j)
    (hin : 2 * i + 2 ≤ n.gmres.length) (hjn : 2 * j + 2 ≤ n.gmres.length) :
    ∃ wire dest m' src,
      NodePartialSerializer.serialize i n mem buffer = some (wire, dest) ∧
      NodePartialSerializer.deserialize j wire buffer m = some (m', src) ∧
      m'.index = n.index ∧ m'.position = n.position ∧ m'.normal_i = n.normal_i ∧
      m'.area = n.area ∧
      (∃ v0 v1, vecGet n.gmres (2 * i) = some v0 ∧ vecGet n.gmres (2 * i + 1) = some v1 ∧
        vecGet m'.gmres (2 * j) = some v0 ∧ vecGet m'.gmres (2 * j + 1) = some v1) := by
  lift i to ℕ using hi
  lift j to ℕ using hj
  have hi1 : 2 * i + 1 < n.gmres.length := by omega
  have hj1 : 2 * j + 1 < n.gmres.length := by omega
  have hi0 : 2 * i < n.gmres.length := by omega
  have hj0 : 2 * j < n.gmres.length := by omega
  have a0 := getElem?_eq_some_getD n.gmres (2 * i) 0 hi0
  have a1 := getElem?_eq_some_getD n.gmres (2 * i + 1) 0 hi1
  refine ⟨_, _, _, _, partial_serialize_eq n mem buffer i _ _ a0 a1,
    partial_deserialize_eq n m mem buffer j _ _ hj1, rfl, rfl, rfl, rfl,
    n.gmres.getD (2 * i) 0, n.gmres.getD (2 * i + 1) 0, ?_, ?_, ?_, ?_⟩
  · rw [two_mul_natCast, vecGet_natCast, a0]
  · rw [two_mul_natCast, natCast_add_one, vecGet_natCast, a1]
  · rw [two_mul_natCast, vecGet_natCast]
    simp only [partialImage]
    rw [List.getElem?_set_ne (by omega), List.getElem?_set_self (by rw [length_resize]; exact hj0)]
  · rw [two_mul_natCast, natCast_add_one, vecGet_natCast]
    simp only [partialImage]
    rw [List.getElem?_set_self (by rw [List.length_set, length_resize]; exact hj1)]

/-- Witness of C3: `exNode` serialized at iteration 1 and read into `exBlank`
at iteration 0. -/
theorem partial_slot_transfer_witness :
    ((0 : Int) ≤ 1 ∧ (0 : Int) ≤ 0 ∧ (2 * 1 + 2 : Int) ≤ exNode.gmres.length ∧
      (2 * 0 + 2 : Int) ≤ exNode.gmres.length) ∧
    ∃ wire dest m' src,
      NodePartialSerializer.serialize 1 exNode Buffer.empty 0 = some (wire, dest) ∧
      NodePartialSerializer.deserialize 0 wire 0 exBlank = some (m', src) ∧
      m'.index = exNode.index ∧ m'.position = exNode.position ∧
      m'.normal_i = exNode.normal_i ∧ m'.area = exNode.area ∧
      (∃ v0 v1, vecGet exNode.gmres (2 * 1) = some v0 ∧
        vecGet exNode.gmres (2 * 1 + 1) = some v1 ∧
        vecGet m'.gmres (2 * 0) = some v0 ∧ vecGet m'.gmres (2 * 0 + 1) = some v1) :=
  ⟨by decide, partial_slot_transfer exNode exBlank Buffer.empty 0 1 0 (by decide) (by decide)
    (by decide) (by decide)⟩

/-- C4: exact buffer size.  For each serializer `serialize` returns the pointer
`buffer + size(n)` and `deserialize` of what was written returns the same
pointer; the Full size is `3 sizeof(int) + 3 sizeof(Point) + 8 sizeof(double)
+ sizeof(Patch) * patch_count`, the Partial and Minimum sizes are the same for
every node. -/
theorem serializers_exact_size {δ : Type} [Zero δ] (n m : Node δ) (mem : Buffer δ)
    (buffer : Nat) (i : Int) (h : 2 ≤ n.gmres.length) (hi : 0 ≤ i)
    (hin : 2 * i + 2 ≤ n.gmres.length) :
    (∃ wire m', NodeFullSerializer.serialize n mem buffer
          = some (wire, buffer + NodeFullSerializer.size n) ∧
        NodeFullSerializer.deserialize wire buffer m
          = some (m', buffer + NodeFullSerializer.size n)) ∧
    (∃ wire m', NodePartialSerializer.serialize i n mem buffer
          = some (wire, buffer + NodePartialSerializer.size n) ∧
        NodePartialSerializer.deserialize i wire buffer m
          = some (m', buffer + NodePartialSerializer.size n)) ∧
    (∃ wire m', NodeMinimumSerializer.serialize n mem buffer
          = some (wire, buffer + NodeMinimumSerializer.size n) ∧
        NodeMinimumSerializer.deserialize wire buffer m
          = some (m', buffer + NodeMinimumSerializer.size n)) ∧
    NodeFullSerializer.size n
      = 3 * sizeofInt + 3 * sizeofPoint + 8 * sizeofDouble + sizeofPatch * n.patch.length ∧
    (∀ n' : Node δ, NodePartialSerializer.size n' = NodePartialSerializer.size n) ∧
    (∀ n' : Node δ, NodeMinimumSerializer.size n' = NodeMinimumSerializer.size n) := by
  obtain ⟨g0, g1, rest, hn⟩ := two_le_length_cases n.gmres h
  lift i to ℕ using hi
  have hi1 : 2 * i + 1 < n.gmres.length := by omega
  have a0 := getElem?_eq_some_getD n.gmres (2 * i) 0 (by omega)
  have a1 := getElem?_eq_some_getD n.gmres (2 * i + 1) 0 hi1
  refine ⟨⟨_, _, full_serialize_eq n mem buffer g0 g1 rest hn,
      full_deserialize_eq n m mem buffer g0 g1 rest hn⟩,
    ⟨_, _, partial_serialize_eq n mem buffer i _ _ a0 a1,
      partial_deserialize_eq n m mem buffer i _ _ hi1⟩,
    ⟨_, _, minimum_serialize_eq n mem buffer g0 g1 rest hn,
      minimum_deserialize_eq n m mem buffer g0 g1⟩, ?_, fun _ => rfl, fun _ => rfl⟩
  simp only [NodeFullSerializer.size]
  omega

/-- Witness of C4 on `exNode`, iteration 1, buffer offset 100. -/
theorem serializers_exact_size_witness :
    (2 ≤ exNode.gmres.length ∧ (0 : Int) ≤ 1 ∧ (2 * 1 + 2 : Int) ≤ exNode.gmres.length) ∧
    (∃ wire m', NodeFullSerializer.serialize exNode Buffer.empty 100
          = some (wire, 100 + NodeFullSerializer.size exNode) ∧
        NodeFullSerializer.deserialize wire 100 exBlank
          = some (m', 100 + NodeFullSerializer.size exNode)) ∧
    (∃ wire m', NodePartialSerializer.serialize 1 exNode Buffer.empty 100
          = some (wire, 100 + NodePartialSerializer.size exNode) ∧
        NodePartialSerializer.deserialize 1 wire 100 exBlank
          = some (m', 100 + NodePartialSerializer.size exNode)) ∧
    (∃ wire m', NodeMinimumSerializer.serialize exNode Buffer.empty 100
          = some (wire, 100 + NodeMinimumSerializer.size exNode) ∧
        NodeMinimumSerializer.deserialize wire 100 exBlank
          = some (m', 100 + NodeMinimumSerializer.size exNode)) ∧
    NodeFullSerializer.size exNode
      = 3 * sizeofInt + 3 * sizeofPoint + 8 * sizeofDouble
        + sizeofPatch * exNode.patch.length ∧
    (∀ n' : Node Int, NodePartialSerializer.size n' = NodePartialSerializer.size exNode) ∧
    (∀ n' : Node Int, NodeMinimumSerializer.size n' = NodeMinimumSerializer.size exNode) :=
  ⟨by decide, serializers_exact_size exNode exBlank Buffer.empty 100 1 (by decide) (by decide)
    (by decide)⟩

theorem resize_getElem?_lt {δ : Type} [Zero δ] (v : List δ) (K k : Nat) (hK : k < K)
    (hv : k < v.length) : (resize v K)[k]? = v[k]? := by
  simp only [resize]
  rw [List.getElem?_append_left (by rw [List.length_take]; omega), List.getElem?_take_of_lt hK]

theorem resize_getElem?_ge {δ : Type} [Zero δ] (v : List δ) (K k : Nat) (hK : k < K)
    (hv : v.length ≤ k) : (resize v K)[k]? = some 0 := by
  simp only [resize]
  rw [List.getElem?_append_right (by rw [List.length_take]; omega)]
  rw [List.getElem?_replicate]
  simp only [List.length_take]
  rw [if_pos (by omega)]

/-- C5 fails as stated: reading `exNode` (four Krylov entries) into `exBlank`
(six Krylov entries) drops entry 4 of the receiver under the Full and the
Partial profile, and entry 2 under the Minimum profile. -/
theorem uncovered_fields_counterexample :
    (∃ wire dest m' src,
      NodeFullSerializer.serialize exNode Buffer.empty 0 = some (wire, dest) ∧
      NodeFullSerializer.deserialize wire 0 exBlank = some (m', src) ∧
      exBlank.gmres[4]? = some 5 ∧ m'.gmres[4]? = none) ∧
    (∃ wire dest m' src,
      NodePartialSerializer.serialize 0 exNode Buffer.empty 0 = some (wire, dest) ∧
      NodePartialSerializer.deserialize 0 wire 0 exBlank = some (m', src) ∧
      exBlank.gmres[4]? = some 5 ∧ m'.gmres[4]? = none) ∧
    (∃ wire dest m' src,
      NodeMinimumSerializer.serialize exNode Buffer.empty 0 = some (wire, dest) ∧
      NodeMinimumSerializer.deserialize wire 0 exBlank = some (m', src) ∧
      exBlank.gmres[2]? = some 3 ∧ m'.gmres[2]? = none) :=
  ⟨⟨_, _, _, _, full_serialize_eq exNode Buffer.empty 0 16 17 [18, 19] rfl,
      full_deserialize_eq exNode exBlank Buffer.empty 0 16 17 [18, 19] rfl, by decide,
      by decide⟩,
    ⟨_, _, _, _, partial_serialize_eq exNode Buffer.empty 0 0 16 17 rfl rfl,
      partial_deserialize_eq exNode exBlank Buffer.empty 0 0 16 17 (by decide), by decide,
      by decide⟩,
    ⟨_, _, _, _, minimum_serialize_eq exNode Buffer.empty 0 16 17 [18, 19] rfl,
      minimum_deserialize_eq exNode exBlank Buffer.empty 0 16 17, by decide, by decide⟩⟩

/-- C5 as amended: `deserialize` leaves every uncovered field other than the
Krylov buffer as it was (Full: the cache; Partial: outer normal, patch list,
projected area, `rhs`, `x0`, cache; Minimum: inner normal, patch list,
projected area, `x0`, cache).  The Krylov buffer is resized, to the sender's
length under Full and Partial and to 2 under Minimum; an entry outside the
carried slot keeps its value when its position lies below both the old and the
new length, and is zero when its position lies below the new length only. -/
theorem uncovered_fields_frame {δ : Type} [Zero δ] (n m : Node δ) (mem : Buffer δ)
    (buffer : Nat) (i j : Int) (h : 2 ≤ n.gmres.length) (hi : 0 ≤ i) (hj : 0 ≤ j)
    (hin : 2 * i + 2 ≤ n.gmres.length) (hjn : 2 * j + 2 ≤ n.gmres.length) :
    (∃ wire dest m' src,
      NodeFullSerializer.serialize n mem buffer = some (wire, dest) ∧
      NodeFullSerializer.deserialize wire buffer m = some (m', src) ∧
      m'.cached = m.cached ∧ m'.gmres.length = n.gmres.length ∧
      ∀ k, 2 ≤ k → k < n.gmres.length →
        (k < m.gmres.length → m'.gmres[k]? = m.gmres[k]?) ∧
        (m.gmres.length ≤ k → m'.gmres[k]? = some 0)) ∧
    (∃ wire dest m' src,
      NodePartialSerializer.serialize i n mem buffer = some (wire, dest) ∧
      NodePartialSerializer.deserialize j wire buffer m = some (m', src) ∧
      m'.normal_o = m.normal_o ∧ m'.patch = m.patch ∧ m'.projected = m.projected ∧
      m'.rhs = m.rhs ∧ m'.x0 = m.x0 ∧ m'.cached = m.cached ∧
      m'.gmres.length = n.gmres.length ∧
      ∀ k : Nat, (k : Int) ≠ 2 * j → (k : Int) ≠ 2 * j + 1 → k < n.gmres.length →
        (k < m.gmres.length → m'.gmres[k]? = m.gmres[k]?) ∧
        (m.gmres.length ≤ k → m'.gmres[k]? = some 0)) ∧
    (∃ wire dest m' src,
      NodeMinimumSerializer.serialize n mem buffer = some (wire, dest) ∧
      NodeMinimumSerializer.deserialize wire buffer m = some (m', src) ∧
      m'.normal_i = m.normal_i ∧ m'.patch = m.patch ∧ m'.projected = m.projected ∧
      m'.x0 = m.x0 ∧ m'.cached = m.cached ∧ m'.gmres.length = 2) := by
  obtain ⟨g0, g1, rest, hn⟩ := two_le_length_cases n.gmres h
  lift i to ℕ using hi
  lift j to ℕ using hj
  have hi1 : 2 * i + 1 < n.gmres.length := by omega
  have hj1 : 2 * j + 1 < n.gmres.length := by omega
  have a0 := getElem?_eq_some_getD n.gmres (2 * i) 0 (by omega)
  have a1 := getElem?_eq_some_getD n.gmres (2 * i + 1) 0 hi1
  refine ⟨⟨_, _, _, _, full_serialize_eq n mem buffer g0 g1 rest hn,
      full_deserialize_eq n m mem buffer g0 g1 rest hn, rfl, ?_, ?_⟩,
    ⟨_, _, _, _, partial_serialize_eq n mem buffer i _ _ a0 a1,
      partial_deserialize_eq n m mem buffer j _ _ hj1, rfl, rfl, rfl, rfl, rfl, rfl, ?_, ?_⟩,
    ⟨_, _, _, _, minimum_serialize_eq n mem buffer g0 g1 rest hn,
      minimum_deserialize_eq n m mem buffer g0 g1, rfl, rfl, rfl, rfl, rfl, ?_⟩⟩
  · simp only [fullImage, List.length_set, length_resize]
  · intro k hk hkn
    simp only [fullImage]
    rw [List.getElem?_set_ne (by omega), List.getElem?_set_ne (by omega)]
    exact ⟨fun hm => resize_getElem?_lt _ _ _ hkn hm, fun hm => resize_getElem?_ge _ _ _ hkn hm⟩
  · simp only [partialImage, List.length_set, length_resize]
  · intro k hk0 hk1 hkn
    simp only [partialImage]
    rw [List.getElem?_set_ne (by omega), List.getElem?_set_ne (by omega)]
    exact ⟨fun hm => resize_getElem?_lt _ _ _ hkn hm, fun hm => resize_getElem?_ge _ _ _ hkn hm⟩
  · simp only [minimumImage, List.length_set, length_resize]

/-- Witness of the amended C5: `exNode` read into `exBlank`, Partial at
iterations 1 and 0. -/
theorem uncovered_fields_frame_witness :
    (2 ≤ exNode.gmres.length ∧ (0 : Int) ≤ 1 ∧ (0 : Int) ≤ 0 ∧
      (2 * 1 + 2 : Int) ≤ exNode.gmres.length ∧ (2 * 0 + 2 : Int) ≤ exNode.gmres.length) ∧
    ((∃ wire dest m' src,
      NodeFullSerializer.serialize exNode Buffer.empty 0 = some (wire, dest) ∧
      NodeFullSerializer.deserialize wire 0 exBlank = some (m', src) ∧
      m'.cached = exBlank.cached ∧ m'.gmres.length = exNode.gmres.length ∧
      ∀ k, 2 ≤ k → k < exNode.gmres.length →
        (k < exBlank.gmres.length → m'.gmres[k]? = exBlank.gmres[k]?) ∧
        (exBlank.gmres.length ≤ k → m'.gmres[k]? = some 0)) ∧
    (∃ wire dest m' src,
      NodePartialSerializer.serialize 1 exNode Buffer.empty 0 = some (wire, dest) ∧
      NodePartialSerializer.deserialize 0 wire 0 exBlank = some (m', src) ∧
      m'.normal_o = exBlank.normal_o ∧ m'.patch = exBlank.patch ∧
      m'.projected = exBlank.projected ∧
      m'.rhs = exBlank.rhs ∧ m'.x0 = exBlank.x0 ∧ m'.cached = exBlank.cached ∧
      m'.gmres.length = exNode.gmres.length ∧
      ∀ k : Nat, (k : Int) ≠ 2 * 0 → (k : Int) ≠ 2 * 0 + 1 → k < exNode.gmres.length →
        (k < exBlank.gmres.length → m'.gmres[k]? = exBlank.gmres[k]?) ∧
        (exBlank.gmres.length ≤ k → m'.gmres[k]? = some 0)) ∧
    (∃ wire dest m' src,
      NodeMinimumSerializer.serialize exNode Buffer.empty 0 = some (wire, dest) ∧
      NodeMinimumSerializer.deserialize wire 0 exBlank = some (m', src) ∧
      m'.normal_i = exBlank.normal_i ∧ m'.patch = exBlank.patch ∧
      m'.projected = exBlank.projected ∧
      m'.x0 = exBlank.x0 ∧ m'.cached = exBlank.cached ∧ m'.gmres.length = 2)) :=
  ⟨by decide, uncovered_fields_frame exNode exBlank Buffer.empty 0 1 0 (by decide) (by decide)
    (by decide) (by decide) (by decide)⟩

/-- C6 fails as stated: under the Minimum profile the receiver's Krylov buffer
ends with two entries although the sender `exNode` has four. -/
theorem krylov_length_counterexample :
    ∃ wire dest m' src,
      NodeMinimumSerializer.serialize exNode Buffer.empty 0 = some (wire, dest) ∧
      NodeMinimumSerializer.deserialize wire 0 exBlank = some (m', src) ∧
      exNode.gmres.length = 4 ∧ m'.gmres.length = 2 :=
  ⟨_, _, _, _, minimum_serialize_eq exNode Buffer.empty 0 16 17 [18, 19] rfl,
    minimum_deserialize_eq exNode exBlank Buffer.empty 0 16 17, by decide, by decide⟩

/-- C6 as amended: after `deserialize(serialize(n))` into `m` the Krylov buffer
of `m` has the length of the Krylov buffer of `n` under the Full and the Partial
profile, whatever its length was before; under the Minimum profile it has
length 2. -/
theorem krylov_length_after_deserialize {δ : Type} [Zero δ] (n m : Node δ) (mem : Buffer δ)
    (buffer : Nat) (i : Int) (h : 2 ≤ n.gmres.length) (hi : 0 ≤ i)
    (hin : 2 * i + 2 ≤ n.gmres.length) :
    (∃ wire dest m' src,
      NodeFullSerializer.serialize n mem buffer = some (wire, dest) ∧
      NodeFullSerializer.deserialize wire buffer m = some (m', src) ∧
      m'.gmres.length = n.gmres.length) ∧
    (∃ wire dest m' src,
      NodePartialSerializer.serialize i n mem buffer = some (wire, dest) ∧
      NodePartialSerializer.deserialize i wire buffer m = some (m', src) ∧
      m'.gmres.length = n.gmres.length) ∧
    (∃ wire dest m' src,
      NodeMinimumSerializer.serialize n mem buffer = some (wire, dest) ∧
      NodeMinimumSerializer.deserialize wire buffer m = some (m', src) ∧
      m'.gmres.length = 2) := by
  obtain ⟨g0, g1, rest, hn⟩ := two_le_length_cases n.gmres h
  lift i to ℕ using hi
  have hi1 : 2 * i + 1 < n.gmres.length := by omega
  have a0 := getElem?_eq_some_getD n.gmres (2 * i) 0 (by omega)
  have a1 := getElem?_eq_some_getD n.gmres (2 * i + 1) 0 hi1
  refine ⟨⟨_, _, _, _, full_serialize_eq n mem buffer g0 g1 rest hn,
      full_deserialize_eq n m mem buffer g0 g1 rest hn, ?_⟩,
    ⟨_, _, _, _, partial_serialize_eq n mem buffer i _ _ a0 a1,
      partial_deserialize_eq n m mem buffer i _ _ hi1, ?_⟩,
    ⟨_, _, _, _, minimum_serialize_eq n mem buffer g0 g1 rest hn,
      minimum_deserialize_eq n m mem buffer g0 g1, ?_⟩⟩
  · simp only [fullImage, List.length_set, length_resize]
  · simp only [partialImage, List.length_set, length_resize]
  · simp only [minimumImage, List.length_set, length_resize]

/-- Witness of the amended C6 on `exNode` read into `exBlank`, iteration 1. -/
theorem krylov_length_after_deserialize_witness :
    (2 ≤ exNode.gmres.length ∧ (0 : Int) ≤ 1 ∧ (2 * 1 + 2 : Int) ≤ exNode.gmres.length) ∧
    ((∃ wire dest m' src,
      NodeFullSerializer.serialize exNode Buffer.empty 0 = some (wire, dest) ∧
      NodeFullSerializer.deserialize wire 0 exBlank = some (m', src) ∧
      m'.gmres.length = exNode.gmres.length) ∧
    (∃ wire dest m' src,
      NodePartialSerializer.serialize 1 exNode Buffer.empty 0 = some (wire, dest) ∧
      NodePartialSerializer.deserialize 1 wire 0 exBlank = some (m', src) ∧
      m'.gmres.length = exNode.gmres.length) ∧
    (∃ wire dest m' src,
      NodeMinimumSerializer.serialize exNode Buffer.empty 0 = some (wire, dest) ∧
      NodeMinimumSerializer.deserialize wire 0 exBlank = some (m', src) ∧
      m'.gmres.length = 2)) :=
  ⟨by decide, krylov_length_after_deserialize exNode exBlank Buffer.empty 0 1 (by decide)
    (by decide) (by decide)⟩

theorem spmd_rhs {δ : Type} [Field δ] (sqrt : δ → δ) (nodes_ : List (List (Node δ))) :
    inner_product_spmd sqrt nodes_ (-1) (-1)
      = some (nodes_.map (fun nodes => (nodes, sqrt ((nodes_.flatten.map rhsSq).sum)))) := by
  rw [sum_map_flatten]
  exact spmd_eq sqrt nodes_ (-1) (-1) (fun nodes => (nodes.map rhsSq).sum) _
    (fun nodes _ => local_rhs nodes (-1) (Or.inl rfl))
    (fun nodes _ => update_rhs sqrt nodes _)

/-- C7 (RHS_NORM): with selectors `x = y = -1`, on a store split into `P ≥ 1`
segments, every rank exits with the square root of the sum over all nodes of
`rhs[0]^2 + rhs[1]^2` and leaves its segment as it was; the method returns
that value and the unchanged store; the value depends on the node sequence
only, not on how it is cut into segments. -/
theorem rhs_norm {δ : Type} [Field δ] (sqrt : δ → δ) (nodes_ : List (List (Node δ)))
    (hP : nodes_ ≠ []) :
    inner_product_spmd sqrt nodes_ (-1) (-1)
      = some (nodes_.map (fun nodes => (nodes, sqrt ((nodes_.flatten.map rhsSq).sum)))) ∧
    generalizedInnerProduct sqrt nodes_ (-1) (-1)
      = some (nodes_, sqrt ((nodes_.flatten.map rhsSq).sum)) ∧
    ∀ nodes_' : List (List (Node δ)), nodes_' ≠ [] → nodes_'.flatten = nodes_.flatten →
      (generalizedInnerProduct sqrt nodes_' (-1) (-1)).map Prod.snd
        = (generalizedInnerProduct sqrt nodes_ (-1) (-1)).map Prod.snd := by
  have key : ∀ L : List (List (Node δ)), L ≠ [] →
      generalizedInnerProduct sqrt L (-1) (-1)
        = some (L, sqrt ((L.flatten.map rhsSq).sum)) := by
    intro L hL
    have h := generalizedInnerProduct_eq sqrt L (-1) (-1) id
      (sqrt ((L.flatten.map rhsSq).sum)) (fun h0 => absurd h0 hL) (spmd_rhs sqrt L)
    simpa using h
  refine ⟨spmd_rhs sqrt nodes_, key nodes_ hP, ?_⟩
  intro L hL hflat
  rw [key L hL, key nodes_ hP, hflat]
  rfl

/-- Witness of C7: four nodes on two ranks. -/
theorem rhs_norm_witness :
    qStore ≠ [] ∧
    (inner_product_spmd Rat.sqrt qStore (-1) (-1)
      = some (qStore.map (fun nodes => (nodes, Rat.sqrt ((qStore.flatten.map rhsSq).sum)))) ∧
    generalizedInnerProduct Rat.sqrt qStore (-1) (-1)
      = some (qStore, Rat.sqrt ((qStore.flatten.map rhsSq).sum)) ∧
    ∀ nodes_' : List (List (Node ℚ)), nodes_' ≠ [] → nodes_'.flatten = qStore.flatten →
      (generalizedInnerProduct Rat.sqrt nodes_' (-1) (-1)).map Prod.snd
        = (generalizedInnerProduct Rat.sqrt qStore (-1) (-1)).map Prod.snd) :=
  ⟨by simp [qStore], rhs_norm Rat.sqrt qStore (by simp [qStore])⟩

theorem mem_flatten_in_range {δ : Type} (x : Nat) (nodes_ : List (List (Node δ)))
    (hx : slotInRange x nodes_) : ∀ n ∈ nodes_.flatten, 2 * x + 1 < n.gmres.length := by
  intro n hn
  obtain ⟨nodes, h1, h2⟩ := List.mem_flatten.mp hn
  exact hx nodes h1 n h2

theorem flatten_map_map {α β : Type} (g : α → β) (L : List (List α)) :
    (L.map (List.map g)).flatten = L.flatten.map g := by
  rw [List.map_flatten]

theorem spmd_norm {δ : Type} [Field δ] (sqrt : δ → δ) (nodes_ : List (List (Node δ)))
    (x : Nat) (hx : slotInRange x nodes_) :
    inner_product_spmd sqrt nodes_ x x
      = some (nodes_.map (fun nodes =>
          (nodes.map (scaleSlot x (sqrt ((nodes_.flatten.map (slotSq x)).sum))),
            sqrt ((nodes_.flatten.map (slotSq x)).sum)))) := by
  rw [sum_map_flatten]
  exact spmd_eq sqrt nodes_ x x (fun nodes => (nodes.map (slotSq x)).sum) _
    (fun nodes hn => local_norm nodes x x (Or.inl rfl) (hx nodes hn))
    (fun nodes hn => update_norm sqrt nodes x _ (hx nodes hn))

theorem spmd_dot {δ : Type} [Field δ] (sqrt : δ → δ) (nodes_ : List (List (Node δ)))
    (x y : Nat) (hxy : x ≠ y) (hx : slotInRange x nodes_) (hy : slotInRange y nodes_) :
    inner_product_spmd sqrt nodes_ x y
      = some (nodes_.map (fun nodes =>
          (nodes.map (subSlot x y ((nodes_.flatten.map (slotDot x y)).sum)),
            (nodes_.flatten.map (slotDot x y)).sum))) := by
  rw [sum_map_flatten]
  exact spmd_eq sqrt nodes_ x y (fun nodes => (nodes.map (slotDot x y)).sum) _
    (fun nodes hn => local_dot nodes x y hxy (hx nodes hn) (hy nodes hn))
    (fun nodes hn => update_dot sqrt nodes x y _ hxy (hx nodes hn) (hy nodes hn))

theorem subSlot_getElem? {δ : Type} [Field δ] (x y : Nat) (h : δ) (n : Node δ) (k : Nat)
    (h0 : k ≠ 2 * x) (h1 : k ≠ 2 * x + 1) : (subSlot x y h n).gmres[k]? = n.gmres[k]? := by
  simp only [subSlot]
  rw [List.getElem?_set_ne (by omega), List.getElem?_set_ne (by omega)]

/-- C9 (INNER_PRODUCT): with selectors `x ≠ y` whose slots lie inside every
Krylov buffer (so both are `≥ 0`, and `x ≠ -1`, `y ≠ -1`, `x ≠ -y` hold), the
generalized inner product returns `h`, the sum over all nodes of
`gmres[2x]*gmres[2y] + gmres[2x+1]*gmres[2y+1]` taken before the call, and
afterwards slot `x` of every node is its old slot `x` minus `h` times its slot
`y`; every Krylov entry outside slot `x` (slot `y` included), `rhs`, `x0` and
the Krylov length are unchanged. -/
theorem inner_product_projects {δ : Type} [Field δ] (sqrt : δ → δ)
    (nodes_ : List (List (Node δ))) (x y : Nat) (hxy : x ≠ y)
    (hx : slotInRange x nodes_) (hy : slotInRange y nodes_) :
    generalizedInnerProduct sqrt nodes_ x y
      = some (nodes_.map (List.map (subSlot x y ((nodes_.flatten.map (slotDot x y)).sum))),
          (nodes_.flatten.map (slotDot x y)).sum) ∧
    ∀ (h : δ) (n : Node δ), 2 * x + 1 < n.gmres.length →
      (subSlot x y h n).gmres[2 * x]?
        = some (n.gmres.getD (2 * x) 0 - h * n.gmres.getD (2 * y) 0) ∧
      (subSlot x y h n).gmres[2 * x + 1]?
        = some (n.gmres.getD (2 * x + 1) 0 - h * n.gmres.getD (2 * y + 1) 0) ∧
      (subSlot x y h n).gmres[2 * y]? = n.gmres[2 * y]? ∧
      (subSlot x y h n).gmres[2 * y + 1]? = n.gmres[2 * y + 1]? ∧
      (∀ k, k ≠ 2 * x → k ≠ 2 * x + 1 → (subSlot x y h n).gmres[k]? = n.gmres[k]?) ∧
      (subSlot x y h n).gmres.length = n.gmres.length ∧
      (subSlot x y h n).rhs = n.rhs ∧ (subSlot x y h n).x0 = n.x0 := by
  constructor
  · apply generalizedInnerProduct_eq sqrt nodes_ x y
      (List.map (subSlot x y ((nodes_.flatten.map (slotDot x y)).sum)))
    · intro h0
      subst h0
      simp
    · exact spmd_dot sqrt nodes_ x y hxy hx hy
  · intro h n hn
    refine ⟨?_, ?_, subSlot_getElem? x y h n _ (by omega) (by omega),
      subSlot_getElem? x y h n _ (by omega) (by omega),
      fun k h0 h1 => subSlot_getElem? x y h n k h0 h1, ?_, rfl, rfl⟩
    · simp only [subSlot]
      rw [List.getElem?_set_ne (by omega), List.getElem?_set_self (by omega)]
    · simp only [subSlot]
      rw [List.getElem?_set_self (by rw [List.length_set]; exact hn)]
    · simp only [subSlot, List.length_set]

/-- Witness of C9: slot 1 projected against slot 0 on four rational nodes. -/
theorem inner_product_projects_witness :
    ((1 : Nat) ≠ 0 ∧ slotInRange 1 qStore ∧ slotInRange 0 qStore) ∧
    (generalizedInnerProduct Rat.sqrt qStore ((1 : Nat) : Int) ((0 : Nat) : Int)
      = some (qStore.map (List.map (subSlot 1 0 ((qStore.flatten.map (slotDot 1 0)).sum))),
          (qStore.flatten.map (slotDot 1 0)).sum) ∧
    ∀ (h : ℚ) (n : Node ℚ), 2 * 1 + 1 < n.gmres.length →
      (subSlot 1 0 h n).gmres[2 * 1]?
        = some (n.gmres.getD (2 * 1) 0 - h * n.gmres.getD (2 * 0) 0) ∧
      (subSlot 1 0 h n).gmres[2 * 1 + 1]?
        = some (n.gmres.getD (2 * 1 + 1) 0 - h * n.gmres.getD (2 * 0 + 1) 0) ∧
      (subSlot 1 0 h n).gmres[2 * 0]? = n.gmres[2 * 0]? ∧
      (subSlot 1 0 h n).gmres[2 * 0 + 1]? = n.gmres[2 * 0 + 1]? ∧
      (∀ k, k ≠ 2 * 1 → k ≠ 2 * 1 + 1 → (subSlot 1 0 h n).gmres[k]? = n.gmres[k]?) ∧
      (subSlot 1 0 h n).gmres.length = n.gmres.length ∧
      (subSlot 1 0 h n).rhs = n.rhs ∧ (subSlot 1 0 h n).x0 = n.x0) :=
  have hx : slotInRange 1 qStore := by simp [slotInRange, qStore, qNode]
  have hy : slotInRange 0 qStore := by simp [slotInRange, qStore, qNode]
  ⟨⟨by decide, hx, hy⟩, inner_product_projects Rat.sqrt qStore 1 0 (by decide) hx hy⟩

theorem spmd_raw_norm {δ : Type} [Field δ] (sqrt : δ → δ) (nodes_ : List (List (Node δ)))
    (x : Nat) (hpos : 1 ≤ x) (hx : slotInRange x nodes_) :
    inner_product_spmd sqrt nodes_ x (-(x : Int))
      = some (nodes_.map (fun nodes => (nodes, (nodes_.flatten.map (slotSq x)).sum))) := by
  rw [sum_map_flatten]
  exact spmd_eq sqrt nodes_ x (-(x : Int)) (fun nodes => (nodes.map (slotSq x)).sum) _
    (fun nodes hn => local_norm nodes x _ (Or.inr (by omega)) (hx nodes hn))
    (fun nodes _ => update_raw sqrt nodes _ _ _ (by omega) (by omega))

theorem spmd_raw_rhs {δ : Type} [Field δ] (sqrt : δ → δ) (nodes_ : List (List (Node δ))) :
    inner_product_spmd sqrt nodes_ (-1) 1
      = some (nodes_.map (fun nodes => (nodes, (nodes_.flatten.map rhsSq).sum))) := by
  rw [sum_map_flatten]
  exact spmd_eq sqrt nodes_ (-1) 1 (fun nodes => (nodes.map rhsSq).sum) _
    (fun nodes _ => local_rhs nodes 1 (Or.inr rfl))
    (fun nodes _ => update_raw sqrt nodes _ _ _ (by decide) (by decide))

/-- C10 fails as stated: with selectors `x = -1`, `y = 1` (so `x = -y`,
`x ≠ y`) the value returned comes from `rhs`, not from the Krylov buffer: two
one-node stores with the same Krylov buffer and different `rhs` give 25 and 0. -/
theorem norm_squared_counterexample :
    (generalizedInnerProduct Rat.sqrt [[qNode 3 4 [1, 2, 3, 4]]] (-1) 1).map Prod.snd
      = some 25 ∧
    (generalizedInnerProduct Rat.sqrt [[qNode 0 0 [1, 2, 3, 4]]] (-1) 1).map Prod.snd
      = some 0 ∧
    (qNode 3 4 [1, 2, 3, 4]).gmres = (qNode 0 0 [1, 2, 3, 4]).gmres := by
  refine ⟨?_, ?_, rfl⟩
  · rw [generalizedInnerProduct_eq Rat.sqrt _ (-1) 1 id _ (by simp)
      (spmd_raw_rhs Rat.sqrt [[qNode 3 4 [1, 2, 3, 4]]])]
    simp [rhsSq, qNode]
    norm_num
  · rw [generalizedInnerProduct_eq Rat.sqrt _ (-1) 1 id _ (by simp)
      (spmd_raw_rhs Rat.sqrt [[qNode 0 0 [1, 2, 3, 4]]])]
    simp [rhsSq, qNode]

/-- C10 as amended (NORM_SQUARED): with selectors `x ≥ 1`, `y = -x` and slot
`x` inside every Krylov buffer, the generalized inner product returns the sum
over all nodes of `gmres[2x]^2 + gmres[2x+1]^2` without a square root and
leaves the store as it was; with `x = -1`, `y = 1` it returns the sum over all
nodes of `rhs[0]^2 + rhs[1]^2` without a square root and leaves the store as it
was. -/
theorem norm_squared_raw {δ : Type} [Field δ] (sqrt : δ → δ) (nodes_ : List (List (Node δ)))
    (x : Nat) (hpos : 1 ≤ x) (hx : slotInRange x nodes_) :
    generalizedInnerProduct sqrt nodes_ x (-(x : Int))
      = some (nodes_, (nodes_.flatten.map (slotSq x)).sum) ∧
    generalizedInnerProduct sqrt nodes_ (-1) 1
      = some (nodes_, (nodes_.flatten.map rhsSq).sum) := by
  constructor
  · have h := generalizedInnerProduct_eq sqrt nodes_ x (-(x : Int)) id
      ((nodes_.flatten.map (slotSq x)).sum) (by intro h0; subst h0; simp)
      (spmd_raw_norm sqrt nodes_ x hpos hx)
    simpa using h
  · have h := generalizedInnerProduct_eq sqrt nodes_ (-1) 1 id
      ((nodes_.flatten.map rhsSq).sum) (by intro h0; subst h0; simp)
      (spmd_raw_rhs sqrt nodes_)
    simpa using h

/-- Witness of the amended C10: slot 1 of four rational nodes. -/
theorem norm_squared_raw_witness :
    (1 ≤ 1 ∧ slotInRange 1 qStore) ∧
    (generalizedInnerProduct Rat.sqrt qStore ((1 : Nat) : Int) (-((1 : Nat) : Int))
      = some (qStore, (qStore.flatten.map (slotSq 1)).sum) ∧
    generalizedInnerProduct Rat.sqrt qStore (-1) 1
      = some (qStore, (qStore.flatten.map rhsSq).sum)) :=
  have hx : slotInRange 1 qStore := by simp [slotInRange, qStore, qNode]
  ⟨⟨le_refl 1, hx⟩, norm_squared_raw Rat.sqrt qStore 1 (le_refl 1) hx⟩

theorem coefSum_succ {δ : Type} [Field δ] (c g : List δ) (off t : Nat) :
    coefSum c g off (t + 1) = coefSum c g off t + c.getD t 0 * g.getD (2 * t + off) 0 := by
  simp [coefSum, List.range_succ]

theorem linear_combination_step_eq {δ : Type} [Field δ] (c : List δ) (x : δ × δ) (g : List δ)
    (j : Nat) (hc : j < c.length) (hg : 2 * j + 1 < g.length) :
    linear_combination_step c (x, g) j
      = some ((x.1 + c.getD j 0 * g.getD (2 * j) 0, x.2 + c.getD j 0 * g.getD (2 * j + 1) 0),
          (g.set (2 * j) 0).set (2 * j + 1) 0) := by
  have h0 : 2 * j < g.length := by omega
  simp only [linear_combination_step, two_mul_natCast, natCast_add_one, vecGet_natCast,
    getElem?_eq_some_getD c j 0 hc, getElem?_eq_some_getD g (2 * j) 0 h0,
    getElem?_eq_some_getD g (2 * j + 1) 0 hg, vecSet_natCast _ _ _ h0]
  rw [vecSet_natCast _ _ _ (by rw [List.length_set]; exact hg)]

theorem linear_combination_loop {δ : Type} [Field δ] (c : List δ) (x : δ × δ) (g : List δ)
    (t : Nat) (hc : t ≤ c.length) (hg : 2 * t ≤ g.length) :
    ∃ g', (List.range t).foldlM (linear_combination_step c) (x, g)
        = some ((x.1 + coefSum c g 0 t, x.2 + coefSum c g 1 t), g') ∧
      g'.length = g.length ∧
      ∀ i, g'[i]? = if i < 2 * t then some 0 else g[i]? := by
  induction t with
  | zero =>
    refine ⟨g, ?_, rfl, ?_⟩
    · simp [coefSum]
    · intro i; simp
  | succ t ih =>
    obtain ⟨g', h1, h2, h3⟩ := ih (by omega) (by omega)
    have e0 : g'.getD (2 * t) 0 = g.getD (2 * t) 0 := by
      simp only [List.getD_eq_getElem?_getD, h3]
      rw [if_neg (by omega)]
    have e1 : g'.getD (2 * t + 1) 0 = g.getD (2 * t + 1) 0 := by
      simp only [List.getD_eq_getElem?_getD, h3]
      rw [if_neg (by omega)]
    refine ⟨(g'.set (2 * t) 0).set (2 * t + 1) 0, ?_, ?_, ?_⟩
    · rw [List.range_succ, List.foldlM_append, h1]
      simp only [Option.bind_eq_bind, Option.some_bind, List.foldlM_cons, List.foldlM_nil]
      rw [linear_combination_step_eq c _ g' t (by omega) (by omega)]
      simp only [e0, e1, coefSum_succ, add_assoc, Nat.add_zero, Option.some_bind, pure]
    · simp only [List.length_set, h2]
    · intro i
      simp only [List.getElem?_set, List.length_set, h3]
      by_cases ha : 2 * t + 1 = i
      · subst ha
        rw [if_pos rfl, if_pos (by omega), if_pos (by omega)]
      · by_cases hb : 2 * t = i
        · subst hb
          rw [if_neg ha, if_pos rfl, if_pos (by omega), if_pos (by omega)]
        · rw [if_neg ha, if_neg hb]
          by_cases hlt : i < 2 * t
          · rw [if_pos hlt, if_pos (by omega)]
          · rw [if_neg hlt, if_neg (by omega)]

theorem linear_combination_node_eq {δ : Type} [Field δ] (c : List δ) (k : Nat) (n : Node δ)
    (hc : k + 1 ≤ c.length) (hg : 2 * k + 4 ≤ n.gmres.length) :
    linear_combination_node c (k : Int) n = some (restartImage c k n) := by
  obtain ⟨g', h1, h2, h3⟩ := linear_combination_loop c n.x0 n.gmres (k + 1) hc (by omega)
  have ek : ((k : Int) + 1).toNat = k + 1 := by omega
  have e2 : (2 * (k : Int) + 2) = ((2 * k + 2 : Nat) : Int) := by push_cast; ring
  have e3 : (2 * (k : Int) + 3) = ((2 * k + 3 : Nat) : Int) := by push_cast; ring
  have e0 : (0 : Int) = ((0 : Nat) : Int) := rfl
  have e1 : (1 : Int) = ((1 : Nat) : Int) := rfl
  simp only [linear_combination_node, ek, h1, e2, e3]
  rw [vecSet_natCast _ _ _ (by omega)]
  simp only []
  rw [vecSet_natCast _ _ _ (by rw [List.length_set]; omega)]
  simp only []
  rw [e0, vecSet_natCast _ _ _ (by simp only [List.length_set]; omega)]
  simp only []
  rw [e1, vecSet_natCast _ _ _ (by simp only [List.length_set]; omega)]
  simp only [restartImage, Option.some.injEq]
  congr 1
  apply List.ext_getElem?
  intro i
  simp only [List.getElem?_set, List.length_set, List.getElem?_mapIdx, h3, h2]
  by_cases hi : i < n.gmres.length
  · rw [List.getElem?_eq_getElem hi]
    simp only [Option.map_some']
    by_cases c1 : 1 = i
    · subst c1
      simp
      omega
    · by_cases c0 : 0 = i
      · subst c0
        have hne : n.gmres ≠ [] := List.ne_nil_of_length_pos hi
        simp [hne]
      · have n0 : ¬ i = 0 := fun h => c0 h.symm
        have n1 : ¬ i = 1 := fun h => c1 h.symm
        simp only [if_neg c1, if_neg c0, if_neg n0, if_neg n1]
        by_cases c3 : 2 * k + 3 = i
        · subst c3
          simp
          omega
        · by_cases c2 : 2 * k + 2 = i
          · subst c2
            simp
            omega
          · simp only [if_neg c3, if_neg c2]
            by_cases c4 : i < 2 * (k + 1)
            · rw [if_pos c4, if_pos (by omega)]
            · rw [if_neg c4, if_neg (by omega)]
  · have hn : n.gmres[i]? = none := List.getElem?_eq_none (by omega)
    simp only [hn, Option.map_none']
    by_cases c1 : 1 = i
    · omega
    · by_cases c0 : 0 = i
      · omega
      · simp only [if_neg c1, if_neg c0]
        by_cases c3 : 2 * k + 3 = i
        · omega
        · by_cases c2 : 2 * k + 2 = i
          · omega
          · simp only [if_neg c3, if_neg c2]
            rw [if_neg (by omega)]

theorem linearCombination_eq {δ : Type} [Field δ] (nodes_ : List (List (Node δ)))
    (c : List δ) (k : Nat) (hc : k + 1 ≤ c.length) (hg : krylovAtLeast (2 * k + 4) nodes_) :
    linearCombination nodes_ c (k : Int) = some (nodes_.map (List.map (restartImage c k))) := by
  apply mapM_eq_some_map
  intro nodes hn
  apply mapM_eq_some_map
  intro n hnn
  exact linear_combination_node_eq c k n hc (hg nodes hn n hnn)

/-- C11: the linear combination updates the solution.  For `k ≥ 0`,
coefficients `c[0..k]` and a store whose Krylov buffers have at least `2k + 4`
entries, `linear_combination_handler(c, k)` succeeds on every rank, and on every
node `x0[0]` has gained the sum over `j = 0..k` of `c[j] * gmres[2j]` and `x0[1]`
the sum of `c[j] * gmres[2j+1]`, taken on the Krylov values before the call;
`rhs` is unchanged. -/
theorem linear_combination_updates_solution {δ : Type} [Field δ]
    (nodes_ : List (List (Node δ))) (c : List δ) (k : Nat) (hc : k + 1 ≤ c.length)
    (hg : krylovAtLeast (2 * k + 4) nodes_) :
    linearCombination nodes_ c (k : Int) = some (nodes_.map (List.map (restartImage c k))) ∧
    ∀ n : Node δ,
      (restartImage c k n).x0
        = (n.x0.1 + ((List.range (k + 1)).map
              (fun j => c.getD j 0 * n.gmres.getD (2 * j) 0)).sum,
           n.x0.2 + ((List.range (k + 1)).map
              (fun j => c.getD j 0 * n.gmres.getD (2 * j + 1) 0)).sum) ∧
      (restartImage c k n).rhs = n.rhs := by
  refine ⟨linearCombination_eq nodes_ c k hc hg, fun n => ⟨?_, rfl⟩⟩
  simp only [restartImage, coefSum, Nat.add_zero]

/-- Witness of C11: `k = 1`, `c = [2, 3]` on four nodes with three slots. -/
theorem linear_combination_updates_solution_witness :
    (1 + 1 ≤ ([2, 3] : List ℚ).length ∧ krylovAtLeast (2 * 1 + 4) qStore6) ∧
    (linearCombination qStore6 [2, 3] ((1 : Nat) : Int)
      = some (qStore6.map (List.map (restartImage [2, 3] 1))) ∧
    ∀ n : Node ℚ,
      (restartImage [2, 3] 1 n).x0
        = (n.x0.1 + ((List.range (1 + 1)).map
              (fun j => ([2, 3] : List ℚ).getD j 0 * n.gmres.getD (2 * j) 0)).sum,
           n.x0.2 + ((List.range (1 + 1)).map
              (fun j => ([2, 3] : List ℚ).getD j 0 * n.gmres.getD (2 * j + 1) 0)).sum) ∧
      (restartImage [2, 3] 1 n).rhs = n.rhs) :=
  have hc : 1 + 1 ≤ ([2, 3] : List ℚ).length := by decide
  have hg : krylovAtLeast (2 * 1 + 4) qStore6 := by
    simp [krylovAtLeast, qStore6, qNode]
  ⟨⟨hc, hg⟩, linear_combination_updates_solution qStore6 [2, 3] 1 hc hg⟩

/-- C12: the linear combination resets the basis.  Under the conditions of the
restart update (`k ≥ 0`, coefficients `c[0..k]`, Krylov buffers of at least
`2k + 4` entries), afterwards on every node the Krylov entries `2 .. 2k+3`
(slots `1 .. k+1`) are zero, entries 0 and 1 (slot 0) hold the updated `x0`,
and the entries from `2k + 4` on are unchanged. -/
theorem linear_combination_resets_basis {δ : Type} [Field δ]
    (nodes_ : List (List (Node δ))) (c : List δ) (k : Nat) (hc : k + 1 ≤ c.length)
    (hg : krylovAtLeast (2 * k + 4) nodes_) :
    linearCombination nodes_ c (k : Int) = some (nodes_.map (List.map (restartImage c k))) ∧
    ∀ n : Node δ, 2 * k + 4 ≤ n.gmres.length →
      (restartImage c k n).gmres[0]? = some (restartImage c k n).x0.1 ∧
      (restartImage c k n).gmres[1]? = some (restartImage c k n).x0.2 ∧
      (∀ i, 2 ≤ i → i < 2 * k + 4 → (restartImage c k n).gmres[i]? = some 0) ∧
      (∀ i, 2 * k + 4 ≤ i → (restartImage c k n).gmres[i]? = n.gmres[i]?) ∧
      (restartImage c k n).gmres.length = n.gmres.length := by
  refine ⟨linearCombination_eq nodes_ c k hc hg, fun n hn => ⟨?_, ?_, ?_, ?_, ?_⟩⟩
  · simp only [restartImage, List.getElem?_mapIdx,
      List.getElem?_eq_getElem (show 0 < n.gmres.length by omega), Option.map_some', if_pos]
  · simp only [restartImage, List.getElem?_mapIdx,
      List.getElem?_eq_getElem (show 1 < n.gmres.length by omega), Option.map_some',
      if_neg (show ¬ (1 = 0) by decide), if_pos]
  · intro i h2 hi
    simp only [restartImage, List.getElem?_mapIdx,
      List.getElem?_eq_getElem (show i < n.gmres.length by omega), Option.map_some',
      if_neg (show ¬ (i = 0) by omega), if_neg (show ¬ (i = 1) by omega), if_pos hi]
  · intro i hi
    simp only [restartImage, List.getElem?_mapIdx]
    by_cases c1 : i < n.gmres.length
    · simp only [List.getElem?_eq_getElem c1, Option.map_some',
        if_neg (show ¬ (i = 0) by omega), if_neg (show ¬ (i = 1) by omega),
        if_neg (show ¬ (i < 2 * k + 4) by omega)]
    · simp only [List.getElem?_eq_none (show n.gmres.length ≤ i by omega), Option.map_none']
  · simp only [restartImage, List.length_mapIdx]

/-- Witness of C12: `k = 1`, `c = [2, 3]` on four nodes with three slots. -/
theorem linear_combination_resets_basis_witness :
    (1 + 1 ≤ ([2, 3] : List ℚ).length ∧ krylovAtLeast (2 * 1 + 4) qStore6) ∧
    (linearCombination qStore6 [2, 3] ((1 : Nat) : Int)
      = some (qStore6.map (List.map (restartImage [2, 3] 1))) ∧
    ∀ n : Node ℚ, 2 * 1 + 4 ≤ n.gmres.length →
      (restartImage [2, 3] 1 n).gmres[0]? = some (restartImage [2, 3] 1 n).x0.1 ∧
      (restartImage [2, 3] 1 n).gmres[1]? = some (restartImage [2, 3] 1 n).x0.2 ∧
      (∀ i, 2 ≤ i → i < 2 * 1 + 4 → (restartImage [2, 3] 1 n).gmres[i]? = some 0) ∧
      (∀ i, 2 * 1 + 4 ≤ i → (restartImage [2, 3] 1 n).gmres[i]? = n.gmres[i]?) ∧
      (restartImage [2, 3] 1 n).gmres.length = n.gmres.length) :=
  have hc : 1 + 1 ≤ ([2, 3] : List ℚ).length := by decide
  have hg : krylovAtLeast (2 * 1 + 4) qStore6 := by
    simp [krylovAtLeast, qStore6, qNode]
  ⟨⟨hc, hg⟩, linear_combination_resets_basis qStore6 [2, 3] 1 hc hg⟩

theorem sum_ident_loop {δ : Type} [Zero δ] (input : List δ) (t : Nat) (ht : t ≤ input.length) :
    ∃ g, (List.range t).foldlM (fun (input : List δ) (i : Nat) => vecSet input (i : Int) (0 : δ)) input = some g ∧
      g.length = input.length ∧ ∀ i, g[i]? = if i < t then some 0 else input[i]? := by
  induction t with
  | zero => exact ⟨input, rfl, rfl, fun i => by simp⟩
  | succ t ih =>
    obtain ⟨g, h1, h2, h3⟩ := ih (by omega)
    refine ⟨g.set t 0, ?_, ?_, ?_⟩
    · rw [List.range_succ, List.foldlM_append, h1]
      simp only [Option.bind_eq_bind, Option.some_bind, List.foldlM_cons, List.foldlM_nil]
      rw [vecSet_natCast _ _ _ (by omega)]
      rfl
    · simp only [List.length_set, h2]
    · intro i
      simp only [List.getElem?_set, h3, h2]
      by_cases c : t = i
      · subst c
        rw [if_pos rfl, if_pos (by omega), if_pos (by omega)]
      · rw [if_neg c]
        by_cases c' : i < t
        · rw [if_pos c', if_pos (by omega)]
        · rw [if_neg c', if_neg (by omega)]

theorem sum_ident_handler_eq {δ : Type} [Zero δ] (input : List δ) (bytes : Nat)
    (h : input.length = bytes / sizeofDouble) :
    sum_ident_handler input bytes = some (List.replicate input.length 0) := by
  obtain ⟨g, h1, h2, h3⟩ := sum_ident_loop input (bytes / sizeofDouble) (by omega)
  simp only [sum_ident_handler, h1, Option.some.injEq]
  apply List.ext_getElem?
  intro i
  rw [h3, List.getElem?_replicate, ← h]
  by_cases c : i < input.length
  · rw [if_pos c, if_pos c]
  · rw [if_neg c, if_neg c]
    exact List.getElem?_eq_none (by omega)

theorem sum_op_loop {δ : Type} [Add δ] (lhs rhs : List δ) (t : Nat) (hl : t ≤ lhs.length)
    (hr : t ≤ rhs.length) :
    ∃ g, (List.range t).foldlM (fun (lhs : List δ) (i : Nat) =>
        match vecGet lhs (i : Int), vecGet rhs (i : Int) with
        | some a, some b => vecSet lhs (i : Int) (a + b)
        | _, _ => none) lhs = some g ∧
      g.length = lhs.length ∧
      ∀ i, g[i]? = if i < t then (List.zipWith (· + ·) lhs rhs)[i]? else lhs[i]? := by
  induction t with
  | zero => exact ⟨lhs, rfl, rfl, fun i => by simp⟩
  | succ t ih =>
    obtain ⟨g, h1, h2, h3⟩ := ih (by omega) (by omega)
    have hlt : t < lhs.length := by omega
    have hrt : t < rhs.length := by omega
    have hg : g[t]? = some lhs[t] := by
      rw [h3, if_neg (by omega), List.getElem?_eq_getElem hlt]
    refine ⟨g.set t (lhs[t] + rhs[t]), ?_, ?_, ?_⟩
    · rw [List.range_succ, List.foldlM_append, h1]
      simp only [Option.bind_eq_bind, Option.some_bind, List.foldlM_cons, List.foldlM_nil,
        vecGet_natCast, hg, List.getElem?_eq_getElem hrt]
      rw [vecSet_natCast _ _ _ (by omega)]
      rfl
    · simp only [List.length_set, h2]
    · intro i
      simp only [List.getElem?_set, h3, h2]
      by_cases c : t = i
      · subst c
        rw [if_pos rfl, if_pos (by omega), if_pos (by omega), List.getElem?_zipWith,
          List.getElem?_eq_getElem hlt, List.getElem?_eq_getElem hrt]
      · rw [if_neg c]
        by_cases c' : i < t
        · rw [if_pos c', if_pos (by omega)]
        · rw [if_neg c', if_neg (by omega)]

theorem sum_op_handler_eq {δ : Type} [Add δ] (lhs rhs : List δ) (bytes : Nat)
    (hl : lhs.length = bytes / sizeofDouble) (hr : rhs.length = bytes / sizeofDouble) :
    sum_op_handler lhs rhs bytes = some (List.zipWith (· + ·) lhs rhs) := by
  obtain ⟨g, h1, h2, h3⟩ := sum_op_loop lhs rhs (bytes / sizeofDouble) (by omega) (by omega)
  have e : g = List.zipWith (· + ·) lhs rhs := by
    apply List.ext_getElem?
    intro i
    rw [h3]
    by_cases c : i < bytes / sizeofDouble
    · rw [if_pos c]
    · rw [if_neg c, List.getElem?_eq_none (by omega), List.getElem?_eq_none]
      rw [List.length_zipWith]
      omega
  rw [← e]
  exact h1

theorem fold_sum_op {δ : Type} [AddCommMonoid δ] (bytes : Nat) (vs : List (List δ))
    (acc : List δ) (ha : acc.length = bytes / sizeofDouble)
    (hv : ∀ v ∈ vs, v.length = bytes / sizeofDouble) :
    ∃ r, vs.foldlM (fun acc v => sum_op_handler acc v bytes) acc = some r ∧
      r.length = bytes / sizeofDouble ∧
      ∀ i, i < bytes / sizeofDouble →
        r[i]? = some (acc.getD i 0 + (vs.map (fun v => v.getD i 0)).sum) := by
  induction vs generalizing acc with
  | nil =>
    refine ⟨acc, rfl, ha, ?_⟩
    intro i hi
    simp only [List.map_nil, List.sum_nil, add_zero]
    exact getElem?_eq_some_getD acc i 0 (by omega)
  | cons v vs ih =>
    have hvl := hv v (List.mem_cons_self v vs)
    obtain ⟨r, h1, h2, h3⟩ := ih (List.zipWith (· + ·) acc v)
      (by rw [List.length_zipWith]; omega) (fun w hw => hv w (List.mem_cons_of_mem v hw))
    refine ⟨r, ?_, h2, ?_⟩
    · rw [List.foldlM_cons, sum_op_handler_eq acc v bytes ha hvl]
      exact h1
    · intro i hi
      rw [h3 i hi]
      have e : (List.zipWith (· + ·) acc v).getD i 0 = acc.getD i 0 + v.getD i 0 := by
        simp only [List.getD_eq_getElem?_getD, List.getElem?_zipWith]
        rw [List.getElem?_eq_getElem (show i < acc.length by omega),
          List.getElem?_eq_getElem (show i < v.length by omega)]
        rfl
      simp only [e, List.map_cons, List.sum_cons, add_assoc]

/-- C13: the sum reduction.  `sum_ident_handler` sets every double of a
payload of `bytes / sizeof(double)` doubles to zero; `sum_op_handler` adds `rhs`
into `lhs` entry by entry; the identity is neutral for the operator; and
combining the contributions `vs` of the workers into the identity gives, entry
by entry, the sum of the contributions, the same for every order `vs'` in which
the contributions arrive. -/
theorem sum_reduction {δ : Type} [AddCommMonoid δ] (bytes : Nat) (buf : List δ)
    (vs vs' : List (List δ)) (hb : buf.length = bytes / sizeofDouble)
    (hv : ∀ v ∈ vs, v.length = bytes / sizeofDouble) (hp : vs'.Perm vs) :
    sum_ident_handler buf bytes = some (List.replicate (bytes / sizeofDouble) 0) ∧
    (∀ lhs rhs : List δ, lhs.length = bytes / sizeofDouble →
      rhs.length = bytes / sizeofDouble →
      sum_op_handler lhs rhs bytes = some (List.zipWith (· + ·) lhs rhs)) ∧
    (∀ v ∈ vs, sum_op_handler (List.replicate (bytes / sizeofDouble) 0) v bytes = some v) ∧
    ∃ r, vs.foldlM (fun acc v => sum_op_handler acc v bytes)
          (List.replicate (bytes / sizeofDouble) 0) = some r ∧
      vs'.foldlM (fun acc v => sum_op_handler acc v bytes)
          (List.replicate (bytes / sizeofDouble) 0) = some r ∧
      r.length = bytes / sizeofDouble ∧
      ∀ i, i < bytes / sizeofDouble → r[i]? = some ((vs.map (fun v => v.getD i 0)).sum) := by
  have hz : (List.replicate (bytes / sizeofDouble) (0 : δ)).length = bytes / sizeofDouble :=
    List.length_replicate _ _
  have hzero : ∀ i, i < bytes / sizeofDouble →
      (List.replicate (bytes / sizeofDouble) (0 : δ)).getD i 0 = 0 := by
    intro i hi
    simp [List.getD_eq_getElem?_getD, List.getElem?_replicate, hi]
  refine ⟨?_, fun lhs rhs hl hr => sum_op_handler_eq lhs rhs bytes hl hr, ?_, ?_⟩
  · rw [sum_ident_handler_eq buf bytes hb, hb]
  · intro v hvm
    rw [sum_op_handler_eq _ v bytes hz (hv v hvm)]
    congr 1
    apply List.ext_getElem?
    intro i
    rw [List.getElem?_zipWith, List.getElem?_replicate]
    by_cases c : i < bytes / sizeofDouble
    · rw [if_pos c, List.getElem?_eq_getElem (show i < v.length by rw [hv v hvm]; exact c)]
      simp
    · rw [if_neg c, List.getElem?_eq_none (show v.length ≤ i by rw [hv v hvm]; omega)]
  · obtain ⟨r, h1, h2, h3⟩ := fold_sum_op bytes vs _ hz hv
    obtain ⟨r', h1', h2', h3'⟩ := fold_sum_op bytes vs' _ hz
      (fun v hvm => hv v (hp.mem_iff.mp hvm))
    have e : r' = r := by
      apply List.ext_getElem?
      intro i
      by_cases c : i < bytes / sizeofDouble
      · rw [h3 i c, h3' i c, (hp.map (fun v => v.getD i 0)).sum_eq]
      · rw [List.getElem?_eq_none (by omega), List.getElem?_eq_none (by omega)]
    refine ⟨r, h1, e ▸ h1', h2, ?_⟩
    intro i hi
    rw [h3 i hi, hzero i hi, zero_add]

/-- Witness of C13: two contributions of two doubles each, in both orders. -/
theorem sum_reduction_witness :
    (([5, 7] : List Int).length = 16 / sizeofDouble ∧
      (∀ v ∈ ([[1, 2], [3, 4]] : List (List Int)), v.length = 16 / sizeofDouble) ∧
      ([[3, 4], [1, 2]] : List (List Int)).Perm [[1, 2], [3, 4]]) ∧
    (sum_ident_handler ([5, 7] : List Int) 16 = some (List.replicate (16 / sizeofDouble) 0) ∧
    (∀ lhs rhs : List Int, lhs.length = 16 / sizeofDouble →
      rhs.length = 16 / sizeofDouble →
      sum_op_handler lhs rhs 16 = some (List.zipWith (· + ·) lhs rhs)) ∧
    (∀ v ∈ ([[1, 2], [3, 4]] : List (List Int)),
      sum_op_handler (List.replicate (16 / sizeofDouble) 0) v 16 = some v) ∧
    ∃ r, ([[1, 2], [3, 4]] : List (List Int)).foldlM (fun acc v => sum_op_handler acc v 16)
          (List.replicate (16 / sizeofDouble) 0) = some r ∧
      ([[3, 4], [1, 2]] : List (List Int)).foldlM (fun acc v => sum_op_handler acc v 16)
          (List.replicate (16 / sizeofDouble) 0) = some r ∧
      r.length = 16 / sizeofDouble ∧
      ∀ i, i < 16 / sizeofDouble →
        r[i]? = some ((([[1, 2], [3, 4]] : List (List Int)).map (fun v => v.getD i 0)).sum)) :=
  have hb : ([5, 7] : List Int).length = 16 / sizeofDouble := by decide
  have hv : ∀ v ∈ ([[1, 2], [3, 4]] : List (List Int)), v.length = 16 / sizeofDouble := by
    decide
  have hp : ([[3, 4], [1, 2]] : List (List Int)).Perm [[1, 2], [3, 4]] :=
    List.Perm.swap _ _ _
  ⟨⟨hb, hv, hp⟩, sum_reduction 16 [5, 7] [[1, 2], [3, 4]] [[3, 4], [1, 2]] hb hv hp⟩

/-- C14 fails as stated: `exNode` is serialized with the iteration counter at 1
and read with the counter at 0; `deserialize` returns normally and entry 0 of
the receiver's Krylov buffer, 1 before, is 18 afterwards. -/
theorem partial_mismatch_counterexample :
    ∃ wire dest m' src,
      NodePartialSerializer.serialize 1 exNode Buffer.empty 0 = some (wire, dest) ∧
      NodePartialSerializer.deserialize 0 wire 0 exBlank = some (m', src) ∧
      exBlank.gmres[0]? = some 1 ∧ m'.gmres[0]? = some 18 :=
  ⟨_, _, _, _, partial_serialize_eq exNode Buffer.empty 0 1 18 19 rfl rfl,
    partial_deserialize_eq exNode exBlank Buffer.empty 0 0 18 19 (by decide), by decide,
    by decide⟩

/-- C14 as amended: the Partial wire payload holds the index, the Krylov
length, position, inner normal, area and the two doubles of the slot selected
at serialize time, and no iteration index: two iterations whose slots hold the
same values give the same bytes.  `deserialize` run with any in-range counter
`j` returns normally, whatever the counter `i` was at serialize time, and
writes the two doubles into entries `2j`, `2j+1` of the receiver. -/
theorem partial_mismatch_undetected {δ : Type} [Zero δ] (n m : Node δ) (mem : Buffer δ)
    (buffer : Nat) (i i' j : Nat) (hi : 2 * i + 1 < n.gmres.length)
    (hj : 2 * j + 1 < n.gmres.length)
    (hsame : n.gmres[2 * i]? = n.gmres[2 * i']? ∧ n.gmres[2 * i + 1]? = n.gmres[2 * i' + 1]?) :
    NodePartialSerializer.serialize (i : Int) n mem buffer
      = NodePartialSerializer.serialize (i' : Int) n mem buffer ∧
    ∃ wire dest m' src,
      NodePartialSerializer.serialize (i : Int) n mem buffer = some (wire, dest) ∧
      NodePartialSerializer.deserialize (j : Int) wire buffer m = some (m', src) ∧
      m'.gmres[2 * j]? = n.gmres[2 * i]? ∧ m'.gmres[2 * j + 1]? = n.gmres[2 * i + 1]? := by
  have a0 := getElem?_eq_some_getD n.gmres (2 * i) 0 (by omega)
  have a1 := getElem?_eq_some_getD n.gmres (2 * i + 1) 0 hi
  have b0 : n.gmres[2 * i']? = some (n.gmres.getD (2 * i) 0) := by rw [← hsame.1]; exact a0
  have b1 : n.gmres[2 * i' + 1]? = some (n.gmres.getD (2 * i + 1) 0) := by
    rw [← hsame.2]; exact a1
  refine ⟨?_, _, _, _, _, partial_serialize_eq n mem buffer i _ _ a0 a1,
    partial_deserialize_eq n m mem buffer j _ _ hj, ?_, ?_⟩
  · rw [partial_serialize_eq n mem buffer i _ _ a0 a1,
      partial_serialize_eq n mem buffer i' _ _ b0 b1]
  · simp only [partialImage]
    rw [List.getElem?_set_ne (by omega),
      List.getElem?_set_self (by rw [length_resize]; omega), a0]
  · simp only [partialImage]
    rw [List.getElem?_set_self (by rw [List.length_set, length_resize]; exact hj), a1]

/-- Witness of the amended C14: `exTwin`, whose slots 0 and 1 are equal, sent
at iteration 1 and read at iteration 0. -/
theorem partial_mismatch_undetected_witness :
    (2 * 1 + 1 < exTwin.gmres.length ∧ 2 * 0 + 1 < exTwin.gmres.length ∧
      (exTwin.gmres[2 * 1]? = exTwin.gmres[2 * 0]? ∧
        exTwin.gmres[2 * 1 + 1]? = exTwin.gmres[2 * 0 + 1]?)) ∧
    (NodePartialSerializer.serialize ((1 : Nat) : Int) exTwin Buffer.empty 0
      = NodePartialSerializer.serialize ((0 : Nat) : Int) exTwin Buffer.empty 0 ∧
    ∃ wire dest m' src,
      NodePartialSerializer.serialize ((1 : Nat) : Int) exTwin Buffer.empty 0
        = some (wire, dest) ∧
      NodePartialSerializer.deserialize ((0 : Nat) : Int) wire 0 exBlank = some (m', src) ∧
      m'.gmres[2 * 0]? = exTwin.gmres[2 * 1]? ∧
      m'.gmres[2 * 0 + 1]? = exTwin.gmres[2 * 1 + 1]?) :=
  ⟨by decide, partial_mismatch_undetected exTwin exBlank Buffer.empty 0 1 0 0 (by decide)
    (by decide) (by decide)⟩

/-- C16 fails as stated: `exNode` has Krylov entries 18, 19 in slot 1; after a
Full round trip into `exBlank` entry 2 of the receiver is its own old value 3,
and after a Minimum round trip the receiver has no entry 2. -/
theorem first_two_slots_counterexample :
    (∃ wire dest m' src,
      NodeFullSerializer.serialize exNode Buffer.empty 0 = some (wire, dest) ∧
      NodeFullSerializer.deserialize wire 0 exBlank = some (m', src) ∧
      exNode.gmres[2]? = some 18 ∧ m'.gmres[2]? = some 3) ∧
    (∃ wire dest m' src,
      NodeMinimumSerializer.serialize exNode Buffer.empty 0 = some (wire, dest) ∧
      NodeMinimumSerializer.deserialize wire 0 exBlank = some (m', src) ∧
      exNode.gmres[2]? = some 18 ∧ m'.gmres[2]? = none) :=
  ⟨⟨_, _, _, _, full_serialize_eq exNode Buffer.empty 0 16 17 [18, 19] rfl,
      full_deserialize_eq exNode exBlank Buffer.empty 0 16 17 [18, 19] rfl, by decide,
      by decide⟩,
    ⟨_, _, _, _, minimum_serialize_eq exNode Buffer.empty 0 16 17 [18, 19] rfl,
      minimum_deserialize_eq exNode exBlank Buffer.empty 0 16 17, by decide, by decide⟩⟩

/-- C16 as amended: Full and Minimum carry the first Krylov slot only.  For a
node `n` with at least four Krylov entries, after `deserialize(serialize(n))`
into `m` entries 0 and 1 of `m` equal those of `n` under both profiles; under
Full entries 2 and 3 of `m` are what `m` held there before, or zero where `m`
was shorter; under Minimum `m` has no entries 2 and 3. -/
theorem first_slot_only {δ : Type} [Zero δ] (n m : Node δ) (mem : Buffer δ) (buffer : Nat)
    (h : 4 ≤ n.gmres.length) :
    (∃ wire dest m' src,
      NodeFullSerializer.serialize n mem buffer = some (wire, dest) ∧
      NodeFullSerializer.deserialize wire buffer m = some (m', src) ∧
      m'.gmres[0]? = n.gmres[0]? ∧ m'.gmres[1]? = n.gmres[1]? ∧
      ∀ k, 2 ≤ k → k < 4 →
        (k < m.gmres.length → m'.gmres[k]? = m.gmres[k]?) ∧
        (m.gmres.length ≤ k → m'.gmres[k]? = some 0)) ∧
    (∃ wire dest m' src,
      NodeMinimumSerializer.serialize n mem buffer = some (wire, dest) ∧
      NodeMinimumSerializer.deserialize wire buffer m = some (m', src) ∧
      m'.gmres[0]? = n.gmres[0]? ∧ m'.gmres[1]? = n.gmres[1]? ∧
      m'.gmres[2]? = none ∧ m'.gmres[3]? = none) := by
  obtain ⟨g0, g1, rest, hn⟩ := two_le_length_cases n.gmres (by omega)
  have hr : 2 ≤ (resize m.gmres n.gmres.length).length := by rw [length_resize]; omega
  obtain ⟨e0, e1⟩ := getElem?_set_set_zero (resize m.gmres n.gmres.length) g0 g1 hr
  have hr' : 2 ≤ (resize m.gmres 2).length := by rw [length_resize]
  obtain ⟨f0, f1⟩ := getElem?_set_set_zero (resize m.gmres 2) g0 g1 hr'
  have n0 : n.gmres[0]? = some g0 := by simp [hn]
  have n1 : n.gmres[1]? = some g1 := by simp [hn]
  refine ⟨⟨_, _, _, _, full_serialize_eq n mem buffer g0 g1 rest hn,
      full_deserialize_eq n m mem buffer g0 g1 rest hn, ?_, ?_, ?_⟩,
    ⟨_, _, _, _, minimum_serialize_eq n mem buffer g0 g1 rest hn,
      minimum_deserialize_eq n m mem buffer g0 g1, ?_, ?_, ?_, ?_⟩⟩
  · rw [n0]; exact e0
  · rw [n1]; exact e1
  · intro k hk hk4
    simp only [fullImage]
    rw [List.getElem?_set_ne (by omega), List.getElem?_set_ne (by omega)]
    exact ⟨fun hm => resize_getElem?_lt _ _ _ (by omega) hm,
      fun hm => resize_getElem?_ge _ _ _ (by omega) hm⟩
  · rw [n0]; exact f0
  · rw [n1]; exact f1
  · apply List.getElem?_eq_none
    simp only [minimumImage, List.length_set, length_resize]
    omega
  · apply List.getElem?_eq_none
    simp only [minimumImage, List.length_set, length_resize]
    omega

/-- Witness of the amended C16 on `exNode` read into `exBlank`. -/
theorem first_slot_only_witness :
    4 ≤ exNode.gmres.length ∧
    ((∃ wire dest m' src,
      NodeFullSerializer.serialize exNode Buffer.empty 0 = some (wire, dest) ∧
      NodeFullSerializer.deserialize wire 0 exBlank = some (m', src) ∧
      m'.gmres[0]? = exNode.gmres[0]? ∧ m'.gmres[1]? = exNode.gmres[1]? ∧
      ∀ k, 2 ≤ k → k < 4 →
        (k < exBlank.gmres.length → m'.gmres[k]? = exBlank.gmres[k]?) ∧
        (exBlank.gmres.length ≤ k → m'.gmres[k]? = some 0)) ∧
    (∃ wire dest m' src,
      NodeMinimumSerializer.serialize exNode Buffer.empty 0 = some (wire, dest) ∧
      NodeMinimumSerializer.deserialize wire 0 exBlank = some (m', src) ∧
      m'.gmres[0]? = exNode.gmres[0]? ∧ m'.gmres[1]? = exNode.gmres[1]? ∧
      m'.gmres[2]? = none ∧ m'.gmres[3]? = none)) :=
  ⟨by decide, first_slot_only exNode exBlank Buffer.empty 0 (by decide)⟩

theorem set_rhs_eq {δ : Type} [Field δ] (nodes : List (Node δ)) (dielectric : δ)
    (hg : ∀ n ∈ nodes, 2 ≤ n.gmres.length) :
    set_rhs nodes dielectric = some (nodes.map (rhsImage dielectric)) := by
  apply mapM_eq_some_map
  intro n hn
  have h2 := hg n hn
  have e0 : (0 : Int) = ((0 : Nat) : Int) := rfl
  have e1 : (1 : Int) = ((1 : Nat) : Int) := rfl
  simp only []
  rw [e0, vecSet_natCast _ _ _ (by omega)]
  simp only []
  rw [e1, vecSet_natCast _ _ _ (by rw [List.length_set]; omega)]
  rfl

/-- C18: the right-hand-side set-up of INIT.  On a segment whose Krylov buffers
have at least two entries, `set_rhs` replaces each component of `rhs` by the old
component divided by the dielectric constant `d`, sets `x0` to the new `rhs`,
sets Krylov entries 0 and 1 to the new `rhs` and leaves every Krylov entry with
index `≥ 2` unchanged. -/
theorem set_rhs_scales {δ : Type} [Field δ] (nodes : List (Node δ)) (d : δ) (hd : d ≠ 0)
    (hg : ∀ n ∈ nodes, 2 ≤ n.gmres.length) :
    set_rhs nodes d = some (nodes.map (rhsImage d)) ∧
    ∀ n : Node δ, 2 ≤ n.gmres.length →
      (rhsImage d n).rhs = (n.rhs.1 / d, n.rhs.2 / d) ∧
      (rhsImage d n).rhs.1 * d = n.rhs.1 ∧ (rhsImage d n).rhs.2 * d = n.rhs.2 ∧
      (rhsImage d n).x0 = (rhsImage d n).rhs ∧
      (rhsImage d n).gmres[0]? = some (rhsImage d n).rhs.1 ∧
      (rhsImage d n).gmres[1]? = some (rhsImage d n).rhs.2 ∧
      (∀ k, 2 ≤ k → (rhsImage d n).gmres[k]? = n.gmres[k]?) ∧
      (rhsImage d n).gmres.length = n.gmres.length := by
  refine ⟨set_rhs_eq nodes d hg, fun n hn => ⟨rfl, ?_, ?_, rfl, ?_, ?_, ?_, ?_⟩⟩
  · simp only [rhsImage]; exact div_mul_cancel₀ _ hd
  · simp only [rhsImage]; exact div_mul_cancel₀ _ hd
  · simp only [rhsImage]
    rw [List.getElem?_set_ne (by omega), List.getElem?_set_self (by omega)]
  · simp only [rhsImage]
    rw [List.getElem?_set_self (by rw [List.length_set]; omega)]
  · intro k hk
    simp only [rhsImage]
    rw [List.getElem?_set_ne (by omega), List.getElem?_set_ne (by omega)]
  · simp only [rhsImage, List.length_set]

/-- Witness of C18: a segment of two rational nodes, dielectric constant 2. -/
theorem set_rhs_scales_witness :
    ((2 : ℚ) ≠ 0 ∧ ∀ n ∈ [qNode 1 3 [3, 4, 1, 2], qNode 4 6 [0, 0, 2, 1]],
      2 ≤ n.gmres.length) ∧
    (set_rhs [qNode 1 3 [3, 4, 1, 2], qNode 4 6 [0, 0, 2, 1]] 2
      = some ([qNode 1 3 [3, 4, 1, 2], qNode 4 6 [0, 0, 2, 1]].map (rhsImage 2)) ∧
    ∀ n : Node ℚ, 2 ≤ n.gmres.length →
      (rhsImage 2 n).rhs = (n.rhs.1 / 2, n.rhs.2 / 2) ∧
      (rhsImage 2 n).rhs.1 * 2 = n.rhs.1 ∧ (rhsImage 2 n).rhs.2 * 2 = n.rhs.2 ∧
      (rhsImage 2 n).x0 = (rhsImage 2 n).rhs ∧
      (rhsImage 2 n).gmres[0]? = some (rhsImage 2 n).rhs.1 ∧
      (rhsImage 2 n).gmres[1]? = some (rhsImage 2 n).rhs.2 ∧
      (∀ k, 2 ≤ k → (rhsImage 2 n).gmres[k]? = n.gmres[k]?) ∧
      (rhsImage 2 n).gmres.length = n.gmres.length) :=
  have hd : (2 : ℚ) ≠ 0 := by norm_num
  have hg : ∀ n ∈ [qNode 1 3 [3, 4, 1, 2], qNode 4 6 [0, 0, 2, 1]], 2 ≤ n.gmres.length := by
    simp [qNode]
  ⟨⟨hd, hg⟩, set_rhs_scales [qNode 1 3 [3, 4, 1, 2], qNode 4 6 [0, 0, 2, 1]] 2 hd hg⟩

theorem slotDot_comm {δ : Type} [Field δ] (a b : Nat) (n : Node δ) :
    slotDot a b n = slotDot b a n := by
  simp only [slotDot, mul_comm]

theorem slotSq_eq_slotDot {δ : Type} [Field δ] (x : Nat) (n : Node δ) :
    slotSq x n = slotDot x x n := by
  simp only [slotSq, slotDot, sq]

theorem globalDot_comm {δ : Type} [Field δ] (a b : Nat) (nodes_ : List (List (Node δ))) :
    globalDot a b nodes_ = globalDot b a nodes_ := by
  simp only [globalDot]
  congr 1
  apply List.map_congr_left
  intro n _
  exact slotDot_comm a b n

theorem getD_subSlot_ne {δ : Type} [Field δ] (x y : Nat) (h : δ) (n : Node δ) (k : Nat)
    (h0 : k ≠ 2 * x) (h1 : k ≠ 2 * x + 1) :
    (subSlot x y h n).gmres.getD k 0 = n.gmres.getD k 0 := by
  simp only [List.getD_eq_getElem?_getD, subSlot_getElem? x y h n k h0 h1]

theorem getD_subSlot_fst {δ : Type} [Field δ] (x y : Nat) (h : δ) (n : Node δ)
    (hx : 2 * x + 1 < n.gmres.length) :
    (subSlot x y h n).gmres.getD (2 * x) 0
      = n.gmres.getD (2 * x) 0 - h * n.gmres.getD (2 * y) 0 := by
  simp only [List.getD_eq_getElem?_getD, subSlot]
  rw [List.getElem?_set_ne (by omega), List.getElem?_set_self (by omega)]
  rfl

theorem getD_subSlot_snd {δ : Type} [Field δ] (x y : Nat) (h : δ) (n : Node δ)
    (hx : 2 * x + 1 < n.gmres.length) :
    (subSlot x y h n).gmres.getD (2 * x + 1) 0
      = n.gmres.getD (2 * x + 1) 0 - h * n.gmres.getD (2 * y + 1) 0 := by
  simp only [List.getD_eq_getElem?_getD, subSlot]
  rw [List.getElem?_set_self (by rw [List.length_set]; exact hx)]
  rfl

theorem slotDot_subSlot_left {δ : Type} [Field δ] (x y b : Nat) (h : δ) (n : Node δ)
    (hx : 2 * x + 1 < n.gmres.length) (hb : b ≠ x) :
    slotDot x b (subSlot x y h n) = slotDot x b n - h * slotDot y b n := by
  simp only [slotDot, getD_subSlot_fst x y h n hx, getD_subSlot_snd x y h n hx,
    getD_subSlot_ne x y h n (2 * b) (by omega) (by omega),
    getD_subSlot_ne x y h n (2 * b + 1) (by omega) (by omega)]
  ring

theorem slotDot_subSlot_other {δ : Type} [Field δ] (x y a b : Nat) (h : δ) (n : Node δ)
    (ha : a ≠ x) (hb : b ≠ x) :
    slotDot a b (subSlot x y h n) = slotDot a b n := by
  simp only [slotDot, getD_subSlot_ne x y h n (2 * a) (by omega) (by omega),
    getD_subSlot_ne x y h n (2 * a + 1) (by omega) (by omega),
    getD_subSlot_ne x y h n (2 * b) (by omega) (by omega),
    getD_subSlot_ne x y h n (2 * b + 1) (by omega) (by omega)]

theorem sum_map_sub_mul {δ α : Type} [Field δ] (f g : α → δ) (h : δ) (l : List α) :
    (l.map (fun a => f a - h * g a)).sum = (l.map f).sum - h * (l.map g).sum := by
  induction l with
  | nil => simp
  | cons a l ih =>
    simp only [List.map_cons, List.sum_cons, ih]
    ring

theorem globalDot_map {δ : Type} [Field δ] (a b : Nat) (F : Node δ → Node δ)
    (nodes_ : List (List (Node δ))) :
    globalDot a b (nodes_.map (List.map F))
      = (nodes_.flatten.map (fun n => slotDot a b (F n))).sum := by
  simp only [globalDot, flatten_map_map, List.map_map]
  rfl

theorem globalDot_subSlot_left {δ : Type} [Field δ] (x y b : Nat) (h : δ)
    (nodes_ : List (List (Node δ))) (hx : slotInRange x nodes_) (hb : b ≠ x) :
    globalDot x b (nodes_.map (List.map (subSlot x y h)))
      = globalDot x b nodes_ - h * globalDot y b nodes_ := by
  rw [globalDot_map]
  simp only [globalDot]
  rw [← sum_map_sub_mul]
  congr 1
  apply List.map_congr_left
  intro n hn
  exact slotDot_subSlot_left x y b h n (mem_flatten_in_range x nodes_ hx n hn) hb

theorem globalDot_subSlot_other {δ : Type} [Field δ] (x y a b : Nat) (h : δ)
    (nodes_ : List (List (Node δ))) (ha : a ≠ x) (hb : b ≠ x) :
    globalDot a b (nodes_.map (List.map (subSlot x y h))) = globalDot a b nodes_ := by
  rw [globalDot_map]
  simp only [globalDot]
  congr 1
  apply List.map_congr_left
  intro n _
  exact slotDot_subSlot_other x y a b h n ha hb

theorem slotInRange_subSlot {δ : Type} [Field δ] (x y i : Nat) (h : δ)
    (nodes_ : List (List (Node δ))) (hi : slotInRange i nodes_) :
    slotInRange i (nodes_.map (List.map (subSlot x y h))) := by
  intro nodes hn n hnn
  obtain ⟨nodes0, h0, rfl⟩ := List.mem_map.mp hn
  obtain ⟨n0, h1, rfl⟩ := List.mem_map.mp hnn
  simp only [subSlot, List.length_set]
  exact hi nodes0 h0 n0 h1

theorem generalizedInnerProduct_dot {δ : Type} [Field δ] (sqrt : δ → δ)
    (nodes_ : List (List (Node δ))) (x y : Nat) (hxy : x ≠ y)
    (hx : slotInRange x nodes_) (hy : slotInRange y nodes_) :
    generalizedInnerProduct sqrt nodes_ x y
      = some (nodes_.map (List.map (subSlot x y (globalDot x y nodes_))),
          globalDot x y nodes_) := by
  apply generalizedInnerProduct_eq sqrt nodes_ x y
    (List.map (subSlot x y (globalDot x y nodes_)))
  · intro h0
    subst h0
    simp [globalDot]
  · exact spmd_dot sqrt nodes_ x y hxy hx hy

theorem generalizedInnerProduct_norm (nodes_ : List (List (Node ℝ))) (x : Nat)
    (hx : slotInRange x nodes_) :
    generalizedInnerProduct Real.sqrt nodes_ x x
      = some (nodes_.map (List.map (scaleSlot x (Real.sqrt (globalDot x x nodes_)))),
          Real.sqrt (globalDot x x nodes_)) := by
  have e : globalDot x x nodes_ = (nodes_.flatten.map (slotSq x)).sum := by
    simp only [globalDot]
    congr 1
    apply List.map_congr_left
    intro n _
    exact (slotSq_eq_slotDot x n).symm
  rw [e]
  apply generalizedInnerProduct_eq Real.sqrt nodes_ x x
    (List.map (scaleSlot x (Real.sqrt ((nodes_.flatten.map (slotSq x)).sum))))
  · intro h0
    subst h0
    simp
  · exact spmd_norm Real.sqrt nodes_ x hx

/-- C15 fails as stated: on a one-node store with slot 0 = `[2, 0]` (norm 2)
and slot 1 = `[1, 0]`, the call in INNER_PRODUCT mode `(1, 0)` leaves the global
inner product of the new slot 1 with slot 0 at `-6`, not 0. -/
theorem projection_orthogonal_counterexample :
    ∃ store h, generalizedInnerProduct Rat.sqrt [[qNode 0 0 [2, 0, 1, 0]]]
        ((1 : Nat) : Int) ((0 : Nat) : Int) = some (store, h) ∧
      globalDot 1 0 store = -6 := by
  have hx : slotInRange 1 [[qNode 0 0 [2, 0, 1, 0]]] := by simp [slotInRange, qNode]
  have hy : slotInRange 0 [[qNode 0 0 [2, 0, 1, 0]]] := by simp [slotInRange, qNode]
  refine ⟨_, _, generalizedInnerProduct_dot Rat.sqrt _ 1 0 (by decide) hx hy, ?_⟩
  rw [globalDot_subSlot_left 1 0 0 _ _ hx (by decide)]
  simp [globalDot, slotDot, qNode]
  norm_num

/-- C15 as amended: for in-range selectors `x ≠ y`, after one call in
INNER_PRODUCT mode `(x, y)`, which returns `h`, the global inner product of the
new slot `x` with slot `y` is `h - h * ‖slot y‖²`; it is 0 when slot `y` has
global norm 1. -/
theorem projection_orthogonal {δ : Type} [Field δ] (sqrt : δ → δ)
    (nodes_ : List (List (Node δ))) (x y : Nat) (hxy : x ≠ y)
    (hx : slotInRange x nodes_) (hy : slotInRange y nodes_) :
    generalizedInnerProduct sqrt nodes_ x y
      = some (nodes_.map (List.map (subSlot x y (globalDot x y nodes_))),
          globalDot x y nodes_) ∧
    globalDot x y (nodes_.map (List.map (subSlot x y (globalDot x y nodes_))))
      = globalDot x y nodes_ - globalDot x y nodes_ * globalDot y y nodes_ ∧
    (globalDot y y nodes_ = 1 →
      globalDot x y (nodes_.map (List.map (subSlot x y (globalDot x y nodes_)))) = 0) := by
  have e := globalDot_subSlot_left x y y (globalDot x y nodes_) nodes_ hx (Ne.symm hxy)
  refine ⟨generalizedInnerProduct_dot sqrt nodes_ x y hxy hx hy, e, ?_⟩
  intro h1
  rw [e, h1, mul_one, sub_self]

/-- Witness of the amended C15: slot 1 against the unit-norm slot 0 of a
two-rank store. -/
theorem projection_orthogonal_witness :
    ((1 : Nat) ≠ 0 ∧ slotInRange 1 [[qNode 0 0 [1, 0, 3, 4]], [qNode 0 0 [0, 0, 5, 6]]] ∧
      slotInRange 0 [[qNode 0 0 [1, 0, 3, 4]], [qNode 0 0 [0, 0, 5, 6]]]) ∧
    (generalizedInnerProduct Rat.sqrt [[qNode 0 0 [1, 0, 3, 4]], [qNode 0 0 [0, 0, 5, 6]]]
        ((1 : Nat) : Int) ((0 : Nat) : Int)
      = some (([[qNode 0 0 [1, 0, 3, 4]], [qNode 0 0 [0, 0, 5, 6]]] :
            List (List (Node ℚ))).map (List.map (subSlot 1 0
              (globalDot 1 0 [[qNode 0 0 [1, 0, 3, 4]], [qNode 0 0 [0, 0, 5, 6]]]))),
          globalDot 1 0 [[qNode 0 0 [1, 0, 3, 4]], [qNode 0 0 [0, 0, 5, 6]]]) ∧
    globalDot 1 0 (([[qNode 0 0 [1, 0, 3, 4]], [qNode 0 0 [0, 0, 5, 6]]] :
        List (List (Node ℚ))).map (List.map (subSlot 1 0
          (globalDot 1 0 [[qNode 0 0 [1, 0, 3, 4]], [qNode 0 0 [0, 0, 5, 6]]]))))
      = globalDot 1 0 [[qNode 0 0 [1, 0, 3, 4]], [qNode 0 0 [0, 0, 5, 6]]]
        - globalDot 1 0 [[qNode 0 0 [1, 0, 3, 4]], [qNode 0 0 [0, 0, 5, 6]]]
          * globalDot 0 0 [[qNode 0 0 [1, 0, 3, 4]], [qNode 0 0 [0, 0, 5, 6]]] ∧
    (globalDot 0 0 [[qNode 0 0 [1, 0, 3, 4]], [qNode 0 0 [0, 0, 5, 6]]] = 1 →
      globalDot 1 0 (([[qNode 0 0 [1, 0, 3, 4]], [qNode 0 0 [0, 0, 5, 6]]] :
        List (List (Node ℚ))).map (List.map (subSlot 1 0
          (globalDot 1 0 [[qNode 0 0 [1, 0, 3, 4]], [qNode 0 0 [0, 0, 5, 6]]])))) = 0)) :=
  have hx : slotInRange 1 [[qNode 0 0 [1, 0, 3, 4]], [qNode 0 0 [0, 0, 5, 6]]] := by
    simp [slotInRange, qNode]
  have hy : slotInRange 0 [[qNode 0 0 [1, 0, 3, 4]], [qNode 0 0 [0, 0, 5, 6]]] := by
    simp [slotInRange, qNode]
  ⟨⟨by decide, hx, hy⟩, projection_orthogonal Rat.sqrt _ 1 0 (by decide) hx hy⟩

theorem getD_scaleSlot_ne {δ : Type} [Field δ] (x : Nat) (r : δ) (n : Node δ) (k : Nat)
    (h0 : k ≠ 2 * x) (h1 : k ≠ 2 * x + 1) :
    (scaleSlot x r n).gmres.getD k 0 = n.gmres.getD k 0 := by
  simp only [List.getD_eq_getElem?_getD, scaleSlot]
  rw [List.getElem?_set_ne (by omega), List.getElem?_set_ne (by omega)]

theorem getD_scaleSlot_fst {δ : Type} [Field δ] (x : Nat) (r : δ) (n : Node δ)
    (hx : 2 * x + 1 < n.gmres.length) :
    (scaleSlot x r n).gmres.getD (2 * x) 0 = n.gmres.getD (2 * x) 0 / r := by
  simp only [List.getD_eq_getElem?_getD, scaleSlot]
  rw [List.getElem?_set_ne (by omega), List.getElem?_set_self (by omega)]
  rfl

theorem getD_scaleSlot_snd {δ : Type} [Field δ] (x : Nat) (r : δ) (n : Node δ)
    (hx : 2 * x + 1 < n.gmres.length) :
    (scaleSlot x r n).gmres.getD (2 * x + 1) 0 = n.gmres.getD (2 * x + 1) 0 / r := by
  simp only [List.getD_eq_getElem?_getD, scaleSlot]
  rw [List.getElem?_set_self (by rw [List.length_set]; exact hx)]
  rfl

theorem slotDot_scaleSlot_left {δ : Type} [Field δ] (x b : Nat) (r : δ) (n : Node δ)
    (hx : 2 * x + 1 < n.gmres.length) (hb : b ≠ x) :
    slotDot x b (scaleSlot x r n) = slotDot x b n / r := by
  simp only [slotDot, getD_scaleSlot_fst x r n hx, getD_scaleSlot_snd x r n hx,
    getD_scaleSlot_ne x r n (2 * b) (by omega) (by omega),
    getD_scaleSlot_ne x r n (2 * b + 1) (by omega) (by omega)]
  ring

theorem slotDot_scaleSlot_other {δ : Type} [Field δ] (x a b : Nat) (r : δ) (n : Node δ)
    (ha : a ≠ x) (hb : b ≠ x) :
    slotDot a b (scaleSlot x r n) = slotDot a b n := by
  simp only [slotDot, getD_scaleSlot_ne x r n (2 * a) (by omega) (by omega),
    getD_scaleSlot_ne x r n (2 * a + 1) (by omega) (by omega),
    getD_scaleSlot_ne x r n (2 * b) (by omega) (by omega),
    getD_scaleSlot_ne x r n (2 * b + 1) (by omega) (by omega)]

theorem slotDot_scaleSlot_self {δ : Type} [Field δ] (x : Nat) (r : δ) (n : Node δ)
    (hx : 2 * x + 1 < n.gmres.length) :
    slotDot x x (scaleSlot x r n) = slotDot x x n / r ^ 2 := by
  simp only [slotDot, getD_scaleSlot_fst x r n hx, getD_scaleSlot_snd x r n hx]
  ring

theorem globalDot_scaleSlot_left {δ : Type} [Field δ] (x b : Nat) (r : δ)
    (nodes_ : List (List (Node δ))) (hx : slotInRange x nodes_) (hb : b ≠ x) :
    globalDot x b (nodes_.map (List.map (scaleSlot x r))) = globalDot x b nodes_ / r := by
  rw [globalDot_map]
  simp only [globalDot]
  rw [← sum_map_div]
  congr 1
  apply List.map_congr_left
  intro n hn
  exact slotDot_scaleSlot_left x b r n (mem_flatten_in_range x nodes_ hx n hn) hb

theorem globalDot_scaleSlot_other {δ : Type} [Field δ] (x a b : Nat) (r : δ)
    (nodes_ : List (List (Node δ))) (ha : a ≠ x) (hb : b ≠ x) :
    globalDot a b (nodes_.map (List.map (scaleSlot x r))) = globalDot a b nodes_ := by
  rw [globalDot_map]
  simp only [globalDot]
  congr 1
  apply List.map_congr_left
  intro n _
  exact slotDot_scaleSlot_other x a b r n ha hb

theorem globalDot_scaleSlot_self {δ : Type} [Field δ] (x : Nat) (r : δ)
    (nodes_ : List (List (Node δ))) (hx : slotInRange x nodes_) :
    globalDot x x (nodes_.map (List.map (scaleSlot x r))) = globalDot x x nodes_ / r ^ 2 := by
  rw [globalDot_map]
  simp only [globalDot]
  rw [← sum_map_div]
  congr 1
  apply List.map_congr_left
  intro n hn
  exact slotDot_scaleSlot_self x r n (mem_flatten_in_range x nodes_ hx n hn)

theorem slotInRange_scaleSlot {δ : Type} [Field δ] (x i : Nat) (r : δ)
    (nodes_ : List (List (Node δ))) (hi : slotInRange i nodes_) :
    slotInRange i (nodes_.map (List.map (scaleSlot x r))) := by
  intro nodes hn n hnn
  obtain ⟨nodes0, h0, rfl⟩ := List.mem_map.mp hn
  obtain ⟨n0, h1, rfl⟩ := List.mem_map.mp hnn
  simp only [scaleSlot, List.length_set]
  exact hi nodes0 h0 n0 h1

theorem orthogonalize_loop {δ : Type} [Field δ] (sqrt : δ → δ) (k t : Nat)
    (nodes_ : List (List (Node δ))) (acc : List δ) (ht : t ≤ k + 1) (M : Nat) (hM : k + 1 ≤ M)
    (hrange : ∀ i, i ≤ M → slotInRange i nodes_) :
    ∃ out hs, (List.range t).foldlM (fun (s : List (List (Node δ)) × List δ) (j : Nat) =>
        match generalizedInnerProduct sqrt s.1 ((k + 1 : Nat) : Int) (j : Int) with
        | none => none
        | some r => some (r.1, s.2 ++ [r.2])) (nodes_, acc) = some (out, hs) ∧
      (∀ i, i ≤ M → slotInRange i out) ∧
      (Orthonormal k nodes_ →
        Orthonormal k out ∧ ∀ i, i < t → globalDot (k + 1) i out = 0) := by
  induction t with
  | zero =>
    exact ⟨nodes_, acc, rfl, hrange,
      fun horth => ⟨horth, fun i hi => absurd hi (Nat.not_lt_zero i)⟩⟩
  | succ t ih =>
    obtain ⟨S, hs, h1, h2, h34⟩ := ih (by omega)
    have hcall := generalizedInnerProduct_dot sqrt S (k + 1) t (by omega)
      (h2 (k + 1) hM) (h2 t (by omega))
    refine ⟨S.map (List.map (subSlot (k + 1) t (globalDot (k + 1) t S))),
      hs ++ [globalDot (k + 1) t S], ?_, ?_, ?_⟩
    · rw [List.range_succ, List.foldlM_append, h1]
      simp only [Option.bind_eq_bind, Option.some_bind, List.foldlM_cons, List.foldlM_nil,
        hcall]
      rfl
    · intro i hi
      exact slotInRange_subSlot (k + 1) t i _ S (h2 i hi)
    · intro horth
      obtain ⟨h3, h4⟩ := h34 horth
      constructor
      · intro i j hi hj
        rw [globalDot_subSlot_other (k + 1) t i j _ S (by omega) (by omega)]
        exact h3 i j hi hj
      · intro i hi
        rw [globalDot_subSlot_left (k + 1) t i _ S (h2 (k + 1) hM) (by omega)]
        by_cases c : i = t
        · subst c
          rw [h3 i i (by omega) (by omega), if_pos rfl, mul_one, sub_self]
        · rw [h4 i (by omega), h3 t i (by omega) (by omega), if_neg (fun h => c h.symm),
            mul_zero, sub_self]

theorem orthogonalize_spec {δ : Type} [Field δ] (sqrt : δ → δ) (k : Nat)
    (nodes_ : List (List (Node δ))) (M : Nat) (hM : k + 1 ≤ M)
    (hrange : ∀ i, i ≤ M → slotInRange i nodes_) :
    ∃ out hs, orthogonalize sqrt k nodes_ = some (out, hs) ∧
      (∀ i, i ≤ M → slotInRange i out) ∧
      (Orthonormal k nodes_ →
        Orthonormal k out ∧ ∀ i, i ≤ k → globalDot (k + 1) i out = 0) := by
  obtain ⟨out, hs, h1, h2, h3⟩ :=
    orthogonalize_loop sqrt k (k + 1) nodes_ [] (le_refl _) M hM hrange
  exact ⟨out, hs, h1, h2, fun horth =>
    ⟨(h3 horth).1, fun i hi => (h3 horth).2 i (by omega)⟩⟩

theorem normalize_orthonormal (k : Nat) (nodes_ : List (List (Node ℝ)))
    (hrange : slotInRange (k + 1) nodes_) (horth : Orthonormal k nodes_)
    (hzero : ∀ i, i ≤ k → globalDot (k + 1) i nodes_ = 0)
    (hr : Real.sqrt (globalDot (k + 1) (k + 1) nodes_) ≠ 0) :
    Orthonormal (k + 1) (nodes_.map (List.map
      (scaleSlot (k + 1) (Real.sqrt (globalDot (k + 1) (k + 1) nodes_))))) := by
  have hs : 0 ≤ globalDot (k + 1) (k + 1) nodes_ := by
    by_contra hneg
    exact hr (Real.sqrt_eq_zero_of_nonpos (le_of_lt (not_le.mp hneg)))
  have hne : globalDot (k + 1) (k + 1) nodes_ ≠ 0 := by
    intro h0
    rw [h0] at hr
    exact hr Real.sqrt_zero
  intro i j hi hj
  by_cases ci : i = k + 1
  · by_cases cj : j = k + 1
    · subst ci
      subst cj
      rw [globalDot_scaleSlot_self _ _ _ hrange, Real.sq_sqrt hs, if_pos rfl]
      exact div_self hne
    · subst ci
      rw [globalDot_scaleSlot_left _ _ _ _ hrange cj, hzero j (by omega), zero_div,
        if_neg (fun h => cj h.symm)]
  · by_cases cj : j = k + 1
    · subst cj
      rw [globalDot_comm, globalDot_scaleSlot_left _ _ _ _ hrange ci, hzero i (by omega),
        zero_div, if_neg ci]
    · rw [globalDot_scaleSlot_other _ _ _ _ _ ci cj]
      exact horth i j (by omega) (by omega)

theorem normalize_first (nodes_ : List (List (Node ℝ))) (hrange : slotInRange 0 nodes_)
    (hr : Real.sqrt (globalDot 0 0 nodes_) ≠ 0) :
    Orthonormal 0 (nodes_.map (List.map (scaleSlot 0 (Real.sqrt (globalDot 0 0 nodes_))))) := by
  have hs : 0 ≤ globalDot 0 0 nodes_ := by
    by_contra hneg
    exact hr (Real.sqrt_eq_zero_of_nonpos (le_of_lt (not_le.mp hneg)))
  have hne : globalDot 0 0 nodes_ ≠ 0 := by
    intro h0
    rw [h0] at hr
    exact hr Real.sqrt_zero
  intro i j hi hj
  have ei : i = 0 := by omega
  have ej : j = 0 := by omega
  subst ei
  subst ej
  rw [globalDot_scaleSlot_self _ _ _ hrange, Real.sq_sqrt hs, if_pos rfl]
  exact div_self hne

theorem arnoldi_step_spec
    (op : Nat → List (List (Node ℝ)) → Option (List (List (Node ℝ)))) (k M : Nat)
    (hM : k + 1 ≤ M) (nodes_ : List (List (Node ℝ))) (hop : WritesNextSlot op M)
    (hrange : ∀ i, i ≤ M → slotInRange i nodes_) :
    ∃ out hs r, arnoldi_step Real.sqrt op k nodes_ = some (out, hs, r) ∧
      (∀ i, i ≤ M → slotInRange i out) ∧
      (Orthonormal k nodes_ → r ≠ 0 → Orthonormal (k + 1) out) := by
  obtain ⟨S1, o1, o2, o3⟩ := hop k nodes_ (by omega) hrange
  obtain ⟨S2, hs, p1, p2, p34⟩ := orthogonalize_spec Real.sqrt k S1 M hM o2
  have hcall := generalizedInnerProduct_norm S2 (k + 1) (p2 (k + 1) hM)
  refine ⟨S2.map (List.map (scaleSlot (k + 1) (Real.sqrt (globalDot (k + 1) (k + 1) S2)))),
    hs, Real.sqrt (globalDot (k + 1) (k + 1) S2), ?_, ?_, ?_⟩
  · simp only [arnoldi_step, o1, p1, hcall]
  · intro i hi
    exact slotInRange_scaleSlot (k + 1) i _ S2 (p2 i hi)
  · intro horth hr
    have horth1 : Orthonormal k S1 := by
      intro i j hi hj
      rw [o3 i j hi hj]
      exact horth i j hi hj
    obtain ⟨p3, p4⟩ := p34 horth1
    exact normalize_orthonormal k S2 (p2 (k + 1) hM) p3 p4 hr

theorem arnoldi_spec
    (op : Nat → List (List (Node ℝ)) → Option (List (List (Node ℝ)))) (M : Nat)
    (nodes_ : List (List (Node ℝ))) (hop : WritesNextSlot op M)
    (hrange : ∀ i, i ≤ M → slotInRange i nodes_) (m : Nat) (hm : m ≤ M) :
    ∃ out rs, arnoldi Real.sqrt op m nodes_ = some (out, rs) ∧
      (∀ i, i ≤ M → slotInRange i out) ∧ ((∀ r ∈ rs, r ≠ 0) → Orthonormal m out) := by
  induction m with
  | zero =>
    have hcall := generalizedInnerProduct_norm nodes_ 0 (hrange 0 (by omega))
    refine ⟨nodes_.map (List.map (scaleSlot 0 (Real.sqrt (globalDot 0 0 nodes_)))),
      [Real.sqrt (globalDot 0 0 nodes_)], ?_, ?_, ?_⟩
    · simp only [arnoldi, hcall]
    · intro i hi
      exact slotInRange_scaleSlot 0 i _ nodes_ (hrange i hi)
    · intro hr
      exact normalize_first nodes_ (hrange 0 (by omega)) (hr _ (List.mem_singleton.mpr rfl))
  | succ m ih =>
    obtain ⟨S, rs, h1, h2, h3⟩ := ih (by omega)
    obtain ⟨out, hs, r, q1, q2, q3⟩ := arnoldi_step_spec op m M (by omega) S hop h2
    refine ⟨out, rs ++ [r], ?_, q2, ?_⟩
    · simp only [arnoldi, h1, q1]
    · intro hr
      exact q3 (h3 (fun r' hr' => hr r' (List.mem_append_left [r] hr')))
        (hr r (List.mem_append_right rs (List.mem_singleton.mpr rfl)))

theorem slotDot_copySlot_other {δ : Type} [Field δ] (src dst a b : Nat) (n : Node δ)
    (ha : a ≠ dst) (hb : b ≠ dst) :
    slotDot a b (copySlot src dst n) = slotDot a b n := by
  have e : ∀ k, k ≠ 2 * dst → k ≠ 2 * dst + 1 →
      (copySlot src dst n).gmres.getD k 0 = n.gmres.getD k 0 := by
    intro k h0 h1
    simp only [List.getD_eq_getElem?_getD, copySlot]
    rw [List.getElem?_set_ne (by omega), List.getElem?_set_ne (by omega)]
  simp only [slotDot, e (2 * a) (by omega) (by omega), e (2 * a + 1) (by omega) (by omega),
    e (2 * b) (by omega) (by omega), e (2 * b + 1) (by omega) (by omega)]

theorem identity_operator_writes {δ : Type} [Field δ] (M : Nat) :
    WritesNextSlot (identity_operator (δ := δ)) M := by
  intro k nodes_ _ hrange
  refine ⟨_, rfl, ?_, ?_⟩
  · intro i hi nodes hn n hnn
    obtain ⟨nodes0, h0, rfl⟩ := List.mem_map.mp hn
    obtain ⟨n0, h1, rfl⟩ := List.mem_map.mp hnn
    simp only [copySlot, List.length_set]
    exact hrange i hi nodes0 h0 n0 h1
  · intro i j hi hj
    rw [globalDot_map]
    simp only [globalDot]
    congr 1
    apply List.map_congr_left
    intro n _
    exact slotDot_copySlot_other k (k + 1) i j n (by omega) (by omega)

/-- C17 fails as stated: with the identity operator evaluator, starting from a
one-node store whose slot 0 is `[1, 0]`, the normalisation of slot 0 returns 1
and the one Arnoldi step that follows projects slot 1 to the zero vector, so its
NORM call returns 0 and divides by it; the slots `0 .. 1` do not end
orthonormal. -/
theorem gram_schmidt_counterexample :
    ∃ out, arnoldi Real.sqrt identity_operator 1 rStoreUnit = some (out, [1, 0]) ∧
      ¬ Orthonormal 1 out := by
  have hx0 : slotInRange 0 rStoreUnit := by simp [slotInRange, rStoreUnit, rNode]
  have hA := generalizedInnerProduct_norm rStoreUnit 0 hx0
  have eA : globalDot 0 0 rStoreUnit = 1 := by
    simp [globalDot, slotDot, rStoreUnit, rNode]
  rw [eA, Real.sqrt_one] at hA
  have eA' : rStoreUnit.map (List.map (scaleSlot 0 1)) = rStoreUnit := by
    simp [rStoreUnit, scaleSlot, rNode]
  rw [eA'] at hA
  have hB : identity_operator 0 rStoreUnit = some [[rNode 0 0 [1, 0, 1, 0]]] := by
    simp [identity_operator, copySlot, rStoreUnit, rNode]
  have hx1 : slotInRange 1 [[rNode 0 0 [1, 0, 1, 0]]] := by simp [slotInRange, rNode]
  have hy1 : slotInRange 0 [[rNode 0 0 [1, 0, 1, 0]]] := by simp [slotInRange, rNode]
  have hC := generalizedInnerProduct_dot Real.sqrt [[rNode 0 0 [1, 0, 1, 0]]] 1 0 (by decide)
    hx1 hy1
  have eC : globalDot 1 0 [[rNode 0 0 [1, 0, 1, 0]]] = 1 := by
    simp [globalDot, slotDot, rNode]
  rw [eC] at hC
  have eC' : ([[rNode 0 0 [1, 0, 1, 0]]] : List (List (Node ℝ))).map
      (List.map (subSlot 1 0 1)) = rStoreUnit := by
    simp [rStoreUnit, subSlot, rNode]
  rw [eC'] at hC
  have hx2 : slotInRange 1 rStoreUnit := by simp [slotInRange, rStoreUnit, rNode]
  have hD := generalizedInnerProduct_norm rStoreUnit 1 hx2
  have eD : globalDot 1 1 rStoreUnit = 0 := by
    simp [globalDot, slotDot, rStoreUnit, rNode]
  rw [eD, Real.sqrt_zero] at hD
  have eD' : rStoreUnit.map (List.map (scaleSlot 1 0)) = rStoreUnit := by
    simp [rStoreUnit, scaleSlot, rNode]
  rw [eD'] at hD
  simp only [Nat.cast_one, Nat.cast_zero] at hC hD
  refine ⟨rStoreUnit, ?_, ?_⟩
  · simp only [arnoldi, hA, arnoldi_step, hB, orthogonalize]
    simp [List.range_succ, hC, hD]
  · intro horth
    have h := horth 1 1 (le_refl 1) (le_refl 1)
    rw [eD, if_pos rfl] at h
    exact zero_ne_one h

theorem slotDot_turnSlot_other {δ : Type} [Field δ] (src dst a b : Nat) (n : Node δ)
    (ha : a ≠ dst) (hb : b ≠ dst) :
    slotDot a b (turnSlot src dst n) = slotDot a b n := by
  have e : ∀ k, k ≠ 2 * dst → k ≠ 2 * dst + 1 →
      (turnSlot src dst n).gmres.getD k 0 = n.gmres.getD k 0 := by
    intro k h0 h1
    simp only [List.getD_eq_getElem?_getD, turnSlot]
    rw [List.getElem?_set_ne (by omega), List.getElem?_set_ne (by omega)]
  simp only [slotDot, e (2 * a) (by omega) (by omega), e (2 * a + 1) (by omega) (by omega),
    e (2 * b) (by omega) (by omega), e (2 * b + 1) (by omega) (by omega)]

theorem quarter_turn_operator_writes {δ : Type} [Field δ] (M : Nat) :
    WritesNextSlot (quarter_turn_operator (δ := δ)) M := by
  intro k nodes_ _ hrange
  refine ⟨_, rfl, ?_, ?_⟩
  · intro i hi nodes hn n hnn
    obtain ⟨nodes0, h0, rfl⟩ := List.mem_map.mp hn
    obtain ⟨n0, h1, rfl⟩ := List.mem_map.mp hnn
    simp only [turnSlot, List.length_set]
    exact hrange i hi nodes0 h0 n0 h1
  · intro i j hi hj
    rw [globalDot_map]
    simp only [globalDot]
    congr 1
    apply List.map_congr_left
    intro n _
    exact slotDot_turnSlot_other k (k + 1) i j n (by omega) (by omega)

theorem quarter_turn_run :
    arnoldi Real.sqrt quarter_turn_operator 1 rStoreUnit
      = some ([[rNode 0 0 [1, 0, 0, 1]]], [1, 1]) := by
  have hx0 : slotInRange 0 rStoreUnit := by simp [slotInRange, rStoreUnit, rNode]
  have hA := generalizedInnerProduct_norm rStoreUnit 0 hx0
  have eA : globalDot 0 0 rStoreUnit = 1 := by
    simp [globalDot, slotDot, rStoreUnit, rNode]
  rw [eA, Real.sqrt_one] at hA
  have eA' : rStoreUnit.map (List.map (scaleSlot 0 1)) = rStoreUnit := by
    simp [rStoreUnit, scaleSlot, rNode]
  rw [eA'] at hA
  have hB : quarter_turn_operator 0 rStoreUnit = some [[rNode 0 0 [1, 0, 0, 1]]] := by
    simp [quarter_turn_operator, turnSlot, rStoreUnit, rNode]
  have hx1 : slotInRange 1 [[rNode 0 0 [1, 0, 0, 1]]] := by simp [slotInRange, rNode]
  have hy1 : slotInRange 0 [[rNode 0 0 [1, 0, 0, 1]]] := by simp [slotInRange, rNode]
  have hC := generalizedInnerProduct_dot Real.sqrt [[rNode 0 0 [1, 0, 0, 1]]] 1 0 (by decide)
    hx1 hy1
  have eC : globalDot 1 0 [[rNode 0 0 [1, 0, 0, 1]]] = 0 := by
    simp [globalDot, slotDot, rNode]
  rw [eC] at hC
  have eC' : ([[rNode 0 0 [1, 0, 0, 1]]] : List (List (Node ℝ))).map
      (List.map (subSlot 1 0 0)) = [[rNode 0 0 [1, 0, 0, 1]]] := by
    simp [subSlot, rNode]
  rw [eC'] at hC
  have hD := generalizedInnerProduct_norm [[rNode 0 0 [1, 0, 0, 1]]] 1 hx1
  have eD : globalDot 1 1 [[rNode 0 0 [1, 0, 0, 1]]] = 1 := by
    simp [globalDot, slotDot, rNode]
  rw [eD, Real.sqrt_one] at hD
  have eD' : ([[rNode 0 0 [1, 0, 0, 1]]] : List (List (Node ℝ))).map
      (List.map (scaleSlot 1 1)) = [[rNode 0 0 [1, 0, 0, 1]]] := by
    simp [scaleSlot, rNode]
  rw [eD'] at hD
  simp only [Nat.cast_one, Nat.cast_zero] at hC hD
  simp only [arnoldi, hA, arnoldi_step, hB, orthogonalize]
  simp [List.range_succ, hC, hD]

/-- C17 as amended: for an operator evaluator that writes slot `k+1` only and a
store holding the slots `0 .. M`, the normalisation of slot 0 followed by the
Arnoldi steps `k = 0 .. m-1` (`m ≤ M`) runs to the end, and when none of the
norms the NORM calls returned is zero the slots `0 .. m` are pairwise orthogonal
with global norm 1.  For one step: if the slots `0 .. k` are orthonormal, the
step runs to the end and, when the norm it returns is not zero, the slots
`0 .. k+1` are orthonormal. -/
theorem gram_schmidt_orthonormal
    (op : Nat → List (List (Node ℝ)) → Option (List (List (Node ℝ)))) (M : Nat)
    (nodes_ : List (List (Node ℝ))) (hop : WritesNextSlot op M)
    (hrange : ∀ i, i ≤ M → slotInRange i nodes_) :
    (∀ m, m ≤ M → ∃ out rs, arnoldi Real.sqrt op m nodes_ = some (out, rs) ∧
      ((∀ r ∈ rs, r ≠ 0) → Orthonormal m out)) ∧
    (∀ k store, k + 1 ≤ M → (∀ i, i ≤ M → slotInRange i store) → Orthonormal k store →
      ∃ out hs r, arnoldi_step Real.sqrt op k store = some (out, hs, r) ∧
        (r ≠ 0 → Orthonormal (k + 1) out)) := by
  constructor
  · intro m hm
    obtain ⟨out, rs, h1, _, h3⟩ := arnoldi_spec op M nodes_ hop hrange m hm
    exact ⟨out, rs, h1, h3⟩
  · intro k store hk hr horth
    obtain ⟨out, hs, r, h1, _, h3⟩ := arnoldi_step_spec op k M hk store hop hr
    exact ⟨out, hs, r, h1, h3 horth⟩

/-- Witness of the amended C17: the quarter-turn operator on a one-node store;
the two norms returned are 1 and the slots 0, 1 end orthonormal. -/
theorem gram_schmidt_orthonormal_witness :
    (WritesNextSlot (quarter_turn_operator (δ := ℝ)) 1 ∧
      ∀ i, i ≤ 1 → slotInRange i rStoreUnit) ∧
    ((∀ m, m ≤ 1 → ∃ out rs,
        arnoldi Real.sqrt quarter_turn_operator m rStoreUnit = some (out, rs) ∧
        ((∀ r ∈ rs, r ≠ 0) → Orthonormal m out)) ∧
      (∀ k store, k + 1 ≤ 1 → (∀ i, i ≤ 1 → slotInRange i store) → Orthonormal k store →
        ∃ out hs r, arnoldi_step Real.sqrt quarter_turn_operator k store = some (out, hs, r) ∧
          (r ≠ 0 → Orthonormal (k + 1) out))) ∧
    Orthonormal 1 ([[rNode 0 0 [1, 0, 0, 1]]] : List (List (Node ℝ))) :=
  have hop : WritesNextSlot (quarter_turn_operator (δ := ℝ)) 1 := quarter_turn_operator_writes 1
  have hrange : ∀ i, i ≤ 1 → slotInRange i rStoreUnit := by
    intro i hi
    simp [slotInRange, rStoreUnit, rNode]
    omega
  have h := gram_schmidt_orthonormal quarter_turn_operator 1 rStoreUnit hop hrange
  ⟨⟨hop, hrange⟩, gram_schmidt_orthonormal quarter_turn_operator 1 rStoreUnit hop hrange, by
    obtain ⟨out, rs, h1, h2⟩ := h.1 1 (le_refl 1)
    rw [quarter_turn_run] at h1
    simp only [Option.some.injEq, Prod.mk.injEq] at h1
    obtain ⟨e1, e2⟩ := h1
    subst e1
    subst e2
    exact h2 (by simp)⟩

theorem foldlM_sum_op_fold {δ : Type} [Add δ] (cs : List δ) (a : δ) :
    cs.foldlM (fun acc c => sum_op_handler acc [c] sizeofDouble) [a]
      = some [cs.foldl (fun acc c => acc + c) a] := by
  induction cs generalizing a with
  | nil => simp
  | cons c cs ih => simp [sum_op_handler_one, ih]

theorem lco_reduce_fold {δ : Type} [Zero δ] [Add δ] (cs : List δ) :
    lco_reduce cs = some (cs.foldl (fun acc c => acc + c) 0) := by
  simp [lco_reduce, sum_ident_handler_one, foldlM_sum_op_fold, vecGet]

theorem foldlM_eq_foldl {θ α : Type} (F : θ → α → Option θ) (f : θ → α → θ)
    (l : List α) (init : θ) (h : ∀ a ∈ l, ∀ t, F t a = some (f t a)) :
    l.foldlM F init = some (l.foldl f init) := by
  induction l generalizing init with
  | nil => simp
  | cons a l ih =>
    have ha := h a (List.mem_cons_self a l) init
    have hl := ih (f init a) (fun b hb => h b (List.mem_cons_of_mem a hb))
    simp [ha, hl]

theorem local_norm_fold {δ : Type} [Zero δ] [Add δ] [Mul δ] [Pow δ ℕ] (nodes : List (Node δ))
    (x : Nat) (hx : ∀ n ∈ nodes, 2 * x + 1 < n.gmres.length) :
    inner_product_local nodes x x = some (localSq x nodes) := by
  have h := foldlM_eq_foldl (fun (temp : δ) (n : Node δ) =>
      match vecGet n.gmres (2 * (x : Int)), vecGet n.gmres (2 * (x : Int) + 1) with
      | some a, some b => some (temp + (a ^ 2 + b ^ 2))
      | _, _ => none)
      (fun temp n => temp + (n.gmres.getD (2 * x) 0 ^ 2 + n.gmres.getD (2 * x + 1) 0 ^ 2))
      nodes 0 (by
    intro n hn t
    have h1 := hx n hn
    simp only [two_mul_natCast, natCast_add_one, vecGet_natCast,
      getElem?_eq_some_getD n.gmres (2 * x) 0 (by omega),
      getElem?_eq_some_getD n.gmres (2 * x + 1) 0 h1])
  simp only [inner_product_local, true_or, if_true, natCast_ne_neg_one, if_false]
  exact h

theorem spmd_norm_fold {δ : Type} [Zero δ] [Add δ] [Sub δ] [Mul δ] [Div δ] [Pow δ ℕ]
    (sqrt : δ → δ) (nodes_ : List (List (Node δ))) (x : Nat) (hx : slotInRange x nodes_) :
    inner_product_spmd sqrt nodes_ x x
      = some (nodes_.map (fun nodes =>
          (nodes.map (scaleSlot x (sqrt (reducedSq x nodes_))), sqrt (reducedSq x nodes_)))) := by
  have hc := mapM_eq_some_map (fun nodes => inner_product_local nodes (x : Int) (x : Int))
    (localSq x) nodes_ (fun nodes hn => local_norm_fold nodes x (hx nodes hn))
  simp only [inner_product_spmd, hc]
  apply mapM_eq_some_map
  intro nodes hn
  simp only [inner_product_handler, local_norm_fold nodes x (hx nodes hn), lco_reduce_fold]
  exact update_norm sqrt nodes x _ (hx nodes hn)

theorem generalizedInnerProduct_zero_norm {δ : Type} [Zero δ] [Add δ] [Sub δ] [Mul δ] [Div δ]
    [Pow δ ℕ] (sqrt : δ → δ) (nodes_ : List (List (Node δ))) (x : Nat)
    (hx : slotInRange x nodes_) (hs : sqrt 0 = 0) (h0 : reducedSq x nodes_ = 0) :
    generalizedInnerProduct sqrt nodes_ x x
      = some (nodes_.map (List.map (scaleSlot x 0)), 0) := by
  have h := spmd_norm_fold sqrt nodes_ x hx
  rw [h0, hs] at h
  exact generalizedInnerProduct_eq sqrt nodes_ x x (List.map (scaleSlot x 0)) 0 (fun _ => rfl) h

theorem dbl_zero : (0 : Dbl) = Dbl.fin 0 := rfl

theorem dbl_sqrt_zero : Dbl.sqrt 0 = 0 := by
  simp [dbl_zero, Dbl.sqrt, Rat.sqrt]

theorem dStoreZ_reduced : reducedSq 0 dStoreZ = 0 := by
  have hp : ∀ a : ℚ, (Dbl.fin a) ^ 2 = Dbl.fin (a ^ 2) := fun _ => rfl
  have ha : ∀ a b : ℚ, Dbl.fin a + Dbl.fin b = Dbl.fin (a + b) := fun _ _ => rfl
  simp [reducedSq, localSq, dStoreZ, dNode, hp, ha, dbl_zero]

theorem dStoreZ_scaled :
    dStoreZ.map (List.map (scaleSlot 0 0))
      = [[dNode [Dbl.nan, Dbl.nan, Dbl.fin 1, Dbl.fin 0]],
         [dNode [Dbl.nan, Dbl.nan, Dbl.fin 0, Dbl.fin 1]]] := by
  have hd : Dbl.fin 0 / (0 : Dbl) = Dbl.nan := rfl
  simp [dStoreZ, scaleSlot, dNode, hd]

/-- C20 fails as stated: on a store of doubles whose slot 0 is `[0, 0]` on every
node the reduced sum of squares is zero, the call in NORM mode `(0, 0)` returns
normally with the value 0, and it has divided: both entries of slot 0 of every
node, `0` before, are not-a-number afterwards. -/
theorem zero_norm_counterexample :
    reducedSq 0 dStoreZ = 0 ∧
    generalizedInnerProduct Dbl.sqrt dStoreZ ((0 : Nat) : Int) ((0 : Nat) : Int)
      = some ([[dNode [Dbl.nan, Dbl.nan, Dbl.fin 1, Dbl.fin 0]],
               [dNode [Dbl.nan, Dbl.nan, Dbl.fin 0, Dbl.fin 1]]], 0) ∧
    dStoreZ ≠ [[dNode [Dbl.nan, Dbl.nan, Dbl.fin 1, Dbl.fin 0]],
               [dNode [Dbl.nan, Dbl.nan, Dbl.fin 0, Dbl.fin 1]]] := by
  have hx : slotInRange 0 dStoreZ := by simp [slotInRange, dStoreZ, dNode]
  have h := generalizedInnerProduct_zero_norm Dbl.sqrt dStoreZ 0 hx dbl_sqrt_zero dStoreZ_reduced
  rw [dStoreZ_scaled] at h
  refine ⟨dStoreZ_reduced, h, ?_⟩
  simp [dStoreZ, dNode]

/-- C20 as amended: in NORM mode (`x = y ≥ 0`, slot `x` in range) the handler
has no test on the reduced value.  For every arithmetic of the doubles (any
zero, sum, difference, product, quotient, power and square root, with
`sqrt 0 = 0`), when the reduced sum of squares of slot `x` is zero the call
returns normally with the value 0 and on every node the two entries of slot `x`
have been replaced by their quotient by that 0; nothing else has changed. -/
theorem zero_norm_divides {δ : Type} [Zero δ] [Add δ] [Sub δ] [Mul δ] [Div δ] [Pow δ ℕ]
    (sqrt : δ → δ) (nodes_ : List (List (Node δ))) (x : Nat)
    (hx : slotInRange x nodes_) (hs : sqrt 0 = 0) (h0 : reducedSq x nodes_ = 0) :
    generalizedInnerProduct sqrt nodes_ x x
      = some (nodes_.map (List.map (scaleSlot x 0)), 0) ∧
    ∀ nodes ∈ nodes_, ∀ n ∈ nodes,
      (scaleSlot x 0 n).gmres[2 * x]? = some (n.gmres.getD (2 * x) 0 / 0) ∧
      (scaleSlot x 0 n).gmres[2 * x + 1]? = some (n.gmres.getD (2 * x + 1) 0 / 0) ∧
      (∀ k, k ≠ 2 * x → k ≠ 2 * x + 1 → (scaleSlot x 0 n).gmres[k]? = n.gmres[k]?) ∧
      (scaleSlot x 0 n).gmres.length = n.gmres.length ∧
      (scaleSlot x 0 n).rhs = n.rhs ∧ (scaleSlot x 0 n).x0 = n.x0 := by
  refine ⟨generalizedInnerProduct_zero_norm sqrt nodes_ x hx hs h0, ?_⟩
  intro nodes hn n hnn
  have h1 := hx nodes hn n hnn
  refine ⟨?_, ?_, ?_, ?_, rfl, rfl⟩
  · simp only [scaleSlot]
    rw [List.getElem?_set_ne (by omega), List.getElem?_set_self (by omega)]
  · simp only [scaleSlot]
    rw [List.getElem?_set_self (by rw [List.length_set]; exact h1)]
  · intro k k0 k1
    simp only [scaleSlot]
    rw [List.getElem?_set_ne (by omega), List.getElem?_set_ne (by omega)]
  · simp only [scaleSlot, List.length_set]

/-- Witness of the amended C20 on the store of doubles whose slot 0 is zero:
the quotient `0 / 0` written into slot 0 is not-a-number. -/
theorem zero_norm_divides_witness :
    (slotInRange 0 dStoreZ ∧ Dbl.sqrt 0 = 0 ∧ reducedSq 0 dStoreZ = 0) ∧
    (generalizedInnerProduct Dbl.sqrt dStoreZ ((0 : Nat) : Int) ((0 : Nat) : Int)
      = some (dStoreZ.map (List.map (scaleSlot 0 0)), 0) ∧
    ∀ nodes ∈ dStoreZ, ∀ n ∈ nodes,
      (scaleSlot 0 0 n).gmres[2 * 0]? = some (n.gmres.getD (2 * 0) 0 / 0) ∧
      (scaleSlot 0 0 n).gmres[2 * 0 + 1]? = some (n.gmres.getD (2 * 0 + 1) 0 / 0) ∧
      (∀ k, k ≠ 2 * 0 → k ≠ 2 * 0 + 1 → (scaleSlot 0 0 n).gmres[k]? = n.gmres[k]?) ∧
      (scaleSlot 0 0 n).gmres.length = n.gmres.length ∧
      (scaleSlot 0 0 n).rhs = n.rhs ∧ (scaleSlot 0 0 n).x0 = n.x0) ∧
    (Dbl.fin 0 / (0 : Dbl) = Dbl.nan) :=
  have hx : slotInRange 0 dStoreZ := by simp [slotInRange, dStoreZ, dNode]
  ⟨⟨hx, dbl_sqrt_zero, dStoreZ_reduced⟩,
    zero_norm_divides Dbl.sqrt dStoreZ 0 hx dbl_sqrt_zero dStoreZ_reduced, rfl⟩

end dafmpb
